import Mathlib

/-!
# HD44780 16x2 LCD behind a PCF8574 I2C expander: a model of `i2c_lcd_driver.c`

The driver's functions are embedded as pure functions over an explicit `World`.

* The I2C transport (`i2c_smbus_write_byte`, `i2c_smbus_read_byte`) is kernel code
  outside the driver.  It is modelled by an oracle held by the `i2c_client`: the
  result of the k-th write (which may depend on the byte written) and of the k-th
  read.  Any behaviour of bus and controller is some oracle.
* `World.trace` is a chronological log: every bus transfer, every `msleep`, and the
  entry into every driver function.  The log is ghost state; no function reads it.
* `lcd_write_4bit_command` contains the only unbounded loop (`while(busy_flag)`).
  It takes a fuel argument bounding the number of loop iterations; `Res.running`
  is the outcome of a call that is still polling when the fuel is used up, and it
  carries the world reached so far.
* Machine integers are `Nat`/`Int`; a conversion to `u8` is an explicit `% 256`.
  Bytes held in memory (`char msg[]`, the user buffer) are `Fin 256`.
-/

namespace LcdDriver

/-! ## Constants -/

/-- The constant `WRITE_BUF_LENGTH`, 34: the size of the static buffer `msg`. -/
def WRITE_BUF_LENGTH : Nat := 34

/-- The constant `LCD_NUMBER_OF_LINES`, 2. -/
def LCD_NUMBER_OF_LINES : Int := 2

/-- The constant `LCD_NUMBER_OF_SYMBOLS_PER_LINE`, 16. -/
def LCD_NUMBER_OF_SYMBOLS_PER_LINE : Int := 16

/-- Linux errno value of `EFAULT` (asm-generic/errno-base.h). -/
def EFAULT : Int := 14

/-- Linux errno value of `ENODEV` (asm-generic/errno-base.h). -/
def ENODEV : Int := 19

/-- Linux errno value of `EINVAL` (asm-generic/errno-base.h). -/
def EINVAL : Int := 22

/-- Linux errno value of `EMSGSIZE` (asm-generic/errno.h). -/
def EMSGSIZE : Int := 90

/-- A byte held in memory. -/
abbrev Byte := Fin 256

/-- Conversion of a C `int` to `u8`. -/
def u8 (x : Int) : Nat := (x % 256).toNat

/-! ## The world: bus oracle and event log -/

/-- One entry of the chronological log. -/
inductive Ev where
  | i2c_smbus_write_byte (byte : Nat)
  | i2c_smbus_read_byte
  | msleep (ms : Nat)
  | get_busy_flag
  | lcd_write_4bit_command (command : Nat)
  | lcd_write_4bit_data (command : Nat)
  | lcd_write_half_of_4bit_command (command : Nat)
  | lcd_init
  | lcd_set_cursor (pos : Int)
  | lcd_print_char (symbol : Nat)
  | lcd_clear
  deriving DecidableEq

/-- The I2C client handle.  `write_result k b` is what the k-th call of
`i2c_smbus_write_byte` returns when it writes `b` (0 on success, an error code
otherwise); `read_result k` is what the k-th call of `i2c_smbus_read_byte` returns
(negative on failure, else the byte read). -/
structure i2c_client where
  write_result : Nat → Nat → Int
  read_result : Nat → Int

/-- The log and the number of bus writes and reads made so far. -/
structure World where
  trace : List Ev
  writes : Nat
  reads : Nat
  deriving DecidableEq

/-- Outcome of a call that may poll: it returned `ret` in world `w`, or it is still
inside the poll loop when the fuel is used up. -/
inductive Res (α : Type) where
  | done (ret : α) (w : World)
  | running (w : World)
  deriving DecidableEq

/-- Append an event to the log. -/
def World.log (w : World) (e : Ev) : World :=
  { trace := w.trace ++ [e], writes := w.writes, reads := w.reads }

/-- Kernel `i2c_smbus_write_byte`: the oracle gives the result. -/
def i2c_smbus_write_byte (client : i2c_client) (w : World) (byte : Nat) : Int × World :=
  (client.write_result w.writes byte,
   { trace := w.trace ++ [Ev.i2c_smbus_write_byte byte],
     writes := w.writes + 1, reads := w.reads })

/-- Kernel `i2c_smbus_read_byte`: the oracle gives the result. -/
def i2c_smbus_read_byte (client : i2c_client) (w : World) : Int × World :=
  (client.read_result w.reads,
   { trace := w.trace ++ [Ev.i2c_smbus_read_byte],
     writes := w.writes, reads := w.reads + 1 })

/-- Kernel `msleep`. -/
def msleep (w : World) (ms : Nat) : World := w.log (Ev.msleep ms)

/-! ## Expander write, busy flag, nibble protocol -/

/-- The function `gpio_expander_write_byte`: one bus write, its error code handed on. -/
def gpio_expander_write_byte (client : i2c_client) (w : World) (byte : Nat) : Int × World :=
  let r := i2c_smbus_write_byte client w byte
  if r.1 ≠ 0 then (r.1, r.2) else (0, r.2)

/-- The function `get_busy_flag`.  The third argument is the value of `*busy_flag` at entry; the
result is `(return value, *busy_flag at exit, world)`. -/
def get_busy_flag (client : i2c_client) (w : World) (busy_flag : Int) : Int × Int × World :=
  let w := w.log Ev.get_busy_flag
  let r1 := i2c_smbus_write_byte client w 0xFE
  let ret := r1.1
  if ret ≠ 0 then (ret, busy_flag, r1.2) else
  let r2 := i2c_smbus_read_byte client r1.2
  let read_data := r2.1
  if read_data < 0 then (ret, busy_flag, r2.2) else
  let high_side := u8 read_data
  let r3 := i2c_smbus_write_byte client r2.2 0xFA
  let ret := r3.1
  if ret ≠ 0 then (ret, busy_flag, r3.2) else
  let r4 := i2c_smbus_write_byte client r3.2 0xFE
  let ret := r4.1
  if ret ≠ 0 then (ret, busy_flag, r4.2) else
  let r5 := i2c_smbus_read_byte client r4.2
  let read_data := r5.1
  if read_data < 0 then (ret, busy_flag, r5.2) else
  let low_side := u8 read_data
  let full_data_byte := ((high_side <<< 4) ||| low_side) % 256
  (0, ((full_data_byte &&& 0x80 : Nat) : Int), r5.2)

/-- The four nibble writes of `lcd_write_4bit_command` (the code after the loop).
Each `gpio_sequence` is below 256 as computed, so its assignment to a `u8` changes
nothing. -/
def lcd_write_4bit_command_send (client : i2c_client) (w : World) (command : Nat) : Int × World :=
  let gpio_sequence := (command &&& 0xF0) ||| 0xC ||| 0x0
  let r1 := gpio_expander_write_byte client w gpio_sequence
  if r1.1 ≠ 0 then (r1.1, r1.2) else
  let gpio_sequence := gpio_sequence ^^^ 0x4
  let r2 := gpio_expander_write_byte client r1.2 gpio_sequence
  if r2.1 ≠ 0 then (r2.1, r2.2) else
  let gpio_sequence := ((command &&& 0x0F) <<< 4) ||| 0xC ||| 0x0
  let r3 := gpio_expander_write_byte client r2.2 gpio_sequence
  if r3.1 ≠ 0 then (r3.1, r3.2) else
  let gpio_sequence := gpio_sequence ^^^ 0x4
  let r4 := gpio_expander_write_byte client r3.2 gpio_sequence
  if r4.1 ≠ 0 then (r4.1, r4.2) else
  (0, r4.2)

/-- The `while(busy_flag)` loop of `lcd_write_4bit_command` followed by the rest of
the function; `fuel` bounds the number of iterations. -/
def lcd_write_4bit_command_loop (client : i2c_client) (command : Nat) :
    Nat → Int → World → Res Int
  | fuel, busy_flag, w =>
    if busy_flag ≠ 0 then
      match fuel with
      | 0 => Res.running w
      | fuel + 1 =>
        let g := get_busy_flag client w busy_flag
        if g.1 ≠ 0 then Res.done (-ENODEV) g.2.2
        else
          let busy_flag := g.2.1
          let w := if busy_flag ≠ 0 then msleep g.2.2 10 else g.2.2
          lcd_write_4bit_command_loop client command fuel busy_flag w
    else
      let r := lcd_write_4bit_command_send client w command
      Res.done r.1 r.2

/-- The function `lcd_write_4bit_command`; `command` is a `u8`.  `busy_flag` starts
at 1. -/
def lcd_write_4bit_command (fuel : Nat) (client : i2c_client) (w : World) (command : Nat) :
    Res Int :=
  lcd_write_4bit_command_loop client command fuel 1 (w.log (Ev.lcd_write_4bit_command command))

/-- The function `lcd_write_4bit_data`; `command` is a `u8`.  Each `gpio_sequence`
is below 256 as computed, so its assignment to a `u8` changes nothing. -/
def lcd_write_4bit_data (client : i2c_client) (w : World) (command : Nat) : Int × World :=
  let w := w.log (Ev.lcd_write_4bit_data command)
  let gpio_sequence := (command &&& 0xF0) ||| 0xC ||| 0x1
  let r1 := gpio_expander_write_byte client w gpio_sequence
  if r1.1 ≠ 0 then (r1.1, r1.2) else
  let gpio_sequence := gpio_sequence ^^^ 0x4
  let r2 := gpio_expander_write_byte client r1.2 gpio_sequence
  if r2.1 ≠ 0 then (r2.1, r2.2) else
  let gpio_sequence := ((command &&& 0x0F) <<< 4) ||| 0xC ||| 0x1
  let r3 := gpio_expander_write_byte client r2.2 gpio_sequence
  if r3.1 ≠ 0 then (r3.1, r3.2) else
  let gpio_sequence := gpio_sequence ^^^ 0x4
  let r4 := gpio_expander_write_byte client r3.2 gpio_sequence
  if r4.1 ≠ 0 then (r4.1, r4.2) else
  (0, r4.2)

/-- The function `lcd_write_half_of_4bit_command`; `command` is a `u8`. -/
def lcd_write_half_of_4bit_command (client : i2c_client) (w : World) (command : Nat) :
    Int × World :=
  let w := w.log (Ev.lcd_write_half_of_4bit_command command)
  let gpio_sequence := (command &&& 0xF0) ||| 0xC ||| 0x0
  let r1 := gpio_expander_write_byte client w gpio_sequence
  if r1.1 ≠ 0 then (r1.1, r1.2) else
  let gpio_sequence := gpio_sequence ^^^ 0x4
  let r2 := gpio_expander_write_byte client r1.2 gpio_sequence
  if r2.1 ≠ 0 then (r2.1, r2.2) else
  (0, r2.2)

/-! ## Display operations -/

/-- The function `lcd_set_cursor`; `pos` is an `int`, converted to `u8` at the call
of `lcd_write_4bit_command`. -/
def lcd_set_cursor (fuel : Nat) (client : i2c_client) (w : World) (pos : Int) : Res Int :=
  let w := w.log (Ev.lcd_set_cursor pos)
  if pos < 0 ∨ pos > LCD_NUMBER_OF_LINES * LCD_NUMBER_OF_SYMBOLS_PER_LINE - 1 then
    Res.done (-EINVAL) w
  else
    let pos := if pos > LCD_NUMBER_OF_SYMBOLS_PER_LINE - 1
      then pos - LCD_NUMBER_OF_SYMBOLS_PER_LINE + 0x40 else pos
    let pos := Int.lor pos 0x80
    lcd_write_4bit_command fuel client w (u8 pos)

/-- The function `lcd_print_char`. -/
def lcd_print_char (client : i2c_client) (w : World) (symbol : Nat) : Int × World :=
  lcd_write_4bit_data client (w.log (Ev.lcd_print_char symbol)) symbol

/-- The function `lcd_clear`. -/
def lcd_clear (fuel : Nat) (client : i2c_client) (w : World) : Res Int :=
  lcd_write_4bit_command fuel client (w.log Ev.lcd_clear) 0x01

/-- The function `lcd_init`. -/
def lcd_init (fuel : Nat) (client : i2c_client) (w : World) : Res Int :=
  let w := w.log Ev.lcd_init
  let r := lcd_write_half_of_4bit_command client w 0x20
  if r.1 ≠ 0 then Res.done r.1 r.2 else
  match lcd_write_4bit_command fuel client r.2 0x28 with
  | Res.running w => Res.running w
  | Res.done ret w =>
    if ret ≠ 0 then Res.done ret w else
    match lcd_write_4bit_command fuel client w 0x0F with
    | Res.running w => Res.running w
    | Res.done ret w =>
      if ret ≠ 0 then Res.done ret w else
      match lcd_clear fuel client w with
      | Res.running w => Res.running w
      | Res.done ret w =>
        if ret ≠ 0 then Res.done ret w else
        match lcd_set_cursor fuel client w 0 with
        | Res.running w => Res.running w
        | Res.done ret w =>
          if ret ≠ 0 then Res.done ret w else Res.done 0 w

/-! ## The write system call -/

/-- The type `struct i2c_dev_data`, reduced to the field the driver's core uses. -/
structure i2c_dev_data where
  client : i2c_client

/-- The type `struct file`, reduced to `private_data` (`none` is `NULL`). -/
structure file where
  private_data : Option i2c_dev_data

/-- Kernel `copy_from_user(msg + off, buff, n)`.  `buff` lists the bytes of user
memory readable at the source address: when fewer than `n` are readable the copy
stops there, the rest of the destination is zeroed, and the number of bytes not
copied is returned.  The result is `(bytes not copied, msg after the call)`. -/
def copy_from_user (msg : List Byte) (off : Nat) (buff : List Byte) (n : Nat) :
    Nat × List Byte :=
  (n - buff.length,
   msg.take off ++ ((buff.take n ++ List.replicate (n - buff.length) 0) ++ msg.drop (off + n)))

/-- Library `strchr(s, c)`, as the index of the first `c` (`none` is `NULL`).  The
search ends at the first NUL byte.  The end of the list is the end of the array;
the driver keeps `msg[33] = 0`, so the search does not get there. -/
def strchr : List Byte → Byte → Option Nat
  | [], _ => none
  | b :: s, c =>
    if b = c then some 0
    else if b = 0 then none
    else (strchr s c).map (· + 1)

/-- What `device_write` leaves behind when it returns: the return value, `*off` and
the static buffer `msg`. -/
structure WriteRet where
  ret : Int
  off : Nat
  msg : List Byte
  deriving DecidableEq

/-- The `for` loop of `device_write`.  The first argument counts the iterations
left (`*off - i`), the second is `i`.  `done none` is the loop ending (by `break`
or by `i < *off` failing), `done (some r)` is `return r` from inside the loop. -/
def device_write_for (fuel : Nat) (client : i2c_client) (msg : List Byte) :
    Nat → Nat → World → Res (Option Int)
  | 0, _, w => Res.done none w
  | n + 1, i, w =>
    if msg.getD i 0 = 10 then Res.done none w
    else
      match (if (i : Int) = LCD_NUMBER_OF_SYMBOLS_PER_LINE
             then lcd_set_cursor fuel client w 16 else Res.done 0 w) with
      | Res.running w => Res.running w
      | Res.done ret w =>
        if ret ≠ 0 then Res.done (some (-EFAULT)) w else
        let r := lcd_print_char client w (msg.getD i 0).val
        if r.1 ≠ 0 then Res.done (some (-EFAULT)) r.2 else
        device_write_for fuel client msg n (i + 1) r.2

/-- The function `device_write`.  `len` is a `size_t` and `off` the file position, which the VFS
keeps non-negative; `len + *off` is computed in 64-bit unsigned arithmetic. -/
def device_write (fuel : Nat) (filp : file) (buff : List Byte) (len : Nat) (off : Nat)
    (msg : List Byte) (w : World) : Res WriteRet :=
  match filp.private_data with
  | none => Res.done ⟨-ENODEV, off, msg⟩ w
  | some dev_data =>
    if (len + off) % 2 ^ 64 > WRITE_BUF_LENGTH - 1 then
      Res.done ⟨-EMSGSIZE, off, msg⟩ w
    else
      let cp := copy_from_user msg off buff len
      if cp.1 ≠ 0 then Res.done ⟨-EFAULT, off, cp.2⟩ w else
      let msg := cp.2
      let off := off + len
      if strchr msg 10 = none then Res.done ⟨len, off, msg⟩ w else
      match lcd_clear fuel dev_data.client w with
      | Res.running w => Res.running w
      | Res.done ret w =>
        if ret ≠ 0 then Res.done ⟨-EFAULT, off, msg⟩ w else
        match lcd_set_cursor fuel dev_data.client w 0 with
        | Res.running w => Res.running w
        | Res.done ret w =>
          if ret ≠ 0 then Res.done ⟨-EFAULT, off, msg⟩ w else
          match device_write_for fuel dev_data.client msg off 0 w with
          | Res.running w => Res.running w
          | Res.done (some r) w => Res.done ⟨r, off, msg⟩ w
          | Res.done none w => Res.done ⟨len, 0, List.replicate WRITE_BUF_LENGTH 0⟩ w

/-! ## Observations on outcomes and logs -/

/-- The world an outcome carries. -/
def Res.world {α : Type} : Res α → World
  | Res.done _ w => w
  | Res.running w => w

/-- Display operations: calls of `lcd_clear`, `lcd_set_cursor`, `lcd_print_char`. -/
def isDisplayOp : Ev → Bool
  | Ev.lcd_clear => true
  | Ev.lcd_set_cursor _ => true
  | Ev.lcd_print_char _ => true
  | _ => false

/-- The display operations of a log, in order. -/
def displayOps (t : List Ev) : List Ev := t.filter isDisplayOp

/-- Bus transfers: calls of `i2c_smbus_write_byte` and `i2c_smbus_read_byte`. -/
def isBusTransfer : Ev → Bool
  | Ev.i2c_smbus_write_byte _ => true
  | Ev.i2c_smbus_read_byte => true
  | _ => false

/-- The bus transfers of a log, in order. -/
def busTransfers (t : List Ev) : List Ev := t.filter isBusTransfer


/-- The display operations the `for` loop of `device_write` goes through when none
of them fails: arguments as for `device_write_for`. -/
def loop_ops (msg : List Byte) : Nat → Nat → List Ev
  | 0, _ => []
  | n + 1, i =>
    if msg.getD i 0 = 10 then []
    else (if (i : Int) = LCD_NUMBER_OF_SYMBOLS_PER_LINE then [Ev.lcd_set_cursor 16] else [])
      ++ Ev.lcd_print_char (msg.getD i 0).val :: loop_ops msg n (i + 1)

/-- The `struct file` of an open session: `device_open` has stored the device data,
with its client, in `private_data`. -/
def opened (client : i2c_client) : file := ⟨some ⟨client⟩⟩

/-- The empty line buffer: `WRITE_BUF_LENGTH` zero bytes. -/
def empty_msg : List Byte := List.replicate WRITE_BUF_LENGTH 0

/-- The bus never fails: every write returns 0 and every read returns a
non-negative value. -/
def NeverFails (client : i2c_client) : Prop :=
  (∀ k b, client.write_result k b = 0) ∧ (∀ k, 0 ≤ client.read_result k)

/-- The busy flag a poll computes from the reads number `r` and `r + 1`. -/
def polled_flag (client : i2c_client) (r : Nat) : Int :=
  ((((((u8 (client.read_result r)) <<< 4) ||| u8 (client.read_result (r + 1))) % 256)
    &&& 0x80 : Nat) : Int)

/-- The controller eventually reports not busy: from every read position on, some
later poll computes a zero flag. -/
def EventuallyReady (client : i2c_client) : Prop :=
  ∀ r, ∃ k, polled_flag client (r + 2 * k) = 0

/-- The display operations that print the bytes `m` held at buffer indices
`i, i + 1, ...`: one `lcd_print_char` per byte, with `lcd_set_cursor 16` put in
front of the byte at index 16. -/
def message_ops : Nat → List Byte → List Ev
  | _, [] => []
  | i, b :: m =>
    (if i = 16 then [Ev.lcd_set_cursor 16] else [])
      ++ Ev.lcd_print_char b.val :: message_ops (i + 1) m

/-- A session: `device_write` called once per chunk, each call with the whole chunk
readable, at the offset and with the buffer the previous call left.  The result
lists the return values and gives the final offset and buffer. -/
def write_all (fuel : Nat) (filp : file) :
    List (List Byte) → Nat → List Byte → World → Res (List Int × Nat × List Byte)
  | [], off, msg, w => Res.done ([], off, msg) w
  | chunk :: rest, off, msg, w =>
    match device_write fuel filp chunk chunk.length off msg w with
    | Res.running w => Res.running w
    | Res.done r w =>
      match write_all fuel filp rest r.off r.msg w with
      | Res.running w => Res.running w
      | Res.done x w => Res.done (r.ret :: x.1, x.2.1, x.2.2) w

/-- A bus that never fails, with a controller that is never busy. -/
def ready_client : i2c_client := ⟨fun _ _ => 0, fun _ => 0⟩

/-- The world before anything has happened. -/
def World.init : World := ⟨[], 0, 0⟩

/-- The events a call appended to the log, taking the world from `w` to `w'`, all
satisfy `P`. -/
def Appends (P : Ev → Prop) (w w' : World) : Prop :=
  ∃ t, w'.trace = w.trace ++ t ∧ ∀ e ∈ t, P e

/-- What one call of `get_busy_flag` logs when no transfer fails. -/
def poll_events : List Ev :=
  [Ev.get_busy_flag, Ev.i2c_smbus_write_byte 0xFE, Ev.i2c_smbus_read_byte,
   Ev.i2c_smbus_write_byte 0xFA, Ev.i2c_smbus_write_byte 0xFE, Ev.i2c_smbus_read_byte]

/-- What `k` loop iterations log when every poll finds the controller busy: each
is a poll followed by `msleep(10)`. -/
def busy_polls : Nat → List Ev
  | 0 => []
  | k + 1 => (poll_events ++ [Ev.msleep 10]) ++ busy_polls k

/-- An enable pulse: the byte `base`, then `base` with the enable bit flipped. -/
def pulse (base : Nat) : List Ev :=
  [Ev.i2c_smbus_write_byte base, Ev.i2c_smbus_write_byte (base ^^^ 0x4)]

/-- The two pulses of the command path: high nibble, then low nibble, with
register-select 0. -/
def command_pulses (command : Nat) : List Ev :=
  pulse ((command &&& 0xF0) ||| 0xC ||| 0x0) ++ pulse (((command &&& 0x0F) <<< 4) ||| 0xC ||| 0x0)

/-- The two pulses of the data path: high nibble, then low nibble, with
register-select 1. -/
def data_pulses (command : Nat) : List Ev :=
  pulse ((command &&& 0xF0) ||| 0xC ||| 0x1) ++ pulse (((command &&& 0x0F) <<< 4) ||| 0xC ||| 0x1)

/-- A property of events that holds of everything below the driver's operations:
the events of a poll, the sleep between polls, and the pulses of every command
and data byte. -/
def LowLevel (P : Ev → Prop) : Prop :=
  (∀ e ∈ poll_events, P e) ∧ P (Ev.msleep 10)
  ∧ (∀ cmd, ∀ e ∈ command_pulses cmd, P e) ∧ (∀ cmd, ∀ e ∈ data_pulses cmd, P e)

/-- Calls of the driver's operations: the three entry points of the nibble protocol
and the three display operations. -/
def isOperation : Ev → Bool
  | Ev.lcd_write_4bit_command _ => true
  | Ev.lcd_write_4bit_data _ => true
  | Ev.lcd_write_half_of_4bit_command _ => true
  | Ev.lcd_set_cursor _ => true
  | Ev.lcd_print_char _ => true
  | Ev.lcd_clear => true
  | _ => false

/-- The operation calls of a log, in order. -/
def operations (t : List Ev) : List Ev := t.filter isOperation

/-- The backlight bit (bit 3) is set in the byte of a bus write. -/
def Backlit (e : Ev) : Prop := ∀ b, e = Ev.i2c_smbus_write_byte b → b.testBit 3 = true

/-- The read/write bit (bit 1) is clear in the byte of a bus write. -/
def WriteMode (e : Ev) : Prop := ∀ b, e = Ev.i2c_smbus_write_byte b → b.testBit 1 = false

/-- Writing the bytes `bs` one after the other with `gpio_expander_write_byte`,
returning at the first write that fails: the shape shared by the command, data
and half-command paths. -/
def write_sequence (client : i2c_client) : World → List Nat → Int × World
  | w, [] => (0, w)
  | w, b :: bs =>
    if (gpio_expander_write_byte client w b).1 ≠ 0
      then ((gpio_expander_write_byte client w b).1, (gpio_expander_write_byte client w b).2)
      else write_sequence client (gpio_expander_write_byte client w b).2 bs

/-- A bus that never fails, with a controller that is busy at the first two polls
(reads 0 to 3 return `0x08`) and not busy afterwards. -/
def busy_twice_client : i2c_client := ⟨fun _ _ => 0, fun k => if k < 4 then 0x08 else 0⟩

/-- The buffer is the 34-byte array with its last byte zero. -/
def BufferOK (msg : List Byte) : Prop := msg.length = 34 ∧ msg.getD 33 0 = 0

/-- The states of the static buffer `msg` a run of the driver goes through: the
empty buffer; the buffer a returned call of `device_write` leaves, and the buffer
as the copy of an accepted call leaves it (which is what a call still polling
holds), whatever the file, the user bytes, the length, the offset and the bus,
as long as `len + off` does not wrap. -/
inductive Reachable : List Byte → Prop where
  | init : Reachable empty_msg
  | returned (msg : List Byte) (fuel : Nat) (filp : file) (buff : List Byte) (len off : Nat)
      (w : World) (r : WriteRet) (w' : World) :
      Reachable msg → len + off < 2 ^ 64 →
      device_write fuel filp buff len off msg w = Res.done r w' → Reachable r.msg
  | copied (msg : List Byte) (buff : List Byte) (len off : Nat) :
      Reachable msg → len + off < 2 ^ 64 → ¬ (len + off) % 2 ^ 64 > WRITE_BUF_LENGTH - 1 →
      Reachable (copy_from_user msg off buff len).2

/-- Calls of `lcd_print_char`. -/
def isPrintChar : Ev → Bool
  | Ev.lcd_print_char _ => true
  | _ => false
/-! ## Display operations logged by each function -/

theorem displayOps_append (s t : List Ev) : displayOps (s ++ t) = displayOps s ++ displayOps t := by
  simp [displayOps]

theorem displayOps_write (client : i2c_client) (w : World) (b : Nat) :
    displayOps (i2c_smbus_write_byte client w b).2.trace = displayOps w.trace := by
  simp [i2c_smbus_write_byte, displayOps, isDisplayOp]

theorem displayOps_read (client : i2c_client) (w : World) :
    displayOps (i2c_smbus_read_byte client w).2.trace = displayOps w.trace := by
  simp [i2c_smbus_read_byte, displayOps, isDisplayOp]

theorem displayOps_gpio (client : i2c_client) (w : World) (b : Nat) :
    displayOps (gpio_expander_write_byte client w b).2.trace = displayOps w.trace := by
  unfold gpio_expander_write_byte
  simp only []
  split_ifs <;> simp [displayOps_write]

theorem displayOps_get_busy_flag (client : i2c_client) (w : World) (f : Int) :
    displayOps (get_busy_flag client w f).2.2.trace = displayOps w.trace := by
  unfold get_busy_flag
  simp only []
  split_ifs <;> simp [displayOps_write, displayOps_read, World.log, displayOps_append] <;>
    simp [displayOps, isDisplayOp]

theorem displayOps_send (client : i2c_client) (w : World) (cmd : Nat) :
    displayOps (lcd_write_4bit_command_send client w cmd).2.trace = displayOps w.trace := by
  unfold lcd_write_4bit_command_send
  simp only []
  split_ifs <;> simp [displayOps_gpio]

theorem loop_zero (client : i2c_client) (cmd : Nat) (f : Int) (w : World) :
    lcd_write_4bit_command_loop client cmd 0 f w
      = if f ≠ 0 then Res.running w
        else Res.done (lcd_write_4bit_command_send client w cmd).1
          (lcd_write_4bit_command_send client w cmd).2 := by
  unfold lcd_write_4bit_command_loop
  rfl

theorem loop_succ (client : i2c_client) (cmd : Nat) (n : Nat) (f : Int) (w : World) :
    lcd_write_4bit_command_loop client cmd (n + 1) f w
      = if f ≠ 0 then
          (if (get_busy_flag client w f).1 ≠ 0
            then Res.done (-ENODEV) (get_busy_flag client w f).2.2
            else lcd_write_4bit_command_loop client cmd n (get_busy_flag client w f).2.1
              (if (get_busy_flag client w f).2.1 ≠ 0
                then msleep (get_busy_flag client w f).2.2 10
                else (get_busy_flag client w f).2.2))
        else Res.done (lcd_write_4bit_command_send client w cmd).1
          (lcd_write_4bit_command_send client w cmd).2 := by
  rw [lcd_write_4bit_command_loop]

theorem displayOps_msleep (w : World) (ms : Nat) :
    displayOps (msleep w ms).trace = displayOps w.trace := by
  simp [msleep, World.log, displayOps, isDisplayOp]

theorem displayOps_loop (client : i2c_client) (cmd : Nat) (fuel : Nat) :
    ∀ (f : Int) (w : World),
      displayOps (lcd_write_4bit_command_loop client cmd fuel f w).world.trace
        = displayOps w.trace := by
  induction fuel with
  | zero =>
    intro f w
    rw [loop_zero]
    split_ifs <;> simp [Res.world, displayOps_send]
  | succ n ih =>
    intro f w
    rw [loop_succ]
    split_ifs
    · simp [Res.world, displayOps_get_busy_flag]
    · rw [ih, displayOps_msleep, displayOps_get_busy_flag]
    · rw [ih, displayOps_get_busy_flag]
    · simp [Res.world, displayOps_send]


theorem displayOps_log_op (w : World) (e : Ev) (h : isDisplayOp e = true) :
    displayOps (w.log e).trace = displayOps w.trace ++ [e] := by
  simp [World.log, displayOps, h]

theorem displayOps_log_other (w : World) (e : Ev) (h : isDisplayOp e = false) :
    displayOps (w.log e).trace = displayOps w.trace := by
  simp [World.log, displayOps, h]

theorem displayOps_log_command (w : World) (cmd : Nat) :
    displayOps (w.log (Ev.lcd_write_4bit_command cmd)).trace = displayOps w.trace :=
  displayOps_log_other _ _ rfl

theorem displayOps_log_data (w : World) (cmd : Nat) :
    displayOps (w.log (Ev.lcd_write_4bit_data cmd)).trace = displayOps w.trace :=
  displayOps_log_other _ _ rfl

theorem displayOps_log_clear (w : World) :
    displayOps (w.log Ev.lcd_clear).trace = displayOps w.trace ++ [Ev.lcd_clear] :=
  displayOps_log_op _ _ rfl

theorem displayOps_log_set_cursor (w : World) (pos : Int) :
    displayOps (w.log (Ev.lcd_set_cursor pos)).trace
      = displayOps w.trace ++ [Ev.lcd_set_cursor pos] :=
  displayOps_log_op _ _ rfl

theorem displayOps_log_print_char (w : World) (symbol : Nat) :
    displayOps (w.log (Ev.lcd_print_char symbol)).trace
      = displayOps w.trace ++ [Ev.lcd_print_char symbol] :=
  displayOps_log_op _ _ rfl

theorem displayOps_command (fuel : Nat) (client : i2c_client) (w : World) (cmd : Nat) :
    displayOps (lcd_write_4bit_command fuel client w cmd).world.trace = displayOps w.trace := by
  unfold lcd_write_4bit_command
  rw [displayOps_loop, displayOps_log_command]

theorem displayOps_clear (fuel : Nat) (client : i2c_client) (w : World) :
    displayOps (lcd_clear fuel client w).world.trace = displayOps w.trace ++ [Ev.lcd_clear] := by
  unfold lcd_clear
  rw [displayOps_command, displayOps_log_clear]

theorem displayOps_set_cursor (fuel : Nat) (client : i2c_client) (w : World) (pos : Int) :
    displayOps (lcd_set_cursor fuel client w pos).world.trace
      = displayOps w.trace ++ [Ev.lcd_set_cursor pos] := by
  unfold lcd_set_cursor
  simp only []
  split_ifs
  · exact displayOps_log_set_cursor _ _
  · rw [displayOps_command, displayOps_log_set_cursor]
  · rw [displayOps_command, displayOps_log_set_cursor]

theorem displayOps_data (client : i2c_client) (w : World) (cmd : Nat) :
    displayOps (lcd_write_4bit_data client w cmd).2.trace = displayOps w.trace := by
  unfold lcd_write_4bit_data
  simp only []
  split_ifs <;> simp only [displayOps_gpio, displayOps_log_data]

theorem displayOps_print_char (client : i2c_client) (w : World) (symbol : Nat) :
    displayOps (lcd_print_char client w symbol).2.trace
      = displayOps w.trace ++ [Ev.lcd_print_char symbol] := by
  unfold lcd_print_char
  rw [displayOps_data, displayOps_log_print_char]

theorem for_zero (fuel : Nat) (client : i2c_client) (msg : List Byte) (i : Nat) (w : World) :
    device_write_for fuel client msg 0 i w = Res.done none w := by
  rw [device_write_for]

theorem for_succ (fuel : Nat) (client : i2c_client) (msg : List Byte) (n i : Nat) (w : World) :
    device_write_for fuel client msg (n + 1) i w
      = if msg.getD i 0 = 10 then Res.done none w
        else
          match (if (i : Int) = LCD_NUMBER_OF_SYMBOLS_PER_LINE
                 then lcd_set_cursor fuel client w 16 else Res.done 0 w) with
          | Res.running w => Res.running w
          | Res.done ret w =>
            if ret ≠ 0 then Res.done (some (-EFAULT)) w else
            if (lcd_print_char client w (msg.getD i 0).val).1 ≠ 0
              then Res.done (some (-EFAULT)) (lcd_print_char client w (msg.getD i 0).val).2
              else device_write_for fuel client msg n (i + 1)
                (lcd_print_char client w (msg.getD i 0).val).2 := by
  rw [device_write_for]

theorem loop_ops_succ (msg : List Byte) (n i : Nat) (h10 : ¬ msg.getD i 0 = 10) :
    loop_ops msg (n + 1) i
      = (if (i : Int) = LCD_NUMBER_OF_SYMBOLS_PER_LINE then [Ev.lcd_set_cursor 16] else [])
        ++ Ev.lcd_print_char (msg.getD i 0).val :: loop_ops msg n (i + 1) := by
  rw [loop_ops, if_neg h10]

theorem loop_ops_break (msg : List Byte) (n i : Nat) (h10 : msg.getD i 0 = 10) :
    loop_ops msg (n + 1) i = [] := by
  rw [loop_ops, if_pos h10]

/-- Whatever the bus does, the display operations the loop performs are an initial
part of `loop_ops`, and all of it when the loop ends normally. -/
theorem displayOps_for (fuel : Nat) (client : i2c_client) (msg : List Byte) :
    ∀ (n i : Nat) (w : World), ∃ p q : List Ev,
      displayOps (device_write_for fuel client msg n i w).world.trace = displayOps w.trace ++ p
      ∧ p ++ q = loop_ops msg n i
      ∧ (∀ w', device_write_for fuel client msg n i w = Res.done none w' → q = []) := by
  intro n
  induction n with
  | zero =>
    intro i w
    refine ⟨[], [], ?_, ?_, fun _ _ => rfl⟩
    · rw [for_zero]; simp [Res.world]
    · simp [loop_ops]
  | succ n ih =>
    intro i w
    rw [for_succ]
    by_cases h10 : msg.getD i 0 = 10
    · refine ⟨[], [], ?_, ?_, fun _ _ => rfl⟩
      · rw [if_pos h10]; simp [Res.world]
      · rw [loop_ops_break _ _ _ h10]; rfl
    · rw [if_neg h10, loop_ops_succ _ _ _ h10]
      -- the optional cursor move, as an outcome `s` with its logged operations `c`
      obtain ⟨s, c, hs, hc, hsw⟩ : ∃ (s : Res Int) (c : List Ev),
          s = (if (i : Int) = LCD_NUMBER_OF_SYMBOLS_PER_LINE
                 then lcd_set_cursor fuel client w 16 else Res.done 0 w)
          ∧ c = (if (i : Int) = LCD_NUMBER_OF_SYMBOLS_PER_LINE
                 then [Ev.lcd_set_cursor 16] else [])
          ∧ displayOps s.world.trace = displayOps w.trace ++ c := by
        refine ⟨_, _, rfl, rfl, ?_⟩
        split_ifs
        · exact displayOps_set_cursor fuel client w 16
        · simp [Res.world]
      rw [← hs, ← hc]
      cases s with
      | running w1 =>
        refine ⟨c, Ev.lcd_print_char (msg.getD i 0).val :: loop_ops msg n (i + 1), ?_, rfl, ?_⟩
        · exact hsw
        · intro w' h; exact absurd h (by simp)
      | done ret w1 =>
        have hsw1 : displayOps w1.trace = displayOps w.trace ++ c := hsw
        by_cases hret : ret ≠ 0
        · refine ⟨c, Ev.lcd_print_char (msg.getD i 0).val :: loop_ops msg n (i + 1), ?_, rfl, ?_⟩
          · simp only [hret, if_true, ne_eq, not_false_eq_true, Res.world, hsw1]
          · intro w' h; simp only [hret, if_true, ne_eq, not_false_eq_true] at h
            exact absurd h (by simp)
        · simp only [hret, if_false]
          have hpr := displayOps_print_char client w1 (msg.getD i 0).val
          by_cases hp : (lcd_print_char client w1 (msg.getD i 0).val).1 ≠ 0
          · refine ⟨c ++ [Ev.lcd_print_char (msg.getD i 0).val], loop_ops msg n (i + 1),
              ?_, by simp, ?_⟩
            · simp only [hp, if_true, ne_eq, not_false_eq_true, Res.world, hpr, hsw1,
                List.append_assoc]
            · intro w' h; simp only [hp, if_true, ne_eq, not_false_eq_true] at h
              exact absurd h (by simp)
          · simp only [hp, if_false]
            obtain ⟨p, q, h1, h2, h3⟩ :=
              ih (i + 1) (lcd_print_char client w1 (msg.getD i 0).val).2
            refine ⟨c ++ Ev.lcd_print_char (msg.getD i 0).val :: p, q, ?_, ?_, h3⟩
            · rw [h1, hpr, hsw1]; simp
            · rw [← h2]; simp

/-! ## Termination on a bus that never fails -/

theorem get_busy_flag_ok (client : i2c_client) (hN : NeverFails client) (w : World) (f : Int) :
    (get_busy_flag client w f).1 = 0
    ∧ (get_busy_flag client w f).2.1 = polled_flag client w.reads
    ∧ (get_busy_flag client w f).2.2.reads = w.reads + 2 := by
  obtain ⟨hw, hr⟩ := hN
  have h1 : ¬ client.read_result w.reads < 0 := not_lt.mpr (hr _)
  have h2 : ¬ client.read_result (w.reads + 1) < 0 := not_lt.mpr (hr _)
  simp [get_busy_flag, i2c_smbus_write_byte, i2c_smbus_read_byte, World.log, hw, h1, h2,
    polled_flag]

theorem gpio_ok (client : i2c_client) (hN : NeverFails client) (w : World) (b : Nat) :
    (gpio_expander_write_byte client w b).1 = 0 := by
  simp [gpio_expander_write_byte, i2c_smbus_write_byte, hN.1]

theorem send_ok (client : i2c_client) (hN : NeverFails client) (w : World) (cmd : Nat) :
    (lcd_write_4bit_command_send client w cmd).1 = 0 := by
  simp [lcd_write_4bit_command_send, gpio_ok client hN]

theorem data_ok (client : i2c_client) (hN : NeverFails client) (w : World) (cmd : Nat) :
    (lcd_write_4bit_data client w cmd).1 = 0 := by
  simp [lcd_write_4bit_data, gpio_ok client hN]

theorem print_char_ok (client : i2c_client) (hN : NeverFails client) (w : World) (b : Nat) :
    (lcd_print_char client w b).1 = 0 := by
  simp [lcd_print_char, data_ok client hN]

theorem loop_ready (client : i2c_client) (cmd : Nat) (fuel : Nat) (w : World) :
    lcd_write_4bit_command_loop client cmd fuel 0 w
      = Res.done (lcd_write_4bit_command_send client w cmd).1
          (lcd_write_4bit_command_send client w cmd).2 := by
  cases fuel with
  | zero => rw [loop_zero]; simp
  | succ n => rw [loop_succ]; simp

/-- Once a poll `k` rounds ahead computes a zero flag, the loop ends and the command
is sent, for every fuel above `k`. -/
theorem loop_terminates (client : i2c_client) (hN : NeverFails client) (cmd : Nat) :
    ∀ (k : Nat) (f : Int) (w : World), f ≠ 0 → polled_flag client (w.reads + 2 * k) = 0 →
      ∃ w', ∀ fuel, k < fuel → lcd_write_4bit_command_loop client cmd fuel f w = Res.done 0 w' := by
  have step0 : ∀ (f : Int) (w : World), f ≠ 0 → polled_flag client w.reads = 0 →
      ∃ w', ∀ fuel, 0 < fuel →
        lcd_write_4bit_command_loop client cmd fuel f w = Res.done 0 w' := by
    intro f w hf h0
    obtain ⟨g1, g2, _⟩ := get_busy_flag_ok client hN w f
    refine ⟨(lcd_write_4bit_command_send client (get_busy_flag client w f).2.2 cmd).2, ?_⟩
    intro fuel hfuel
    obtain ⟨n, rfl⟩ : ∃ n, fuel = n + 1 := ⟨fuel - 1, by omega⟩
    rw [loop_succ, if_pos hf, if_neg (by rw [g1]; simp), g2, h0]
    simp only [ne_eq, not_true_eq_false, if_false]
    rw [loop_ready, send_ok client hN]
  intro k
  induction k with
  | zero =>
    intro f w hf h0
    exact step0 f w hf (by simpa using h0)
  | succ k ih =>
    intro f w hf hk
    by_cases h0 : polled_flag client w.reads = 0
    · obtain ⟨w', hw'⟩ := step0 f w hf h0
      exact ⟨w', fun fuel hfuel => hw' fuel (by omega)⟩
    · obtain ⟨g1, g2, g3⟩ := get_busy_flag_ok client hN w f
      obtain ⟨w', hw'⟩ := ih (polled_flag client w.reads)
        (msleep (get_busy_flag client w f).2.2 10) h0
        (by
          have : (msleep (get_busy_flag client w f).2.2 10).reads = w.reads + 2 := by
            simp [msleep, World.log, g3]
          rw [this]
          have e : w.reads + 2 + 2 * k = w.reads + 2 * (k + 1) := by ring
          rw [e]; exact hk)
      refine ⟨w', ?_⟩
      intro fuel hfuel
      obtain ⟨n, rfl⟩ : ∃ n, fuel = n + 1 := ⟨fuel - 1, by omega⟩
      rw [loop_succ, if_pos hf, if_neg (by rw [g1]; simp), g2, if_pos h0]
      exact hw' n (by omega)

theorem command_terminates (client : i2c_client) (hN : NeverFails client)
    (hE : EventuallyReady client) (w : World) (cmd : Nat) :
    ∃ F w', ∀ fuel, F ≤ fuel → lcd_write_4bit_command fuel client w cmd = Res.done 0 w' := by
  obtain ⟨k, hk⟩ := hE (w.log (Ev.lcd_write_4bit_command cmd)).reads
  obtain ⟨w', hw'⟩ := loop_terminates client hN cmd k 1 _ one_ne_zero hk
  exact ⟨k + 1, w', fun fuel hfuel => hw' fuel (by omega)⟩

theorem clear_terminates (client : i2c_client) (hN : NeverFails client)
    (hE : EventuallyReady client) (w : World) :
    ∃ F w', ∀ fuel, F ≤ fuel → lcd_clear fuel client w = Res.done 0 w' :=
  command_terminates client hN hE _ _

theorem set_cursor_terminates (client : i2c_client) (hN : NeverFails client)
    (hE : EventuallyReady client) (w : World) (pos : Int) (h0 : 0 ≤ pos) (h31 : pos ≤ 31) :
    ∃ F w', ∀ fuel, F ≤ fuel → lcd_set_cursor fuel client w pos = Res.done 0 w' := by
  have hr : ¬ (pos < 0 ∨ pos > LCD_NUMBER_OF_LINES * LCD_NUMBER_OF_SYMBOLS_PER_LINE - 1) := by
    simp only [LCD_NUMBER_OF_LINES, LCD_NUMBER_OF_SYMBOLS_PER_LINE]
    omega
  unfold lcd_set_cursor
  simp only [if_neg hr]
  exact command_terminates client hN hE _ _

/-- On a good bus the loop of `device_write` always ends normally. -/
theorem for_terminates (client : i2c_client) (hN : NeverFails client)
    (hE : EventuallyReady client) (msg : List Byte) :
    ∀ (n i : Nat) (w : World), ∃ F w', ∀ fuel, F ≤ fuel →
      device_write_for fuel client msg n i w = Res.done none w' := by
  intro n
  induction n with
  | zero =>
    intro i w
    exact ⟨0, w, fun fuel _ => for_zero fuel client msg i w⟩
  | succ n ih =>
    intro i w
    by_cases h10 : msg.getD i 0 = 10
    · exact ⟨0, w, fun fuel _ => by rw [for_succ, if_pos h10]⟩
    · by_cases h16 : (i : Int) = LCD_NUMBER_OF_SYMBOLS_PER_LINE
      · obtain ⟨F1, w1, hw1⟩ := set_cursor_terminates client hN hE w 16 (by norm_num) (by norm_num)
        obtain ⟨F2, w2, hw2⟩ := ih (i + 1) (lcd_print_char client w1 (msg.getD i 0).val).2
        refine ⟨max F1 F2, w2, ?_⟩
        intro fuel hfuel
        rw [for_succ, if_neg h10, if_pos h16, hw1 fuel (le_trans (le_max_left _ _) hfuel)]
        simp only [ne_eq, not_true_eq_false, if_false, print_char_ok client hN]
        exact hw2 fuel (le_trans (le_max_right _ _) hfuel)
      · obtain ⟨F2, w2, hw2⟩ := ih (i + 1) (lcd_print_char client w (msg.getD i 0).val).2
        refine ⟨F2, w2, ?_⟩
        intro fuel hfuel
        rw [for_succ, if_neg h10, if_neg h16]
        simp only [ne_eq, not_true_eq_false, if_false, print_char_ok client hN]
        exact hw2 fuel hfuel

/-! ## `device_write` case by case -/

theorem device_write_opened (fuel : Nat) (client : i2c_client) (buff : List Byte)
    (len off : Nat) (msg : List Byte) (w : World) :
    device_write fuel (opened client) buff len off msg w
      = if (len + off) % 2 ^ 64 > WRITE_BUF_LENGTH - 1 then
          Res.done ⟨-EMSGSIZE, off, msg⟩ w
        else if (copy_from_user msg off buff len).1 ≠ 0 then
          Res.done ⟨-EFAULT, off, (copy_from_user msg off buff len).2⟩ w
        else if strchr (copy_from_user msg off buff len).2 10 = none then
          Res.done ⟨len, off + len, (copy_from_user msg off buff len).2⟩ w
        else
          match lcd_clear fuel client w with
          | Res.running w => Res.running w
          | Res.done ret w =>
            if ret ≠ 0 then
              Res.done ⟨-EFAULT, off + len, (copy_from_user msg off buff len).2⟩ w else
            match lcd_set_cursor fuel client w 0 with
            | Res.running w => Res.running w
            | Res.done ret w =>
              if ret ≠ 0 then
                Res.done ⟨-EFAULT, off + len, (copy_from_user msg off buff len).2⟩ w else
              match device_write_for fuel client (copy_from_user msg off buff len).2
                  (off + len) 0 w with
              | Res.running w => Res.running w
              | Res.done (some r) w =>
                Res.done ⟨r, off + len, (copy_from_user msg off buff len).2⟩ w
              | Res.done none w => Res.done ⟨len, 0, List.replicate WRITE_BUF_LENGTH 0⟩ w := by
  rfl

/-- The capacity check accepts exactly the appends ending within 33 bytes. -/
theorem capacity_check (len off : Nat) (h : len + off < 2 ^ 64) :
    (len + off) % 2 ^ 64 > WRITE_BUF_LENGTH - 1 ↔ off + len > 33 := by
  rw [Nat.mod_eq_of_lt h]
  simp only [WRITE_BUF_LENGTH]
  omega

theorem copy_ok (msg : List Byte) (off : Nat) (buff : List Byte) (len : Nat)
    (h : len ≤ buff.length) :
    (copy_from_user msg off buff len).1 = 0
    ∧ (copy_from_user msg off buff len).2
        = msg.take off ++ (buff.take len ++ msg.drop (off + len)) := by
  simp [copy_from_user, Nat.sub_eq_zero_of_le h]

theorem for_returns (fuel : Nat) (client : i2c_client) (msg : List Byte) :
    ∀ (n i : Nat) (w : World) (r : Int) (w' : World),
      device_write_for fuel client msg n i w = Res.done (some r) w' → r = -EFAULT := by
  intro n
  induction n with
  | zero =>
    intro i w r w' h
    rw [for_zero] at h
    exact absurd h (by simp)
  | succ n ih =>
    intro i w r w' h
    rw [for_succ] at h
    by_cases h10 : msg.getD i 0 = 10
    · rw [if_pos h10] at h
      exact absurd h (by simp)
    · rw [if_neg h10] at h
      generalize (if (i : Int) = LCD_NUMBER_OF_SYMBOLS_PER_LINE
                 then lcd_set_cursor fuel client w 16 else Res.done 0 w) = s at h
      cases s with
      | running w1 => exact absurd h (by simp)
      | done ret w1 =>
        simp only at h
        split_ifs at h with h1 h2
        · simp only [Res.done.injEq, Option.some.injEq] at h
          exact h.1.symm
        · simp only [Res.done.injEq, Option.some.injEq] at h
          exact h.1.symm
        · exact ih _ _ _ _ h

/-- A flush, whatever the bus does: the display operations performed are `lcd_clear`
followed by an initial part of `lcd_set_cursor 0 :: loop_ops`; the call returns
either `-EFAULT` with buffer and offset as after the copy, or `len` after all of
the operations and with buffer and offset reset. -/
theorem flush_ops (fuel : Nat) (client : i2c_client) (buff : List Byte)
    (len off : Nat) (msg : List Byte) (w : World)
    (hacc : ¬ (len + off) % 2 ^ 64 > WRITE_BUF_LENGTH - 1)
    (hcp : (copy_from_user msg off buff len).1 = 0)
    (hnl : strchr (copy_from_user msg off buff len).2 10 ≠ none) :
    ∃ p q : List Ev,
      displayOps (device_write fuel (opened client) buff len off msg w).world.trace
        = displayOps w.trace ++ Ev.lcd_clear :: p
      ∧ p ++ q = Ev.lcd_set_cursor 0
          :: loop_ops (copy_from_user msg off buff len).2 (off + len) 0
      ∧ ∀ r w', device_write fuel (opened client) buff len off msg w = Res.done r w' →
          r = ⟨-EFAULT, off + len, (copy_from_user msg off buff len).2⟩
          ∨ (r = ⟨len, 0, List.replicate WRITE_BUF_LENGTH 0⟩ ∧ q = []) := by
  rw [device_write_opened, if_neg hacc, if_neg (by rw [hcp]; simp), if_neg hnl]
  have hclr := displayOps_clear fuel client w
  cases hc : lcd_clear fuel client w with
  | running w1 =>
    rw [hc] at hclr
    refine ⟨[], _, ?_, rfl, ?_⟩
    · exact hclr
    · intro r w' h; exact absurd h (by simp)
  | done ret w1 =>
    rw [hc] at hclr
    have hclr1 : displayOps w1.trace = displayOps w.trace ++ [Ev.lcd_clear] := hclr
    by_cases hret : ret ≠ 0
    · refine ⟨[], _, ?_, rfl, ?_⟩
      · simp only [hret, if_true, ne_eq, not_false_eq_true, Res.world, hclr1]
      · intro r w' h
        simp only [hret, if_true, ne_eq, not_false_eq_true, Res.done.injEq] at h
        exact Or.inl h.1.symm
    · simp only [hret, if_false]
      have hsc := displayOps_set_cursor fuel client w1 0
      cases hs : lcd_set_cursor fuel client w1 0 with
      | running w2 =>
        rw [hs] at hsc
        refine ⟨[Ev.lcd_set_cursor 0], _, ?_, rfl, ?_⟩
        · have : displayOps w2.trace = displayOps w1.trace ++ [Ev.lcd_set_cursor 0] := hsc
          simp only [Res.world, this, hclr1, List.append_assoc, List.singleton_append]
        · intro r w' h; exact absurd h (by simp)
      | done ret2 w2 =>
        rw [hs] at hsc
        have hsc1 : displayOps w2.trace = displayOps w1.trace ++ [Ev.lcd_set_cursor 0] := hsc
        by_cases hret2 : ret2 ≠ 0
        · refine ⟨[Ev.lcd_set_cursor 0], _, ?_, rfl, ?_⟩
          · simp only [hret2, if_true, ne_eq, not_false_eq_true, Res.world, hsc1, hclr1,
              List.append_assoc, List.singleton_append]
          · intro r w' h
            simp only [hret2, if_true, ne_eq, not_false_eq_true, Res.done.injEq] at h
            exact Or.inl h.1.symm
        · simp only [hret2, if_false]
          obtain ⟨p, q, h1, h2, h3⟩ := displayOps_for fuel client
            (copy_from_user msg off buff len).2 (off + len) 0 w2
          have hret := for_returns fuel client (copy_from_user msg off buff len).2 (off + len) 0 w2
          cases hf : device_write_for fuel client (copy_from_user msg off buff len).2
              (off + len) 0 w2 with
          | running w3 =>
            rw [hf] at h1
            refine ⟨Ev.lcd_set_cursor 0 :: p, q, ?_, by rw [← h2]; rfl, ?_⟩
            · have : displayOps w3.trace = displayOps w2.trace ++ p := h1
              simp only [Res.world, this, hsc1, hclr1, List.append_assoc, List.singleton_append,
                List.cons_append, List.nil_append]
            · intro r w' h; exact absurd h (by simp)
          | done o w3 =>
            rw [hf] at h1
            have h1a : displayOps w3.trace = displayOps w2.trace ++ p := h1
            cases o with
            | some e =>
              refine ⟨Ev.lcd_set_cursor 0 :: p, q, ?_, by rw [← h2]; rfl, ?_⟩
              · simp only [Res.world, h1a, hsc1, hclr1, List.append_assoc,
                  List.singleton_append, List.cons_append, List.nil_append]
              · intro r w' h
                simp only [Res.done.injEq] at h
                rw [hret e w3 hf] at h
                exact Or.inl h.1.symm
            | none =>
              refine ⟨Ev.lcd_set_cursor 0 :: p, q, ?_, by rw [← h2]; rfl, ?_⟩
              · simp only [Res.world, h1a, hsc1, hclr1, List.append_assoc,
                  List.singleton_append, List.cons_append, List.nil_append]
              · intro r w' h
                simp only [Res.done.injEq] at h
                exact Or.inr ⟨h.1.symm, h3 w3 hf⟩

/-- A flush on a good bus returns `len` with buffer and offset reset, for every
fuel from some bound on. -/
theorem flush_terminates (client : i2c_client) (hN : NeverFails client)
    (hE : EventuallyReady client) (buff : List Byte)
    (len off : Nat) (msg : List Byte) (w : World)
    (hacc : ¬ (len + off) % 2 ^ 64 > WRITE_BUF_LENGTH - 1)
    (hcp : (copy_from_user msg off buff len).1 = 0)
    (hnl : strchr (copy_from_user msg off buff len).2 10 ≠ none) :
    ∃ F w', ∀ fuel, F ≤ fuel →
      device_write fuel (opened client) buff len off msg w
        = Res.done ⟨len, 0, List.replicate WRITE_BUF_LENGTH 0⟩ w' := by
  obtain ⟨F1, w1, hw1⟩ := clear_terminates client hN hE w
  obtain ⟨F2, w2, hw2⟩ := set_cursor_terminates client hN hE w1 0 (le_refl _) (by norm_num)
  obtain ⟨F3, w3, hw3⟩ := for_terminates client hN hE (copy_from_user msg off buff len).2
    (off + len) 0 w2
  refine ⟨max F1 (max F2 F3), w3, ?_⟩
  intro fuel hfuel
  have f1 : F1 ≤ fuel := le_trans (le_max_left _ _) hfuel
  have f2 : F2 ≤ fuel := le_trans (le_trans (le_max_left _ _) (le_max_right _ _)) hfuel
  have f3 : F3 ≤ fuel := le_trans (le_trans (le_max_right _ _) (le_max_right _ _)) hfuel
  rw [device_write_opened, if_neg hacc, if_neg (by rw [hcp]; simp), if_neg hnl,
    hw1 fuel f1]
  simp only [ne_eq, not_true_eq_false, if_false]
  rw [hw2 fuel f2]
  simp only [ne_eq, not_true_eq_false, if_false]
  rw [hw3 fuel f3]

/-- A flush on a good bus: from some fuel on the call returns `len` with buffer and
offset reset, after exactly `lcd_clear`, `lcd_set_cursor 0` and `loop_ops`. -/
theorem flush_good (client : i2c_client) (hN : NeverFails client)
    (hE : EventuallyReady client) (buff : List Byte)
    (len off : Nat) (msg : List Byte) (w : World)
    (hacc : ¬ (len + off) % 2 ^ 64 > WRITE_BUF_LENGTH - 1)
    (hcp : (copy_from_user msg off buff len).1 = 0)
    (hnl : strchr (copy_from_user msg off buff len).2 10 ≠ none) :
    ∃ F w', (∀ fuel, F ≤ fuel →
        device_write fuel (opened client) buff len off msg w
          = Res.done ⟨len, 0, List.replicate WRITE_BUF_LENGTH 0⟩ w')
      ∧ displayOps w'.trace = displayOps w.trace ++ Ev.lcd_clear :: Ev.lcd_set_cursor 0
          :: loop_ops (copy_from_user msg off buff len).2 (off + len) 0 := by
  obtain ⟨F, w', hF⟩ := flush_terminates client hN hE buff len off msg w hacc hcp hnl
  refine ⟨F, w', hF, ?_⟩
  obtain ⟨p, q, h1, h2, h3⟩ := flush_ops F client buff len off msg w hacc hcp hnl
  have hd := hF F (le_refl _)
  rw [hd] at h1
  rcases h3 _ _ hd with h | ⟨_, hq⟩
  · have := congrArg WriteRet.ret h
    simp only [EFAULT] at this
    omega
  · rw [hq, List.append_nil] at h2
    rw [← h2]
    exact h1

/-! ## A newline-terminated message written into the empty buffer -/

theorem strchr_message (m rest : List Byte) (hm : ∀ b ∈ m, b ≠ 10 ∧ b ≠ 0) :
    strchr (m ++ 10 :: rest) 10 = some m.length := by
  induction m with
  | nil => simp [strchr]
  | cons b m ih =>
    have hb := hm b (List.mem_cons_self _ _)
    have ih1 := ih (fun x hx => hm x (List.mem_cons_of_mem _ hx))
    simp [strchr, hb.1, hb.2, ih1]

theorem strchr_none (l : List Byte) (h : ∀ b ∈ l, b ≠ 10) : strchr l 10 = none := by
  induction l with
  | nil => simp [strchr]
  | cons b l ih =>
    have hb := h b (List.mem_cons_self _ _)
    have ih1 := ih (fun x hx => h x (List.mem_cons_of_mem _ hx))
    simp [strchr, hb, ih1]

theorem getD_at (pre : List Byte) (c : Byte) (rest : List Byte) :
    (pre ++ c :: rest).getD pre.length 0 = c := by
  rw [List.getD_append_right _ _ _ _ (le_refl _)]
  simp

theorem loop_ops_message (rest : List Byte) :
    ∀ (m pre : List Byte), (∀ b ∈ m, b ≠ 10) →
      loop_ops (pre ++ (m ++ 10 :: rest)) (m.length + 1) pre.length
        = message_ops pre.length m := by
  intro m
  induction m with
  | nil =>
    intro pre _
    have h := getD_at pre 10 rest
    rw [List.nil_append, List.length_nil, Nat.zero_add, loop_ops_break _ _ _ h]
    rfl
  | cons b m ih =>
    intro pre hm
    have hb : b ≠ 10 := hm b (List.mem_cons_self _ _)
    have h : (pre ++ (b :: m ++ 10 :: rest)).getD pre.length 0 = b :=
      getD_at pre b (m ++ 10 :: rest)
    have e : pre ++ (b :: m ++ 10 :: rest) = (pre ++ [b]) ++ (m ++ 10 :: rest) := by simp
    rw [List.length_cons, loop_ops_succ _ _ _ (by rw [h]; exact hb), h, e]
    have ih1 := ih (pre ++ [b]) (fun x hx => hm x (List.mem_cons_of_mem _ hx))
    rw [List.length_append, List.length_singleton] at ih1
    rw [ih1]
    simp only [message_ops, LCD_NUMBER_OF_SYMBOLS_PER_LINE]
    congr 1
    norm_cast

theorem message_ops_before (m : List Byte) :
    ∀ i, i + m.length ≤ 16 → message_ops i m = m.map (fun b => Ev.lcd_print_char b.val) := by
  induction m with
  | nil => intro i _; rfl
  | cons b m ih =>
    intro i h
    simp only [List.length_cons] at h
    have hi : i ≠ 16 := by omega
    simp only [message_ops, if_neg hi, List.nil_append, List.map_cons]
    rw [ih (i + 1) (by omega)]

theorem message_ops_after (m : List Byte) :
    ∀ i, 16 < i → message_ops i m = m.map (fun b => Ev.lcd_print_char b.val) := by
  induction m with
  | nil => intro i _; rfl
  | cons b m ih =>
    intro i h
    have hi : i ≠ 16 := by omega
    simp only [message_ops, if_neg hi, List.nil_append, List.map_cons]
    rw [ih (i + 1) (by omega)]

theorem message_ops_append (a b : List Byte) :
    ∀ i, message_ops i (a ++ b) = message_ops i a ++ message_ops (i + a.length) b := by
  induction a with
  | nil => intro i; simp [message_ops]
  | cons x a ih =>
    intro i
    have e : i + 1 + a.length = i + (x :: a).length := by
      rw [List.length_cons]; omega
    rw [List.cons_append, message_ops, message_ops, ih (i + 1), e]
    simp only [List.append_assoc, List.cons_append]

/-- A message longer than one line: one cursor move, in front of the 17th byte. -/
theorem message_ops_two_lines (m : List Byte) (h : 17 ≤ m.length) :
    message_ops 0 m
      = (m.take 16).map (fun b => Ev.lcd_print_char b.val)
        ++ Ev.lcd_set_cursor 16 :: (m.drop 16).map (fun b => Ev.lcd_print_char b.val) := by
  have hsplit : m = m.take 16 ++ m.drop 16 := (List.take_append_drop 16 m).symm
  have hlen : (m.take 16).length = 16 := by simp; omega
  have hstep : message_ops 0 m
      = message_ops 0 (m.take 16) ++ message_ops (0 + (m.take 16).length) (m.drop 16) := by
    rw [← message_ops_append, ← hsplit]
  rw [hstep]
  rw [message_ops_before _ 0 (by omega), hlen]
  cases hd : m.drop 16 with
  | nil =>
    have : (m.drop 16).length = 0 := by rw [hd]; rfl
    simp at this
    omega
  | cons c rest =>
    simp only [message_ops, Nat.zero_add, if_true, List.singleton_append, List.map_cons]
    rw [message_ops_after _ 17 (by omega)]

/-! ## Return values on a bus that never fails, whatever the fuel -/

theorem loop_ret_good (client : i2c_client) (hN : NeverFails client) (cmd : Nat) :
    ∀ (fuel : Nat) (f : Int) (w : World) (r : Int) (w' : World),
      lcd_write_4bit_command_loop client cmd fuel f w = Res.done r w' → r = 0 := by
  intro fuel
  induction fuel with
  | zero =>
    intro f w r w' h
    rw [loop_zero] at h
    split_ifs at h
    · simp only [Res.done.injEq] at h
      rw [← h.1]; exact send_ok client hN w cmd
  | succ n ih =>
    intro f w r w' h
    rw [loop_succ] at h
    obtain ⟨g1, _, _⟩ := get_busy_flag_ok client hN w f
    split_ifs at h with h1 h2 h3
    · exact absurd g1 h2
    · exact ih _ _ _ _ h
    · exact ih _ _ _ _ h
    · simp only [Res.done.injEq] at h
      rw [← h.1]; exact send_ok client hN w cmd

theorem command_ret_good (client : i2c_client) (hN : NeverFails client) (fuel : Nat)
    (w : World) (cmd : Nat) (r : Int) (w' : World)
    (h : lcd_write_4bit_command fuel client w cmd = Res.done r w') : r = 0 :=
  loop_ret_good client hN cmd fuel 1 _ r w' h

theorem clear_ret_good (client : i2c_client) (hN : NeverFails client) (fuel : Nat)
    (w : World) (r : Int) (w' : World)
    (h : lcd_clear fuel client w = Res.done r w') : r = 0 :=
  command_ret_good client hN fuel _ _ r w' h

theorem set_cursor_ret_good (client : i2c_client) (hN : NeverFails client) (fuel : Nat)
    (w : World) (pos : Int) (h0 : 0 ≤ pos) (h31 : pos ≤ 31) (r : Int) (w' : World)
    (h : lcd_set_cursor fuel client w pos = Res.done r w') : r = 0 := by
  have hr : ¬ (pos < 0 ∨ pos > LCD_NUMBER_OF_LINES * LCD_NUMBER_OF_SYMBOLS_PER_LINE - 1) := by
    simp only [LCD_NUMBER_OF_LINES, LCD_NUMBER_OF_SYMBOLS_PER_LINE]
    omega
  unfold lcd_set_cursor at h
  simp only [if_neg hr] at h
  exact command_ret_good client hN fuel _ _ r w' h

theorem for_ret_good (client : i2c_client) (hN : NeverFails client) (fuel : Nat)
    (msg : List Byte) :
    ∀ (n i : Nat) (w : World) (o : Option Int) (w' : World),
      device_write_for fuel client msg n i w = Res.done o w' → o = none := by
  intro n
  induction n with
  | zero =>
    intro i w o w' h
    rw [for_zero] at h
    simp only [Res.done.injEq] at h
    exact h.1.symm
  | succ n ih =>
    intro i w o w' h
    rw [for_succ] at h
    by_cases h10 : msg.getD i 0 = 10
    · rw [if_pos h10] at h
      simp only [Res.done.injEq] at h
      exact h.1.symm
    · rw [if_neg h10] at h
      have key : ∀ (s : Res Int), (∀ r w1, s = Res.done r w1 → r = 0) →
          (match s with
            | Res.running w => Res.running w
            | Res.done ret w =>
              if ret ≠ 0 then Res.done (some (-EFAULT)) w else
              if (lcd_print_char client w (msg.getD i 0).val).1 ≠ 0
                then Res.done (some (-EFAULT)) (lcd_print_char client w (msg.getD i 0).val).2
                else device_write_for fuel client msg n (i + 1)
                  (lcd_print_char client w (msg.getD i 0).val).2) = Res.done o w' →
          o = none := by
        intro s hs hm
        cases s with
        | running w1 => exact absurd hm (by simp)
        | done ret w1 =>
          have hz : ret = 0 := hs ret w1 rfl
          simp only [hz, ne_eq, not_true_eq_false, if_false, print_char_ok client hN] at hm
          exact ih _ _ _ _ hm
      refine key _ ?_ h
      intro r w1 hs
      split_ifs at hs
      · exact set_cursor_ret_good client hN fuel w 16 (by norm_num) (by norm_num) r w1 hs
      · simp only [Res.done.injEq] at hs
        exact hs.1.symm

/-- On a bus that never fails a flush that returns has succeeded. -/
theorem flush_ret_good (client : i2c_client) (hN : NeverFails client) (fuel : Nat)
    (buff : List Byte) (len off : Nat) (msg : List Byte) (w : World)
    (hacc : ¬ (len + off) % 2 ^ 64 > WRITE_BUF_LENGTH - 1)
    (hcp : (copy_from_user msg off buff len).1 = 0)
    (hnl : strchr (copy_from_user msg off buff len).2 10 ≠ none)
    (r : WriteRet) (w' : World)
    (h : device_write fuel (opened client) buff len off msg w = Res.done r w') :
    r = ⟨len, 0, List.replicate WRITE_BUF_LENGTH 0⟩ := by
  rw [device_write_opened, if_neg hacc, if_neg (by rw [hcp]; simp), if_neg hnl] at h
  cases hc : lcd_clear fuel client w with
  | running w1 => rw [hc] at h; exact absurd h (by simp)
  | done ret w1 =>
    rw [hc] at h
    have hz := clear_ret_good client hN fuel w ret w1 hc
    simp only [hz, ne_eq, not_true_eq_false, if_false] at h
    cases hs : lcd_set_cursor fuel client w1 0 with
    | running w2 => rw [hs] at h; exact absurd h (by simp)
    | done ret2 w2 =>
      rw [hs] at h
      have hz2 := set_cursor_ret_good client hN fuel w1 0 (le_refl _) (by norm_num) ret2 w2 hs
      simp only [hz2, ne_eq, not_true_eq_false, if_false] at h
      cases hf : device_write_for fuel client (copy_from_user msg off buff len).2
          (off + len) 0 w2 with
      | running w3 => rw [hf] at h; exact absurd h (by simp)
      | done o w3 =>
        rw [hf] at h
        have ho := for_ret_good client hN fuel _ _ _ _ o w3 hf
        subst ho
        simp only [Res.done.injEq] at h
        exact h.1.symm

/-! ## The message lemma -/

theorem copy_message (m : List Byte) (hlen : m.length ≤ 32) :
    (copy_from_user empty_msg 0 (m ++ [10]) (m.length + 1)).1 = 0
    ∧ (copy_from_user empty_msg 0 (m ++ [10]) (m.length + 1)).2
        = [] ++ (m ++ 10 :: List.replicate (33 - m.length) 0) := by
  obtain ⟨h1, h2⟩ := copy_ok empty_msg 0 (m ++ [10]) (m.length + 1) (by simp)
  refine ⟨h1, ?_⟩
  rw [h2]
  have e : (m ++ [10]).take (m.length + 1) = m ++ [10] := by
    rw [List.take_of_length_le]; simp
  rw [e]
  have e2 : 34 - (m.length + 1) = 33 - m.length := by omega
  simp only [empty_msg, WRITE_BUF_LENGTH, List.take_zero, List.nil_append, Nat.zero_add,
    List.drop_replicate, List.append_assoc, List.singleton_append, e2]

theorem message_accepted (n : Nat) (hlen : n ≤ 32) :
    ¬ (n + 1 + 0) % 2 ^ 64 > WRITE_BUF_LENGTH - 1 := by
  simp only [WRITE_BUF_LENGTH]
  omega

/-- Writing the bytes `m` and a newline into the empty buffer at offset 0, bus and
controller unconstrained: the display operations performed are an initial part of
`lcd_clear`, `lcd_set_cursor 0`, `message_ops 0 m`; a call that returns gives
`-EFAULT`, or `m.length + 1` after all of the operations, the buffer reset. -/
theorem message_ops_any (fuel : Nat) (client : i2c_client) (w : World) (m : List Byte)
    (hlen : m.length ≤ 32) (hm : ∀ b ∈ m, b ≠ 10 ∧ b ≠ 0) :
    ∃ p q : List Ev,
      displayOps (device_write fuel (opened client) (m ++ [10]) (m.length + 1) 0
          empty_msg w).world.trace = displayOps w.trace ++ p
      ∧ p ++ q = Ev.lcd_clear :: Ev.lcd_set_cursor 0 :: message_ops 0 m
      ∧ ∀ r w', device_write fuel (opened client) (m ++ [10]) (m.length + 1) 0
            empty_msg w = Res.done r w' →
          r.ret = -EFAULT ∨ (r = ⟨((m.length + 1 : Nat) : Int), 0, empty_msg⟩ ∧ q = []) := by
  obtain ⟨hcp, hmsg⟩ := copy_message m hlen
  have hnl : strchr (copy_from_user empty_msg 0 (m ++ [10]) (m.length + 1)).2 10 ≠ none := by
    rw [hmsg, List.nil_append, strchr_message _ _ hm]; simp
  obtain ⟨p, q, h1, h2, h3⟩ := flush_ops fuel client (m ++ [10]) (m.length + 1) 0 empty_msg w
    (message_accepted _ hlen) hcp hnl
  have hops : loop_ops (copy_from_user empty_msg 0 (m ++ [10]) (m.length + 1)).2
      (0 + (m.length + 1)) 0 = message_ops 0 m := by
    rw [hmsg, Nat.zero_add]
    exact loop_ops_message _ m [] (fun b hb => (hm b hb).1)
  rw [hops] at h2
  refine ⟨Ev.lcd_clear :: p, q, h1, by rw [← h2]; rfl, ?_⟩
  intro r w' h
  rcases h3 r w' h with h | ⟨h, hq⟩
  · exact Or.inl (by rw [h])
  · exact Or.inr ⟨h, hq⟩

/-- The same write on a good bus: from some fuel on it returns `m.length + 1`, the
buffer reset, after exactly `lcd_clear`, `lcd_set_cursor 0`, `message_ops 0 m`. -/
theorem message_flush (client : i2c_client) (hN : NeverFails client)
    (hE : EventuallyReady client) (w : World) (m : List Byte)
    (hlen : m.length ≤ 32) (hm : ∀ b ∈ m, b ≠ 10 ∧ b ≠ 0) :
    ∃ F w', (∀ fuel, F ≤ fuel →
        device_write fuel (opened client) (m ++ [10]) (m.length + 1) 0 empty_msg w
          = Res.done ⟨((m.length + 1 : Nat) : Int), 0, empty_msg⟩ w')
      ∧ displayOps w'.trace
          = displayOps w.trace ++ Ev.lcd_clear :: Ev.lcd_set_cursor 0 :: message_ops 0 m := by
  obtain ⟨hcp, hmsg⟩ := copy_message m hlen
  have hnl : strchr (copy_from_user empty_msg 0 (m ++ [10]) (m.length + 1)).2 10 ≠ none := by
    rw [hmsg, List.nil_append, strchr_message _ _ hm]; simp
  obtain ⟨F, w', h1, h2⟩ := flush_good client hN hE (m ++ [10]) (m.length + 1) 0 empty_msg w
    (message_accepted _ hlen) hcp hnl
  have hops : loop_ops (copy_from_user empty_msg 0 (m ++ [10]) (m.length + 1)).2
      (0 + (m.length + 1)) 0 = message_ops 0 m := by
    rw [hmsg, Nat.zero_add]
    exact loop_ops_message _ m [] (fun b hb => (hm b hb).1)
  rw [hops] at h2
  exact ⟨F, w', h1, h2⟩

theorem ready_client_never_fails : NeverFails ready_client :=
  ⟨fun _ _ => rfl, fun _ => le_refl _⟩

theorem ready_client_eventually_ready : EventuallyReady ready_client :=
  fun _ => ⟨0, by simp [polled_flag, ready_client, u8]⟩

/-! ## Where a return value of the command path comes from -/

theorem gpio_returns (client : i2c_client) (w : World) (b : Nat) :
    (gpio_expander_write_byte client w b).1 = 0
    ∨ ∃ k b', (gpio_expander_write_byte client w b).1 = client.write_result k b' := by
  unfold gpio_expander_write_byte
  simp only []
  split_ifs
  · exact Or.inr ⟨w.writes, b, rfl⟩
  · exact Or.inl rfl

theorem send_returns (client : i2c_client) (w : World) (cmd : Nat) :
    (lcd_write_4bit_command_send client w cmd).1 = 0
    ∨ ∃ k b, (lcd_write_4bit_command_send client w cmd).1 = client.write_result k b := by
  unfold lcd_write_4bit_command_send
  simp only []
  split_ifs
  · exact (gpio_returns client _ _)
  · exact (gpio_returns client _ _)
  · exact (gpio_returns client _ _)
  · exact (gpio_returns client _ _)
  · exact Or.inl rfl

/-- The command path returns 0, `-ENODEV`, or an error code a bus write returned. -/
theorem loop_returns (client : i2c_client) (cmd : Nat) :
    ∀ (fuel : Nat) (f : Int) (w : World) (r : Int) (w' : World),
      lcd_write_4bit_command_loop client cmd fuel f w = Res.done r w' →
        r = 0 ∨ r = -ENODEV ∨ ∃ k b, r = client.write_result k b := by
  have hsend : ∀ (w : World) (r : Int) (w' : World),
      Res.done (lcd_write_4bit_command_send client w cmd).1
        (lcd_write_4bit_command_send client w cmd).2 = Res.done r w' →
      r = 0 ∨ r = -ENODEV ∨ ∃ k b, r = client.write_result k b := by
    intro w r w' h
    simp only [Res.done.injEq] at h
    rw [← h.1]
    rcases send_returns client w cmd with h0 | h1
    · exact Or.inl h0
    · exact Or.inr (Or.inr h1)
  intro fuel
  induction fuel with
  | zero =>
    intro f w r w' h
    rw [loop_zero] at h
    split_ifs at h
    · exact hsend w r w' h
  | succ n ih =>
    intro f w r w' h
    rw [loop_succ] at h
    split_ifs at h
    · simp only [Res.done.injEq] at h
      exact Or.inr (Or.inl h.1.symm)
    · exact ih _ _ _ _ h
    · exact ih _ _ _ _ h
    · exact hsend w r w' h

/-! ## The cursor command byte -/

theorem set_cursor_byte (n : Nat) (h : n ≤ 31) :
    u8 (Int.lor (if (n : Int) > LCD_NUMBER_OF_SYMBOLS_PER_LINE - 1
          then (n : Int) - LCD_NUMBER_OF_SYMBOLS_PER_LINE + 0x40 else (n : Int)) 0x80)
      = if n ≤ 15 then 0x80 ||| n else 0x80 ||| (n - 16 + 0x40) := by
  interval_cases n <;> rfl

theorem range_check_passes (pos : Int) (h0 : 0 ≤ pos) (h31 : pos ≤ 31) :
    ¬ (pos < 0 ∨ pos > LCD_NUMBER_OF_LINES * LCD_NUMBER_OF_SYMBOLS_PER_LINE - 1) := by
  simp only [LCD_NUMBER_OF_LINES, LCD_NUMBER_OF_SYMBOLS_PER_LINE]
  omega

/-- In range, `lcd_set_cursor` is `lcd_write_4bit_command` on the mapped byte. -/
theorem lcd_set_cursor_command (fuel : Nat) (client : i2c_client) (w : World)
    (pos : Int) (h0 : 0 ≤ pos) (h31 : pos ≤ 31) :
    lcd_set_cursor fuel client w pos
        = lcd_write_4bit_command fuel client (w.log (Ev.lcd_set_cursor pos))
            (if pos ≤ 15 then 0x80 ||| pos.toNat else 0x80 ||| (pos.toNat - 16 + 0x40))
      ∧ (if pos ≤ 15 then 0x80 ||| pos.toNat else 0x80 ||| (pos.toNat - 16 + 0x40)) < 256 := by
  obtain ⟨n, rfl⟩ := Int.eq_ofNat_of_zero_le h0
  have hn : n ≤ 31 := by omega
  have hb := set_cursor_byte n hn
  constructor
  · unfold lcd_set_cursor
    rw [if_neg (range_check_passes _ h0 h31)]
    simp only [hb, Int.toNat_ofNat, Nat.cast_le_ofNat]
  · simp only [Int.toNat_ofNat, Nat.cast_le_ofNat]
    interval_cases n <;> decide

/-! ## Appending without a newline -/

/-- One append of `chunk` behind the bytes `pre`, no newline anywhere: the call
returns the chunk's length and leaves the world as it was. -/
theorem append_step (fuel : Nat) (client : i2c_client) (w : World) (pre chunk : List Byte)
    (hlen : pre.length + chunk.length ≤ 33)
    (hpre : ∀ b ∈ pre, b ≠ 10) (hchunk : ∀ b ∈ chunk, b ≠ 10) :
    device_write fuel (opened client) chunk chunk.length pre.length
        (pre ++ List.replicate (34 - pre.length) 0) w
      = Res.done ⟨(chunk.length : Int), (pre ++ chunk).length,
          (pre ++ chunk) ++ List.replicate (34 - (pre ++ chunk).length) 0⟩ w := by
  have hacc : ¬ (chunk.length + pre.length) % 2 ^ 64 > WRITE_BUF_LENGTH - 1 := by
    simp only [WRITE_BUF_LENGTH]
    omega
  obtain ⟨hcp, hmsg⟩ := copy_ok (pre ++ List.replicate (34 - pre.length) 0) pre.length
    chunk chunk.length (le_refl _)
  have hmsg2 : (copy_from_user (pre ++ List.replicate (34 - pre.length) 0) pre.length
      chunk chunk.length).2
        = (pre ++ chunk) ++ List.replicate (34 - (pre ++ chunk).length) 0 := by
    rw [hmsg, List.take_left, List.take_length]
    have e : List.drop (pre.length + chunk.length) (pre ++ List.replicate (34 - pre.length) 0)
        = List.replicate (34 - (pre ++ chunk).length) 0 := by
      rw [List.drop_append_eq_append_drop, List.drop_of_length_le (by omega),
        List.nil_append, List.drop_replicate, List.length_append]
      congr 1
      omega
    rw [e, List.append_assoc]
  have hnone : strchr (copy_from_user (pre ++ List.replicate (34 - pre.length) 0) pre.length
      chunk chunk.length).2 10 = none := by
    rw [hmsg2]
    apply strchr_none
    intro b hb
    rcases List.mem_append.mp hb with h1 | h1
    · rcases List.mem_append.mp h1 with h2 | h2
      · exact hpre b h2
      · exact hchunk b h2
    · rw [List.eq_of_mem_replicate h1]
      decide
  rw [device_write_opened, if_neg hacc, if_neg (by rw [hcp]; simp), if_pos hnone, hmsg2,
    List.length_append]

theorem write_all_append (fuel : Nat) (client : i2c_client) (w : World) :
    ∀ (chunks : List (List Byte)) (pre : List Byte),
      pre.length + chunks.flatten.length ≤ 33 →
      (∀ b ∈ pre, b ≠ 10) → (∀ b ∈ chunks.flatten, b ≠ 10) →
      write_all fuel (opened client) chunks pre.length
          (pre ++ List.replicate (34 - pre.length) 0) w
        = Res.done (chunks.map (fun c => (c.length : Int)),
            (pre ++ chunks.flatten).length,
            (pre ++ chunks.flatten)
              ++ List.replicate (34 - (pre ++ chunks.flatten).length) 0) w := by
  intro chunks
  induction chunks with
  | nil =>
    intro pre _ _ _
    simp [write_all]
  | cons chunk rest ih =>
    intro pre hlen hpre hall
    simp only [List.flatten_cons, List.length_append] at hlen
    have hchunk : ∀ b ∈ chunk, b ≠ 10 := fun b hb =>
      hall b (by rw [List.flatten_cons]; exact List.mem_append_left _ hb)
    have hrest : ∀ b ∈ rest.flatten, b ≠ 10 := fun b hb =>
      hall b (by rw [List.flatten_cons]; exact List.mem_append_right _ hb)
    have hpc : ∀ b ∈ pre ++ chunk, b ≠ 10 := by
      intro b hb
      rcases List.mem_append.mp hb with h | h
      · exact hpre b h
      · exact hchunk b h
    have hstep := append_step fuel client w pre chunk (by omega) hpre hchunk
    have hih := ih (pre ++ chunk) (by rw [List.length_append]; omega) hpc hrest
    rw [write_all, hstep]
    simp only []
    rw [hih]
    simp only [List.map_cons, List.flatten_cons, List.append_assoc]

/-! ## When `strchr` finds the newline -/

theorem strchr_found_iff (l : List Byte) :
    strchr l 10 ≠ none ↔ ∃ m rest, l = m ++ 10 :: rest ∧ ∀ b ∈ m, b ≠ 0 := by
  induction l with
  | nil =>
    constructor
    · intro h; exact absurd rfl h
    · rintro ⟨m, rest, h, _⟩
      exact absurd h (by simp)
  | cons b l ih =>
    by_cases hb : b = 10
    · constructor
      · intro _
        exact ⟨[], l, by rw [hb]; rfl, by simp⟩
      · intro _
        simp [strchr, hb]
    · by_cases h0 : b = 0
      · constructor
        · intro h
          simp [strchr, hb, h0] at h
        · rintro ⟨m, rest, h, hm⟩
          cases m with
          | nil =>
            simp only [List.nil_append, List.cons.injEq] at h
            exact absurd h.1 hb
          | cons c m =>
            simp only [List.cons_append, List.cons.injEq] at h
            exact absurd (h.1 ▸ h0) (hm c (List.mem_cons_self _ _))
      · have hs : strchr (b :: l) 10 = (strchr l 10).map (· + 1) := by
          simp [strchr, hb, h0]
        constructor
        · intro h
          have hl : strchr l 10 ≠ none := by
            intro hn
            rw [hs, hn] at h
            exact h rfl
          obtain ⟨m, rest, e, hm⟩ := ih.mp hl
          refine ⟨b :: m, rest, by rw [e]; rfl, ?_⟩
          intro c hc
          rcases List.mem_cons.mp hc with h1 | h1
          · rw [h1]; exact h0
          · exact hm c h1
        · rintro ⟨m, rest, h, hm⟩
          cases m with
          | nil =>
            simp only [List.nil_append, List.cons.injEq] at h
            exact absurd h.1 hb
          | cons c m =>
            simp only [List.cons_append, List.cons.injEq] at h
            have hl : strchr l 10 ≠ none :=
              ih.mpr ⟨m, rest, h.2, fun x hx => hm x (List.mem_cons_of_mem _ hx)⟩
            rw [hs]
            intro hn
            cases hsl : strchr l 10 with
            | none => exact hl hsl
            | some v => rw [hsl] at hn; simp at hn

/-! ## What a call appends to the log -/

theorem appends_refl (P : Ev → Prop) (w : World) : Appends P w w :=
  ⟨[], by simp, by simp⟩

theorem appends_trans {P : Ev → Prop} {w1 w2 w3 : World}
    (h1 : Appends P w1 w2) (h2 : Appends P w2 w3) : Appends P w1 w3 := by
  obtain ⟨t1, e1, p1⟩ := h1
  obtain ⟨t2, e2, p2⟩ := h2
  refine ⟨t1 ++ t2, by rw [e2, e1, List.append_assoc], ?_⟩
  intro e he
  rcases List.mem_append.mp he with h | h
  · exact p1 e h
  · exact p2 e h

theorem appends_mono {P Q : Ev → Prop} {w w' : World} (h : ∀ e, P e → Q e)
    (ha : Appends P w w') : Appends Q w w' := by
  obtain ⟨t, e, p⟩ := ha
  exact ⟨t, e, fun x hx => h x (p x hx)⟩

theorem appends_log {P : Ev → Prop} (w : World) (e : Ev) (h : P e) : Appends P w (w.log e) :=
  ⟨[e], rfl, by simpa using h⟩

theorem appends_write {P : Ev → Prop} (client : i2c_client) (w : World) (b : Nat)
    (h : P (Ev.i2c_smbus_write_byte b)) : Appends P w (i2c_smbus_write_byte client w b).2 :=
  ⟨[Ev.i2c_smbus_write_byte b], rfl, by simpa using h⟩

theorem appends_read {P : Ev → Prop} (client : i2c_client) (w : World)
    (h : P Ev.i2c_smbus_read_byte) : Appends P w (i2c_smbus_read_byte client w).2 :=
  ⟨[Ev.i2c_smbus_read_byte], rfl, by simpa using h⟩

theorem appends_gpio {P : Ev → Prop} (client : i2c_client) (w : World) (b : Nat)
    (h : P (Ev.i2c_smbus_write_byte b)) : Appends P w (gpio_expander_write_byte client w b).2 := by
  unfold gpio_expander_write_byte
  simp only []
  split_ifs <;> exact appends_write client w b h

theorem appends_pulses {P : Ev → Prop} (client : i2c_client) (w : World) (p1 p2 : Nat)
    (h : ∀ e ∈ pulse p1 ++ pulse p2, P e) :
    Appends P w (gpio_expander_write_byte client w p1).2
    ∧ Appends P w (gpio_expander_write_byte client
        (gpio_expander_write_byte client w p1).2 (p1 ^^^ 0x4)).2
    ∧ Appends P w (gpio_expander_write_byte client (gpio_expander_write_byte client
        (gpio_expander_write_byte client w p1).2 (p1 ^^^ 0x4)).2 p2).2
    ∧ Appends P w (gpio_expander_write_byte client (gpio_expander_write_byte client
        (gpio_expander_write_byte client
          (gpio_expander_write_byte client w p1).2 (p1 ^^^ 0x4)).2 p2).2 (p2 ^^^ 0x4)).2 := by
  have h1 : P (Ev.i2c_smbus_write_byte p1) := h _ (by simp [pulse])
  have h2 : P (Ev.i2c_smbus_write_byte (p1 ^^^ 0x4)) := h _ (by simp [pulse])
  have h3 : P (Ev.i2c_smbus_write_byte p2) := h _ (by simp [pulse])
  have h4 : P (Ev.i2c_smbus_write_byte (p2 ^^^ 0x4)) := h _ (by simp [pulse])
  have a1 := appends_gpio client w p1 h1
  have a2 := appends_trans a1 (appends_gpio client _ (p1 ^^^ 0x4) h2)
  have a3 := appends_trans a2 (appends_gpio client _ p2 h3)
  have a4 := appends_trans a3 (appends_gpio client _ (p2 ^^^ 0x4) h4)
  exact ⟨a1, a2, a3, a4⟩

theorem appends_send {P : Ev → Prop} (client : i2c_client) (w : World) (cmd : Nat)
    (h : ∀ e ∈ command_pulses cmd, P e) :
    Appends P w (lcd_write_4bit_command_send client w cmd).2 := by
  obtain ⟨a1, a2, a3, a4⟩ := appends_pulses client w _ _ h
  unfold lcd_write_4bit_command_send
  simp only []
  split_ifs
  · exact a1
  · exact a2
  · exact a3
  · exact a4
  · exact a4

theorem appends_get_busy_flag {P : Ev → Prop} (client : i2c_client) (w : World) (f : Int)
    (h : ∀ e ∈ poll_events, P e) : Appends P w (get_busy_flag client w f).2.2 := by
  have hg : P Ev.get_busy_flag := h _ (by simp [poll_events])
  have hfe : P (Ev.i2c_smbus_write_byte 0xFE) := h _ (by simp [poll_events])
  have hfa : P (Ev.i2c_smbus_write_byte 0xFA) := h _ (by simp [poll_events])
  have hr : P Ev.i2c_smbus_read_byte := h _ (by simp [poll_events])
  have a0 := appends_log w Ev.get_busy_flag hg
  have a1 := appends_trans a0 (appends_write client _ 0xFE hfe)
  have a2 := appends_trans a1 (appends_read client _ hr)
  have a3 := appends_trans a2 (appends_write client _ 0xFA hfa)
  have a4 := appends_trans a3 (appends_write client _ 0xFE hfe)
  have a5 := appends_trans a4 (appends_read client _ hr)
  unfold get_busy_flag
  simp only []
  split_ifs
  · exact a1
  · exact a2
  · exact a3
  · exact a4
  · exact a5
  · exact a5

theorem appends_loop {P : Ev → Prop} (hP : LowLevel P) (client : i2c_client) (cmd : Nat) :
    ∀ (fuel : Nat) (f : Int) (w : World),
      Appends P w (lcd_write_4bit_command_loop client cmd fuel f w).world := by
  obtain ⟨hpoll, hsleep, hcmd, _⟩ := hP
  intro fuel
  induction fuel with
  | zero =>
    intro f w
    rw [loop_zero]
    split_ifs
    · exact appends_refl P w
    · exact appends_send client w cmd (hcmd cmd)
  | succ n ih =>
    intro f w
    rw [loop_succ]
    have hg := appends_get_busy_flag client w f hpoll
    split_ifs
    · exact hg
    · exact appends_trans (appends_trans hg (appends_log _ _ hsleep)) (ih _ _)
    · exact appends_trans hg (ih _ _)
    · exact appends_send client w cmd (hcmd cmd)

theorem appends_command {P : Ev → Prop} (hP : LowLevel P) (fuel : Nat) (client : i2c_client)
    (w : World) (cmd : Nat) :
    Appends P (w.log (Ev.lcd_write_4bit_command cmd))
      (lcd_write_4bit_command fuel client w cmd).world :=
  appends_loop hP client cmd fuel 1 _

theorem appends_data {P : Ev → Prop} (client : i2c_client) (w : World) (cmd : Nat)
    (h : ∀ e ∈ data_pulses cmd, P e) :
    Appends P (w.log (Ev.lcd_write_4bit_data cmd)) (lcd_write_4bit_data client w cmd).2 := by
  obtain ⟨a1, a2, a3, a4⟩ := appends_pulses client (w.log (Ev.lcd_write_4bit_data cmd)) _ _ h
  unfold lcd_write_4bit_data
  simp only []
  split_ifs
  · exact a1
  · exact a2
  · exact a3
  · exact a4
  · exact a4

theorem appends_half {P : Ev → Prop} (client : i2c_client) (w : World) (cmd : Nat)
    (h : ∀ e ∈ command_pulses cmd, P e) :
    Appends P (w.log (Ev.lcd_write_half_of_4bit_command cmd))
      (lcd_write_half_of_4bit_command client w cmd).2 := by
  obtain ⟨a1, a2, _, _⟩ := appends_pulses client (w.log (Ev.lcd_write_half_of_4bit_command cmd))
    _ _ h
  unfold lcd_write_half_of_4bit_command
  simp only []
  split_ifs
  · exact a1
  · exact a2
  · exact a2

/-! ## The operation calls logged by each function -/

theorem lowLevel_not_operation : LowLevel (fun e => isOperation e = false) := by
  refine ⟨?_, rfl, ?_, ?_⟩
  · intro e he
    simp only [poll_events, List.mem_cons, List.mem_singleton, List.not_mem_nil, or_false] at he
    rcases he with h | h | h | h | h | h <;> rw [h] <;> rfl
  · intro cmd e he
    simp only [command_pulses, pulse, List.cons_append, List.nil_append, List.mem_cons,
      List.mem_singleton, List.not_mem_nil, or_false] at he
    rcases he with h | h | h | h <;> rw [h] <;> rfl
  · intro cmd e he
    simp only [data_pulses, pulse, List.cons_append, List.nil_append, List.mem_cons,
      List.mem_singleton, List.not_mem_nil, or_false] at he
    rcases he with h | h | h | h <;> rw [h] <;> rfl

theorem operations_of_appends {w w' : World}
    (h : Appends (fun e => isOperation e = false) w w') :
    operations w'.trace = operations w.trace := by
  obtain ⟨t, e, p⟩ := h
  have : List.filter isOperation t = [] := by
    rw [List.filter_eq_nil_iff]
    intro x hx
    rw [p x hx]
    simp
  simp [operations, e, this]

theorem operations_log_op (w : World) (e : Ev) (h : isOperation e = true) :
    operations (w.log e).trace = operations w.trace ++ [e] := by
  simp [World.log, operations, h]

theorem operations_log_other (w : World) (e : Ev) (h : isOperation e = false) :
    operations (w.log e).trace = operations w.trace := by
  simp [World.log, operations, h]

theorem operations_command (fuel : Nat) (client : i2c_client) (w : World) (cmd : Nat) :
    operations (lcd_write_4bit_command fuel client w cmd).world.trace
      = operations w.trace ++ [Ev.lcd_write_4bit_command cmd] := by
  rw [operations_of_appends (appends_command lowLevel_not_operation fuel client w cmd)]
  exact operations_log_op w (Ev.lcd_write_4bit_command cmd) rfl

theorem operations_half (client : i2c_client) (w : World) (cmd : Nat) :
    operations (lcd_write_half_of_4bit_command client w cmd).2.trace
      = operations w.trace ++ [Ev.lcd_write_half_of_4bit_command cmd] := by
  rw [operations_of_appends (appends_half client w cmd (lowLevel_not_operation.2.2.1 cmd))]
  exact operations_log_op w (Ev.lcd_write_half_of_4bit_command cmd) rfl

theorem operations_clear (fuel : Nat) (client : i2c_client) (w : World) :
    operations (lcd_clear fuel client w).world.trace
      = operations w.trace ++ [Ev.lcd_clear, Ev.lcd_write_4bit_command 0x01] := by
  unfold lcd_clear
  rw [operations_command, operations_log_op w Ev.lcd_clear rfl]
  simp

theorem operations_set_cursor_home (fuel : Nat) (client : i2c_client) (w : World) :
    operations (lcd_set_cursor fuel client w 0).world.trace
      = operations w.trace ++ [Ev.lcd_set_cursor 0, Ev.lcd_write_4bit_command 0x80] := by
  rw [(lcd_set_cursor_command fuel client w 0 (le_refl _) (by norm_num)).1]
  have e : (if (0 : Int) ≤ 15 then 0x80 ||| (0 : Int).toNat
      else 0x80 ||| ((0 : Int).toNat - 16 + 0x40)) = 0x80 := by decide
  rw [e, operations_command, operations_log_op w (Ev.lcd_set_cursor 0) rfl]
  simp

theorem half_ok (client : i2c_client) (hN : NeverFails client) (w : World) (cmd : Nat) :
    (lcd_write_half_of_4bit_command client w cmd).1 = 0 := by
  simp [lcd_write_half_of_4bit_command, gpio_ok client hN]

theorem lcd_init_eq (fuel : Nat) (client : i2c_client) (w : World) :
    lcd_init fuel client w
      = if (lcd_write_half_of_4bit_command client (w.log Ev.lcd_init) 0x20).1 ≠ 0 then
          Res.done (lcd_write_half_of_4bit_command client (w.log Ev.lcd_init) 0x20).1
            (lcd_write_half_of_4bit_command client (w.log Ev.lcd_init) 0x20).2
        else
          match lcd_write_4bit_command fuel client
              (lcd_write_half_of_4bit_command client (w.log Ev.lcd_init) 0x20).2 0x28 with
          | Res.running w => Res.running w
          | Res.done ret w =>
            if ret ≠ 0 then Res.done ret w else
            match lcd_write_4bit_command fuel client w 0x0F with
            | Res.running w => Res.running w
            | Res.done ret w =>
              if ret ≠ 0 then Res.done ret w else
              match lcd_clear fuel client w with
              | Res.running w => Res.running w
              | Res.done ret w =>
                if ret ≠ 0 then Res.done ret w else
                match lcd_set_cursor fuel client w 0 with
                | Res.running w => Res.running w
                | Res.done ret w =>
                  if ret ≠ 0 then Res.done ret w else Res.done 0 w := by
  rfl

/-! ## Sequences of expander writes -/

theorem gpio_eq (client : i2c_client) (w : World) (b : Nat) :
    gpio_expander_write_byte client w b
      = (client.write_result w.writes b,
         ⟨w.trace ++ [Ev.i2c_smbus_write_byte b], w.writes + 1, w.reads⟩) := by
  unfold gpio_expander_write_byte i2c_smbus_write_byte
  simp only []
  split_ifs with h
  · rfl
  · rw [not_not.mp h]

theorem send_eq_sequence (client : i2c_client) (w : World) (cmd : Nat) :
    lcd_write_4bit_command_send client w cmd
      = write_sequence client w
          [(cmd &&& 0xF0) ||| 0xC ||| 0x0, ((cmd &&& 0xF0) ||| 0xC ||| 0x0) ^^^ 0x4,
           ((cmd &&& 0x0F) <<< 4) ||| 0xC ||| 0x0,
           (((cmd &&& 0x0F) <<< 4) ||| 0xC ||| 0x0) ^^^ 0x4] := by
  rfl

theorem data_eq_sequence (client : i2c_client) (w : World) (cmd : Nat) :
    lcd_write_4bit_data client w cmd
      = write_sequence client (w.log (Ev.lcd_write_4bit_data cmd))
          [(cmd &&& 0xF0) ||| 0xC ||| 0x1, ((cmd &&& 0xF0) ||| 0xC ||| 0x1) ^^^ 0x4,
           ((cmd &&& 0x0F) <<< 4) ||| 0xC ||| 0x1,
           (((cmd &&& 0x0F) <<< 4) ||| 0xC ||| 0x1) ^^^ 0x4] := by
  rfl

theorem half_eq_sequence (client : i2c_client) (w : World) (cmd : Nat) :
    lcd_write_half_of_4bit_command client w cmd
      = write_sequence client (w.log (Ev.lcd_write_half_of_4bit_command cmd))
          [(cmd &&& 0xF0) ||| 0xC ||| 0x0, ((cmd &&& 0xF0) ||| 0xC ||| 0x0) ^^^ 0x4] := by
  rfl

/-- Every write succeeds: the sequence returns 0 having written all the bytes. -/
theorem write_sequence_ok (client : i2c_client) :
    ∀ (bs : List Nat) (w : World),
      (∀ j, j < bs.length → client.write_result (w.writes + j) (bs.getD j 0) = 0) →
      write_sequence client w bs
        = (0, ⟨w.trace ++ bs.map Ev.i2c_smbus_write_byte, w.writes + bs.length, w.reads⟩) := by
  intro bs
  induction bs with
  | nil => intro w _; simp [write_sequence]
  | cons b bs ih =>
    intro w h
    have h0 : client.write_result w.writes b = 0 := by
      simpa using h 0 (by simp)
    have ht : ∀ j, j < bs.length →
        client.write_result (w.writes + 1 + j) (bs.getD j 0) = 0 := by
      intro j hj
      have := h (j + 1) (by simp; omega)
      have e : w.writes + (j + 1) = w.writes + 1 + j := by omega
      rw [e] at this
      simpa using this
    rw [write_sequence, gpio_eq]
    simp only [h0, ne_eq, not_true_eq_false, if_false]
    rw [ih _ ht]
    simp only [List.map_cons, List.append_assoc, List.singleton_append, List.length_cons,
      Prod.mk.injEq, World.mk.injEq, true_and, and_true]
    omega

/-- The writes of `pre` succeed and the next one fails with `e`: the sequence
returns `e` and writes nothing after the failed byte. -/
theorem write_sequence_fail (client : i2c_client) (b : Nat) (post : List Nat) (e : Int)
    (he : e ≠ 0) :
    ∀ (pre : List Nat) (w : World),
      (∀ j, j < pre.length → client.write_result (w.writes + j) (pre.getD j 0) = 0) →
      client.write_result (w.writes + pre.length) b = e →
      write_sequence client w (pre ++ b :: post)
        = (e, ⟨w.trace ++ (pre ++ [b]).map Ev.i2c_smbus_write_byte,
              w.writes + pre.length + 1, w.reads⟩) := by
  intro pre
  induction pre with
  | nil =>
    intro w _ hb
    simp only [List.length_nil, Nat.add_zero] at hb
    rw [List.nil_append, write_sequence, gpio_eq]
    simp only [hb, he, ne_eq, not_false_eq_true, if_true, List.nil_append, List.map_cons,
      List.map_nil, List.length_nil, Nat.add_zero]
  | cons a pre ih =>
    intro w h hb
    have h0 : client.write_result w.writes a = 0 := by
      simpa using h 0 (by simp)
    have ht : ∀ j, j < pre.length →
        client.write_result (w.writes + 1 + j) (pre.getD j 0) = 0 := by
      intro j hj
      have := h (j + 1) (by simp; omega)
      have e : w.writes + (j + 1) = w.writes + 1 + j := by omega
      rw [e] at this
      simpa using this
    have hb' : client.write_result (w.writes + 1 + pre.length) b = e := by
      have e2 : w.writes + (a :: pre).length = w.writes + 1 + pre.length := by
        simp only [List.length_cons]; omega
      rw [← e2]; exact hb
    rw [List.cons_append, write_sequence, gpio_eq]
    simp only [h0, ne_eq, not_true_eq_false, if_false]
    rw [ih _ ht hb']
    simp only [List.cons_append, List.map_cons, List.append_assoc, List.singleton_append,
      List.length_cons, Prod.mk.injEq, World.mk.injEq, true_and, and_true]
    exact ⟨by simp, by omega⟩

theorem write_sequence_good (client : i2c_client) (hN : NeverFails client) (bs : List Nat)
    (w : World) :
    write_sequence client w bs
      = (0, ⟨w.trace ++ bs.map Ev.i2c_smbus_write_byte, w.writes + bs.length, w.reads⟩) :=
  write_sequence_ok client bs w (fun _ _ => hN.1 _ _)

/-! ## The log of the command path on a bus that never fails -/

theorem get_busy_flag_exact (client : i2c_client) (hN : NeverFails client) (w : World)
    (f : Int) :
    get_busy_flag client w f
      = (0, polled_flag client w.reads,
         ⟨w.trace ++ poll_events, w.writes + 3, w.reads + 2⟩) := by
  obtain ⟨hw, hr⟩ := hN
  have h1 : ¬ client.read_result w.reads < 0 := not_lt.mpr (hr _)
  have h2 : ¬ client.read_result (w.reads + 1) < 0 := not_lt.mpr (hr _)
  simp [get_busy_flag, i2c_smbus_write_byte, i2c_smbus_read_byte, World.log, hw, h1, h2,
    polled_flag, poll_events]

theorem send_exact (client : i2c_client) (hN : NeverFails client) (w : World) (cmd : Nat) :
    lcd_write_4bit_command_send client w cmd
      = (0, ⟨w.trace ++ command_pulses cmd, w.writes + 4, w.reads⟩) := by
  rw [send_eq_sequence, write_sequence_good client hN]
  rfl

theorem data_exact (client : i2c_client) (hN : NeverFails client) (w : World) (cmd : Nat) :
    lcd_write_4bit_data client w cmd
      = (0, ⟨w.trace ++ Ev.lcd_write_4bit_data cmd :: data_pulses cmd, w.writes + 4, w.reads⟩) := by
  rw [data_eq_sequence, write_sequence_good client hN]
  simp [World.log, data_pulses, pulse]

theorem half_exact (client : i2c_client) (hN : NeverFails client) (w : World) (cmd : Nat) :
    lcd_write_half_of_4bit_command client w cmd
      = (0, ⟨w.trace ++ Ev.lcd_write_half_of_4bit_command cmd
              :: pulse ((cmd &&& 0xF0) ||| 0xC ||| 0x0), w.writes + 2, w.reads⟩) := by
  rw [half_eq_sequence, write_sequence_good client hN]
  simp [World.log, pulse]

/-- While every poll finds the controller busy the loop only polls and sleeps. -/
theorem loop_exact_busy (client : i2c_client) (hN : NeverFails client) (cmd : Nat) :
    ∀ (fuel : Nat) (f : Int) (w : World), f ≠ 0 →
      (∀ j, j < fuel → polled_flag client (w.reads + 2 * j) ≠ 0) →
      lcd_write_4bit_command_loop client cmd fuel f w
        = Res.running ⟨w.trace ++ busy_polls fuel, w.writes + 3 * fuel, w.reads + 2 * fuel⟩ := by
  intro fuel
  induction fuel with
  | zero =>
    intro f w hf _
    rw [loop_zero, if_pos hf]
    simp [busy_polls]
  | succ n ih =>
    intro f w hf hb
    have h0 : polled_flag client w.reads ≠ 0 := by simpa using hb 0 (by omega)
    rw [loop_succ, if_pos hf, get_busy_flag_exact client hN]
    simp only [ne_eq, not_true_eq_false, if_false, h0, not_false_eq_true, if_true]
    rw [ih _ _ h0 (by
      intro j hj
      have := hb (j + 1) (by omega)
      simp only [msleep, World.log]
      have e : w.reads + 2 + 2 * j = w.reads + 2 * (j + 1) := by ring
      rw [e]; exact this)]
    simp only [msleep, World.log, busy_polls, List.append_assoc, Res.running.injEq,
      World.mk.injEq, true_and]
    constructor <;> ring

/-- After `k` busy polls and one clear poll the loop ends and the four nibble writes
follow. -/
theorem loop_exact_run (client : i2c_client) (hN : NeverFails client) (cmd : Nat) :
    ∀ (k : Nat) (f : Int) (w : World), f ≠ 0 →
      (∀ j, j < k → polled_flag client (w.reads + 2 * j) ≠ 0) →
      polled_flag client (w.reads + 2 * k) = 0 →
      ∀ fuel, k < fuel →
        lcd_write_4bit_command_loop client cmd fuel f w
          = Res.done 0 ⟨w.trace ++ (busy_polls k ++ (poll_events ++ command_pulses cmd)),
              w.writes + 3 * k + 7, w.reads + 2 * k + 2⟩ := by
  intro k
  induction k with
  | zero =>
    intro f w hf _ hc fuel hfuel
    obtain ⟨n, rfl⟩ : ∃ n, fuel = n + 1 := ⟨fuel - 1, by omega⟩
    have h0 : polled_flag client w.reads = 0 := by simpa using hc
    rw [loop_succ, if_pos hf, get_busy_flag_exact client hN]
    simp only [ne_eq, not_true_eq_false, if_false, h0]
    rw [loop_ready, send_exact client hN]
    simp [busy_polls]
  | succ k ih =>
    intro f w hf hb hc fuel hfuel
    obtain ⟨n, rfl⟩ : ∃ n, fuel = n + 1 := ⟨fuel - 1, by omega⟩
    have h0 : polled_flag client w.reads ≠ 0 := by simpa using hb 0 (by omega)
    rw [loop_succ, if_pos hf, get_busy_flag_exact client hN]
    simp only [ne_eq, not_true_eq_false, if_false, h0, not_false_eq_true, if_true]
    rw [ih _ _ h0 (by
      intro j hj
      have := hb (j + 1) (by omega)
      simp only [msleep, World.log]
      have e : w.reads + 2 + 2 * j = w.reads + 2 * (j + 1) := by ring
      rw [e]; exact this) (by
      simp only [msleep, World.log]
      have e : w.reads + 2 + 2 * k = w.reads + 2 * (k + 1) := by ring
      rw [e]; exact hc) n (by omega)]
    simp only [msleep, World.log, busy_polls, List.append_assoc, Res.done.injEq,
      World.mk.injEq, true_and]
    constructor <;> ring

theorem count_busy_polls (k : Nat) :
    (busy_polls k).count Ev.get_busy_flag = k ∧ (busy_polls k).count (Ev.msleep 10) = k
    ∧ ∀ b, Ev.i2c_smbus_write_byte b ∈ busy_polls k → b = 0xFE ∨ b = 0xFA := by
  induction k with
  | zero => simp [busy_polls]
  | succ k ih =>
    obtain ⟨h1, h2, h3⟩ := ih
    refine ⟨?_, ?_, ?_⟩
    · rw [busy_polls, List.count_append, h1]
      simp [poll_events]
      omega
    · rw [busy_polls, List.count_append, h2]
      simp [poll_events]
      omega
    · intro b hb
      rw [busy_polls] at hb
      rcases List.mem_append.mp hb with h | h
      · simp [poll_events] at h
        rcases h with h | h | h
        · exact Or.inl h
        · exact Or.inr h
        · exact Or.inl h
      · exact h3 b h

/-! ## Bits of the bytes written -/

theorem literal_bits :
    Nat.testBit 240 3 = false ∧ Nat.testBit 12 3 = true ∧ Nat.testBit 4 3 = false
    ∧ Nat.testBit 1 3 = false ∧ Nat.testBit 0 3 = false
    ∧ Nat.testBit 240 1 = false ∧ Nat.testBit 12 1 = false ∧ Nat.testBit 4 1 = false
    ∧ Nat.testBit 1 1 = false ∧ Nat.testBit 0 1 = false
    ∧ Nat.testBit 240 2 = false ∧ Nat.testBit 12 2 = true ∧ Nat.testBit 4 2 = true
    ∧ Nat.testBit 1 2 = false ∧ Nat.testBit 0 2 = false
    ∧ Nat.testBit 240 0 = false ∧ Nat.testBit 12 0 = false ∧ Nat.testBit 4 0 = false
    ∧ Nat.testBit 1 0 = true ∧ Nat.testBit 0 0 = false
    ∧ Nat.testBit 254 3 = true ∧ Nat.testBit 250 3 = true := by
  decide

/-- Flipping the enable bit changes bit 2 and no other bit. -/
theorem xor_enable (base i : Nat) :
    (base ^^^ 0x4).testBit i = if i = 2 then !base.testBit i else base.testBit i := by
  have h4 : (0x4 : Nat) = 2 ^ 2 := by norm_num
  rw [Nat.testBit_xor, h4, Nat.testBit_two_pow]
  by_cases h : i = 2
  · subst h; simp
  · have h' : ¬ 2 = i := fun x => h x.symm
    simp [h, h']

theorem command_base_bits (cmd : Nat) :
    ((cmd &&& 0xF0) ||| 0xC ||| 0x0).testBit 2 = true
    ∧ (((cmd &&& 0x0F) <<< 4) ||| 0xC ||| 0x0).testBit 2 = true
    ∧ ((cmd &&& 0xF0) ||| 0xC ||| 0x1).testBit 2 = true
    ∧ (((cmd &&& 0x0F) <<< 4) ||| 0xC ||| 0x1).testBit 2 = true := by
  simp [Nat.testBit_or, Nat.testBit_and, Nat.testBit_shiftLeft, literal_bits]

set_option maxRecDepth 100000 in
theorem command_bytes : ∀ b, b < 256 →
    ((b &&& 0xF0) ||| 0xC ||| 0x0) = (b &&& 0xF0) ||| 0x0C
    ∧ (((b &&& 0xF0) ||| 0xC ||| 0x0) ^^^ 0x4) = (b &&& 0xF0) ||| 0x08
    ∧ (((b &&& 0x0F) <<< 4) ||| 0xC ||| 0x0) = ((b &&& 0x0F) <<< 4) ||| 0x0C
    ∧ ((((b &&& 0x0F) <<< 4) ||| 0xC ||| 0x0) ^^^ 0x4) = ((b &&& 0x0F) <<< 4) ||| 0x08 := by
  decide

set_option maxRecDepth 100000 in
theorem data_bytes : ∀ b, b < 256 →
    ((b &&& 0xF0) ||| 0xC ||| 0x1) = (b &&& 0xF0) ||| 0x0D
    ∧ (((b &&& 0xF0) ||| 0xC ||| 0x1) ^^^ 0x4) = (b &&& 0xF0) ||| 0x09
    ∧ (((b &&& 0x0F) <<< 4) ||| 0xC ||| 0x1) = ((b &&& 0x0F) <<< 4) ||| 0x0D
    ∧ ((((b &&& 0x0F) <<< 4) ||| 0xC ||| 0x1) ^^^ 0x4) = ((b &&& 0x0F) <<< 4) ||| 0x09 := by
  decide

set_option maxRecDepth 100000 in
theorem nibbles_rebuild : ∀ b, b < 256 →
    ((((b &&& 0xF0) ||| 0x0C) >>> 4) <<< 4) ||| ((((b &&& 0x0F) <<< 4) ||| 0x0C) >>> 4) = b := by
  decide

theorem flag_bit (x : Nat) : ((x &&& 0x80 : Nat) : Int) ≠ 0 ↔ x.testBit 7 = true := by
  have h : (0x80 : Nat) = 2 ^ 7 := by norm_num
  rw [h, Nat.and_two_pow]
  cases x.testBit 7 <;> simp

/-! ## A failing write inside the poll -/

theorem poll_write_fails (client : i2c_client) (w : World) (f e : Int) (he : e ≠ 0) :
    (client.write_result w.writes 0xFE = e → (get_busy_flag client w f).1 = e)
    ∧ (client.write_result w.writes 0xFE = 0 → 0 ≤ client.read_result w.reads →
        client.write_result (w.writes + 1) 0xFA = e → (get_busy_flag client w f).1 = e)
    ∧ (client.write_result w.writes 0xFE = 0 → 0 ≤ client.read_result w.reads →
        client.write_result (w.writes + 1) 0xFA = 0 →
        client.write_result (w.writes + 2) 0xFE = e → (get_busy_flag client w f).1 = e) := by
  refine ⟨?_, ?_, ?_⟩
  · intro h1
    simp [get_busy_flag, i2c_smbus_write_byte, World.log, h1, he]
  · intro h1 hr h2
    simp [get_busy_flag, i2c_smbus_write_byte, i2c_smbus_read_byte, World.log, h1, h2, he,
      not_lt.mpr hr]
  · intro h1 hr h2 h3
    simp [get_busy_flag, i2c_smbus_write_byte, i2c_smbus_read_byte, World.log, h1, h2, h3, he,
      not_lt.mpr hr]

theorem loop_poll_fails (client : i2c_client) (cmd : Nat) (fuel : Nat) (f : Int) (w : World)
    (hf : f ≠ 0) (hg : (get_busy_flag client w f).1 ≠ 0) :
    lcd_write_4bit_command_loop client cmd (fuel + 1) f w
      = Res.done (-ENODEV) (get_busy_flag client w f).2.2 := by
  rw [loop_succ, if_pos hf, if_pos hg]

theorem busy_twice_never_fails : NeverFails busy_twice_client := by
  refine ⟨fun _ _ => rfl, fun k => ?_⟩
  simp only [busy_twice_client]
  split_ifs <;> norm_num

/-! ## The backlight bit and the read/write bit -/

theorem backlit_other (e : Ev) (h : ∀ b, e ≠ Ev.i2c_smbus_write_byte b) : Backlit e :=
  fun b hb => absurd hb (h b)

theorem backlit_pulses (p1 p2 : Nat) (h1 : p1.testBit 3 = true) (h2 : p2.testBit 3 = true) :
    ∀ e ∈ pulse p1 ++ pulse p2, Backlit e := by
  intro e he
  simp only [pulse, List.cons_append, List.nil_append, List.mem_cons, List.mem_singleton,
    List.not_mem_nil, or_false] at he
  intro b hb
  rcases he with h | h | h | h <;> rw [h] at hb <;> injection hb with hb <;> rw [← hb]
  · exact h1
  · rw [xor_enable, if_neg (by decide)]; exact h1
  · exact h2
  · rw [xor_enable, if_neg (by decide)]; exact h2

theorem writeMode_pulses (p1 p2 : Nat) (h1 : p1.testBit 1 = false) (h2 : p2.testBit 1 = false) :
    ∀ e ∈ pulse p1 ++ pulse p2, WriteMode e := by
  intro e he
  simp only [pulse, List.cons_append, List.nil_append, List.mem_cons, List.mem_singleton,
    List.not_mem_nil, or_false] at he
  intro b hb
  rcases he with h | h | h | h <;> rw [h] at hb <;> injection hb with hb <;> rw [← hb]
  · exact h1
  · rw [xor_enable, if_neg (by decide)]; exact h1
  · exact h2
  · rw [xor_enable, if_neg (by decide)]; exact h2

theorem backlit_command_pulses (cmd : Nat) : ∀ e ∈ command_pulses cmd, Backlit e :=
  backlit_pulses _ _
    (by simp [Nat.testBit_or, Nat.testBit_and, literal_bits])
    (by simp [Nat.testBit_or, Nat.testBit_and, Nat.testBit_shiftLeft, literal_bits])

theorem backlit_data_pulses (cmd : Nat) : ∀ e ∈ data_pulses cmd, Backlit e :=
  backlit_pulses _ _
    (by simp [Nat.testBit_or, Nat.testBit_and, literal_bits])
    (by simp [Nat.testBit_or, Nat.testBit_and, Nat.testBit_shiftLeft, literal_bits])

theorem writeMode_command_pulses (cmd : Nat) : ∀ e ∈ command_pulses cmd, WriteMode e :=
  writeMode_pulses _ _
    (by simp [Nat.testBit_or, Nat.testBit_and, literal_bits])
    (by simp [Nat.testBit_or, Nat.testBit_and, Nat.testBit_shiftLeft, literal_bits])

theorem writeMode_data_pulses (cmd : Nat) : ∀ e ∈ data_pulses cmd, WriteMode e :=
  writeMode_pulses _ _
    (by simp [Nat.testBit_or, Nat.testBit_and, literal_bits])
    (by simp [Nat.testBit_or, Nat.testBit_and, Nat.testBit_shiftLeft, literal_bits])

theorem lowLevel_backlit : LowLevel Backlit := by
  refine ⟨?_, backlit_other _ (by simp), backlit_command_pulses, backlit_data_pulses⟩
  intro e he
  simp only [poll_events, List.mem_cons, List.mem_singleton, List.not_mem_nil, or_false] at he
  intro b hb
  rcases he with h | h | h | h | h | h <;> rw [h] at hb
  · exact absurd hb (by simp)
  · injection hb with hb; rw [← hb]; exact literal_bits.2.2.2.2.2.2.2.2.2.2.2.2.2.2.2.2.2.2.2.2.1
  · exact absurd hb (by simp)
  · injection hb with hb; rw [← hb]; exact literal_bits.2.2.2.2.2.2.2.2.2.2.2.2.2.2.2.2.2.2.2.2.2
  · injection hb with hb; rw [← hb]; exact literal_bits.2.2.2.2.2.2.2.2.2.2.2.2.2.2.2.2.2.2.2.2.1
  · exact absurd hb (by simp)

theorem backlit_command (fuel : Nat) (client : i2c_client) (w : World) (cmd : Nat) :
    Appends Backlit w (lcd_write_4bit_command fuel client w cmd).world :=
  appends_trans (appends_log w _ (backlit_other _ (by simp)))
    (appends_command lowLevel_backlit fuel client w cmd)

theorem backlit_clear (fuel : Nat) (client : i2c_client) (w : World) :
    Appends Backlit w (lcd_clear fuel client w).world :=
  appends_trans (appends_log w _ (backlit_other _ (by simp)))
    (backlit_command fuel client _ 0x01)

theorem backlit_set_cursor (fuel : Nat) (client : i2c_client) (w : World) (pos : Int) :
    Appends Backlit w (lcd_set_cursor fuel client w pos).world := by
  have h := appends_log (P := Backlit) w (Ev.lcd_set_cursor pos) (backlit_other _ (by simp))
  unfold lcd_set_cursor
  simp only []
  split_ifs
  · exact h
  · exact appends_trans h (backlit_command fuel client _ _)
  · exact appends_trans h (backlit_command fuel client _ _)

theorem backlit_print_char (client : i2c_client) (w : World) (symbol : Nat) :
    Appends Backlit w (lcd_print_char client w symbol).2 :=
  appends_trans (appends_log w _ (backlit_other _ (by simp)))
    (appends_trans (appends_log _ _ (backlit_other _ (by simp)))
      (appends_data client _ symbol (backlit_data_pulses symbol)))

theorem backlit_half (client : i2c_client) (w : World) (cmd : Nat) :
    Appends Backlit w (lcd_write_half_of_4bit_command client w cmd).2 :=
  appends_trans (appends_log w _ (backlit_other _ (by simp)))
    (appends_half client w cmd (backlit_command_pulses cmd))

theorem backlit_init (fuel : Nat) (client : i2c_client) (w : World) :
    Appends Backlit w (lcd_init fuel client w).world := by
  have a0 := appends_trans (appends_log (P := Backlit) w Ev.lcd_init (backlit_other _ (by simp)))
    (backlit_half client (w.log Ev.lcd_init) 0x20)
  rw [lcd_init_eq]
  split_ifs
  · exact a0
  · have a1 := backlit_command fuel client
      (lcd_write_half_of_4bit_command client (w.log Ev.lcd_init) 0x20).2 0x28
    cases h1 : lcd_write_4bit_command fuel client
        (lcd_write_half_of_4bit_command client (w.log Ev.lcd_init) 0x20).2 0x28 with
    | running w1 => rw [h1] at a1; exact appends_trans a0 a1
    | done r1 w1 =>
      rw [h1] at a1
      have b1 : Appends Backlit w w1 := appends_trans a0 a1
      simp only []
      split_ifs
      · exact b1
      · have a2 := backlit_command fuel client w1 0x0F
        cases h2 : lcd_write_4bit_command fuel client w1 0x0F with
        | running w2 => rw [h2] at a2; exact appends_trans b1 a2
        | done r2 w2 =>
          rw [h2] at a2
          have b2 : Appends Backlit w w2 := appends_trans b1 a2
          simp only []
          split_ifs
          · exact b2
          · have a3 := backlit_clear fuel client w2
            cases h3 : lcd_clear fuel client w2 with
            | running w3 => rw [h3] at a3; exact appends_trans b2 a3
            | done r3 w3 =>
              rw [h3] at a3
              have b3 : Appends Backlit w w3 := appends_trans b2 a3
              simp only []
              split_ifs
              · exact b3
              · have a4 := backlit_set_cursor fuel client w3 0
                cases h4 : lcd_set_cursor fuel client w3 0 with
                | running w4 => rw [h4] at a4; exact appends_trans b3 a4
                | done r4 w4 =>
                  rw [h4] at a4
                  have b4 : Appends Backlit w w4 := appends_trans b3 a4
                  simp only []
                  split_ifs
                  · exact b4
                  · exact b4

theorem backlit_for (fuel : Nat) (client : i2c_client) (msg : List Byte) :
    ∀ (n i : Nat) (w : World),
      Appends Backlit w (device_write_for fuel client msg n i w).world := by
  intro n
  induction n with
  | zero =>
    intro i w
    rw [for_zero]
    exact appends_refl _ w
  | succ n ih =>
    intro i w
    rw [for_succ]
    by_cases h10 : msg.getD i 0 = 10
    · rw [if_pos h10]
      exact appends_refl _ w
    · rw [if_neg h10]
      obtain ⟨s, hs, hsw⟩ : ∃ s : Res Int,
          s = (if (i : Int) = LCD_NUMBER_OF_SYMBOLS_PER_LINE
                 then lcd_set_cursor fuel client w 16 else Res.done 0 w)
          ∧ Appends Backlit w s.world := by
        refine ⟨_, rfl, ?_⟩
        split_ifs
        · exact backlit_set_cursor fuel client w 16
        · exact appends_refl _ w
      rw [← hs]
      cases s with
      | running w1 => exact hsw
      | done ret w1 =>
        have b1 : Appends Backlit w w1 := hsw
        have b2 := appends_trans b1 (backlit_print_char client w1 (msg.getD i 0).val)
        simp only []
        split_ifs
        · exact b1
        · exact b2
        · exact appends_trans b2 (ih _ _)

theorem backlit_device_write_opened (fuel : Nat) (client : i2c_client) (buff : List Byte)
    (len off : Nat) (msg : List Byte) (w : World) :
    Appends Backlit w (device_write fuel (opened client) buff len off msg w).world := by
  rw [device_write_opened]
  split_ifs
  · exact appends_refl _ w
  · exact appends_refl _ w
  · exact appends_refl _ w
  · have a1 := backlit_clear fuel client w
    cases h1 : lcd_clear fuel client w with
    | running w1 => rw [h1] at a1; exact a1
    | done r1 w1 =>
      rw [h1] at a1
      have b1 : Appends Backlit w w1 := a1
      simp only []
      split_ifs
      · exact b1
      · have a2 := backlit_set_cursor fuel client w1 0
        cases h2 : lcd_set_cursor fuel client w1 0 with
        | running w2 => rw [h2] at a2; exact appends_trans b1 a2
        | done r2 w2 =>
          rw [h2] at a2
          have b2 : Appends Backlit w w2 := appends_trans b1 a2
          simp only []
          split_ifs
          · exact b2
          · have a3 := backlit_for fuel client (copy_from_user msg off buff len).2
              (off + len) 0 w2
            cases h3 : device_write_for fuel client (copy_from_user msg off buff len).2
                (off + len) 0 w2 with
            | running w3 => rw [h3] at a3; exact appends_trans b2 a3
            | done o w3 =>
              rw [h3] at a3
              have b3 : Appends Backlit w w3 := appends_trans b2 a3
              cases o with
              | none => exact b3
              | some r => exact b3

/-- Every `struct file` either has no private data or is that of an open session. -/
theorem file_cases (filp : file) :
    filp.private_data = none ∨ ∃ client, filp = opened client := by
  obtain ⟨pd⟩ := filp
  cases pd with
  | none => exact Or.inl rfl
  | some dd => exact Or.inr ⟨dd.client, rfl⟩

theorem device_write_no_data (fuel : Nat) (filp : file) (buff : List Byte)
    (len off : Nat) (msg : List Byte) (w : World) (h : filp.private_data = none) :
    device_write fuel filp buff len off msg w = Res.done ⟨-ENODEV, off, msg⟩ w := by
  unfold device_write
  rw [h]

theorem backlit_device_write (fuel : Nat) (filp : file) (buff : List Byte)
    (len off : Nat) (msg : List Byte) (w : World) :
    Appends Backlit w (device_write fuel filp buff len off msg w).world := by
  rcases file_cases filp with h | ⟨client, rfl⟩
  · rw [device_write_no_data fuel filp buff len off msg w h]
    exact appends_refl _ w
  · exact backlit_device_write_opened fuel client buff len off msg w

/-! ## The buffer invariant -/

theorem bufferOK_empty : BufferOK empty_msg := by
  constructor
  · simp [empty_msg, WRITE_BUF_LENGTH]
  · decide

/-- An accepted copy stays inside indices `off .. off + len - 1`, below 33. -/
theorem copy_in_bounds (msg : List Byte) (off : Nat) (buff : List Byte) (len : Nat)
    (hmsg : BufferOK msg) (h : off + len ≤ 33) :
    BufferOK (copy_from_user msg off buff len).2
    ∧ (copy_from_user msg off buff len).2.take off = msg.take off
    ∧ (copy_from_user msg off buff len).2.drop (off + len) = msg.drop (off + len) := by
  obtain ⟨hl, h0⟩ := hmsg
  have hA : (msg.take off ++ (buff.take len ++ List.replicate (len - buff.length) 0)).length
      = off + len := by
    simp only [List.length_append, List.length_take, List.length_replicate]
    omega
  have hcp : (copy_from_user msg off buff len).2
      = (msg.take off ++ (buff.take len ++ List.replicate (len - buff.length) 0))
        ++ msg.drop (off + len) := by
    simp [copy_from_user]
  refine ⟨⟨?_, ?_⟩, ?_, ?_⟩
  · rw [hcp, List.length_append, hA, List.length_drop]
    omega
  · rw [hcp, List.getD_append_right _ _ _ _ (by rw [hA]; omega), hA,
      List.getD_eq_getElem?_getD, List.getElem?_drop]
    have e : off + len + (33 - (off + len)) = 33 := by omega
    rw [e, ← List.getD_eq_getElem?_getD]
    exact h0
  · rw [hcp, List.append_assoc, List.take_append_of_le_length (by simp; omega)]
    simp
  · rw [hcp]
    have := List.drop_left (msg.take off ++ (buff.take len
      ++ List.replicate (len - buff.length) 0)) (msg.drop (off + len))
    rw [hA] at this
    exact this

theorem strchr_first (l : List Byte) (h : strchr l 10 ≠ none) :
    ∃ m rest, l = m ++ 10 :: rest ∧ ∀ b ∈ m, b ≠ 10 ∧ b ≠ 0 := by
  induction l with
  | nil => exact absurd rfl h
  | cons b l ih =>
    by_cases hb : b = 10
    · exact ⟨[], l, by rw [hb]; rfl, by simp⟩
    · by_cases h0 : b = 0
      · simp [strchr, hb, h0] at h
      · have hs : strchr (b :: l) 10 = (strchr l 10).map (· + 1) := by
          simp [strchr, hb, h0]
        have hl : strchr l 10 ≠ none := by
          intro hn
          rw [hs, hn] at h
          exact h rfl
        obtain ⟨m, rest, e, hm⟩ := ih hl
        refine ⟨b :: m, rest, by rw [e]; rfl, ?_⟩
        intro c hc
        rcases List.mem_cons.mp hc with h1 | h1
        · rw [h1]; exact ⟨hb, h0⟩
        · exact hm c h1

/-- With a NUL byte in the array the search ends inside it: what lies behind the
array does not matter. -/
theorem strchr_stops (l : List Byte) (h : (0 : Byte) ∈ l) (junk : List Byte) :
    strchr (l ++ junk) 10 = strchr l 10 := by
  induction l with
  | nil => exact absurd h (by simp)
  | cons b l ih =>
    by_cases hb : b = 10
    · simp [strchr, hb]
    · by_cases h0 : b = 0
      · simp [strchr, hb, h0]
      · have hl : (0 : Byte) ∈ l := by
          rcases List.mem_cons.mp h with h1 | h1
          · exact absurd h1.symm h0
          · exact h1
        simp [strchr, hb, h0, ih hl]

theorem bufferOK_has_nul (msg : List Byte) (h : BufferOK msg) : (0 : Byte) ∈ msg := by
  obtain ⟨hl, h0⟩ := h
  have hlt : 33 < msg.length := by omega
  rw [List.getD_eq_getElem _ _ hlt] at h0
  rw [← h0]
  exact List.getElem_mem _

theorem loop_ops_take (rest : List Byte) :
    ∀ (n : Nat) (m pre : List Byte), (∀ b ∈ m, b ≠ 10) →
      loop_ops (pre ++ (m ++ 10 :: rest)) n pre.length = message_ops pre.length (m.take n) := by
  intro n
  induction n with
  | zero =>
    intro m pre _
    simp [loop_ops, message_ops]
  | succ n ih =>
    intro m pre hm
    cases m with
    | nil =>
      have h := getD_at pre 10 rest
      rw [List.nil_append, loop_ops_break _ _ _ h]
      rfl
    | cons b m =>
      have hb : b ≠ 10 := hm b (List.mem_cons_self _ _)
      have h : (pre ++ (b :: m ++ 10 :: rest)).getD pre.length 0 = b :=
        getD_at pre b (m ++ 10 :: rest)
      have e : pre ++ (b :: m ++ 10 :: rest) = (pre ++ [b]) ++ (m ++ 10 :: rest) := by simp
      rw [loop_ops_succ _ _ _ (by rw [h]; exact hb), h, e]
      have ih1 := ih m (pre ++ [b]) (fun x hx => hm x (List.mem_cons_of_mem _ hx))
      rw [List.length_append, List.length_singleton] at ih1
      rw [ih1, List.take_succ_cons]
      simp only [message_ops, LCD_NUMBER_OF_SYMBOLS_PER_LINE]
      congr 1
      norm_cast

theorem message_ops_events (l : List Byte) :
    ∀ i, (∀ e ∈ message_ops i l,
        e = Ev.lcd_set_cursor 16 ∨ ∃ b ∈ l, e = Ev.lcd_print_char b.val)
      ∧ (message_ops i l).countP isPrintChar = l.length := by
  induction l with
  | nil => intro i; simp [message_ops]
  | cons b l ih =>
    intro i
    obtain ⟨h1, h2⟩ := ih (i + 1)
    constructor
    · intro e he
      rw [message_ops] at he
      rcases List.mem_append.mp he with h | h
      · split_ifs at h
        · simp only [List.mem_singleton] at h
          exact Or.inl h
        · exact absurd h (by simp)
      · rcases List.mem_cons.mp h with h | h
        · exact Or.inr ⟨b, List.mem_cons_self _ _, h⟩
        · rcases h1 e h with h | ⟨c, hc, hce⟩
          · exact Or.inl h
          · exact Or.inr ⟨c, List.mem_cons_of_mem _ hc, hce⟩
    · have hp : isPrintChar (Ev.lcd_print_char b.val) = true := rfl
      rw [message_ops, List.countP_append, List.countP_cons, h2, if_pos hp]
      by_cases h16 : i = 16
      · rw [if_pos h16]
        simp [List.countP_cons, isPrintChar]
      · rw [if_neg h16]
        simp

/-- What a returned call of `device_write` can leave: the buffer as it was, the
buffer after an accepted copy, or the zeroed buffer; and as return value `-ENODEV`,
`-EMSGSIZE`, `-EFAULT` or `len`. -/
theorem device_write_result (fuel : Nat) (filp : file) (buff : List Byte)
    (len off : Nat) (msg : List Byte) (w : World) (r : WriteRet) (w' : World)
    (h : device_write fuel filp buff len off msg w = Res.done r w') :
    (r.msg = msg
      ∨ (¬ (len + off) % 2 ^ 64 > WRITE_BUF_LENGTH - 1
          ∧ r.msg = (copy_from_user msg off buff len).2)
      ∨ r.msg = List.replicate WRITE_BUF_LENGTH 0)
    ∧ (r.ret = -ENODEV ∨ r.ret = -EMSGSIZE ∨ r.ret = -EFAULT ∨ r.ret = len) := by
  rcases file_cases filp with hnone | ⟨client, rfl⟩
  · rw [device_write_no_data fuel filp buff len off msg w hnone] at h
    simp only [Res.done.injEq] at h
    rw [← h.1]
    exact ⟨Or.inl rfl, Or.inl rfl⟩
  · by_cases hacc : (len + off) % 2 ^ 64 > WRITE_BUF_LENGTH - 1
    · rw [device_write_opened, if_pos hacc] at h
      simp only [Res.done.injEq] at h
      rw [← h.1]
      exact ⟨Or.inl rfl, Or.inr (Or.inl rfl)⟩
    · by_cases hcp : (copy_from_user msg off buff len).1 ≠ 0
      · rw [device_write_opened, if_neg hacc, if_pos hcp] at h
        simp only [Res.done.injEq] at h
        rw [← h.1]
        exact ⟨Or.inr (Or.inl ⟨hacc, rfl⟩), Or.inr (Or.inr (Or.inl rfl))⟩
      · by_cases hnl : strchr (copy_from_user msg off buff len).2 10 = none
        · rw [device_write_opened, if_neg hacc, if_neg hcp, if_pos hnl] at h
          simp only [Res.done.injEq] at h
          rw [← h.1]
          exact ⟨Or.inr (Or.inl ⟨hacc, rfl⟩), Or.inr (Or.inr (Or.inr rfl))⟩
        · obtain ⟨p, q, _, _, h3⟩ := flush_ops fuel client buff len off msg w hacc
            (not_not.mp hcp) hnl
          rcases h3 r w' h with hr | ⟨hr, _⟩
          · rw [hr]
            exact ⟨Or.inr (Or.inl ⟨hacc, rfl⟩), Or.inr (Or.inr (Or.inl rfl))⟩
          · rw [hr]
            exact ⟨Or.inr (Or.inr rfl), Or.inr (Or.inr (Or.inr rfl))⟩

theorem accepted_le (len off : Nat) (h : len + off < 2 ^ 64)
    (hacc : ¬ (len + off) % 2 ^ 64 > WRITE_BUF_LENGTH - 1) : off + len ≤ 33 := by
  rw [capacity_check len off h] at hacc
  omega

theorem device_write_keeps_buffer (fuel : Nat) (filp : file) (buff : List Byte)
    (len off : Nat) (msg : List Byte) (w : World) (r : WriteRet) (w' : World)
    (hmsg : BufferOK msg) (hno : len + off < 2 ^ 64)
    (h : device_write fuel filp buff len off msg w = Res.done r w') : BufferOK r.msg := by
  rcases (device_write_result fuel filp buff len off msg w r w' h).1 with h1 | ⟨hacc, h1⟩ | h1
  · rw [h1]; exact hmsg
  · rw [h1]
    exact (copy_in_bounds msg off buff len hmsg (accepted_le len off hno hacc)).1
  · rw [h1]
    exact bufferOK_empty

theorem reachable_ok (msg : List Byte) (h : Reachable msg) : BufferOK msg := by
  induction h with
  | init => exact bufferOK_empty
  | returned msg fuel filp buff len off w r w' _ hno hd ih =>
    exact device_write_keeps_buffer fuel filp buff len off msg w r w' ih hno hd
  | copied msg buff len off _ hno hacc ih =>
    exact (copy_in_bounds msg off buff len ih (accepted_le len off hno hacc)).1

/-- The display operations of one call on a buffer that satisfies the invariant:
at most 32 calls of `lcd_print_char`, each on a byte that is neither newline nor
NUL, and `lcd_set_cursor` with 0 or 16 only. -/
theorem call_ops (fuel : Nat) (filp : file) (buff : List Byte)
    (len off : Nat) (msg : List Byte) (w : World)
    (hmsg : BufferOK msg) (hno : len + off < 2 ^ 64) :
    ∃ p, displayOps (device_write fuel filp buff len off msg w).world.trace
          = displayOps w.trace ++ p
      ∧ p.countP isPrintChar ≤ 32
      ∧ ∀ e ∈ p, e = Ev.lcd_clear ∨ e = Ev.lcd_set_cursor 0 ∨ e = Ev.lcd_set_cursor 16
          ∨ ∃ b : Byte, e = Ev.lcd_print_char b.val ∧ b ≠ 10 ∧ b ≠ 0 := by
  have hnil : ∀ w0 : World, w0 = w → ∃ p, displayOps w0.trace = displayOps w.trace ++ p
      ∧ p.countP isPrintChar ≤ 32
      ∧ ∀ e ∈ p, e = Ev.lcd_clear ∨ e = Ev.lcd_set_cursor 0 ∨ e = Ev.lcd_set_cursor 16
          ∨ ∃ b : Byte, e = Ev.lcd_print_char b.val ∧ b ≠ 10 ∧ b ≠ 0 := by
    intro w0 h0
    exact ⟨[], by rw [h0]; simp, by simp, by simp⟩
  rcases file_cases filp with hnone | ⟨client, rfl⟩
  · rw [device_write_no_data fuel filp buff len off msg w hnone]
    exact hnil _ rfl
  · by_cases hacc : (len + off) % 2 ^ 64 > WRITE_BUF_LENGTH - 1
    · rw [device_write_opened, if_pos hacc]
      exact hnil _ rfl
    · by_cases hcp : (copy_from_user msg off buff len).1 ≠ 0
      · rw [device_write_opened, if_neg hacc, if_pos hcp]
        exact hnil _ rfl
      · by_cases hnl : strchr (copy_from_user msg off buff len).2 10 = none
        · rw [device_write_opened, if_neg hacc, if_neg hcp, if_pos hnl]
          exact hnil _ rfl
        · obtain ⟨p, q, h1, h2, _⟩ := flush_ops fuel client buff len off msg w hacc
            (not_not.mp hcp) hnl
          obtain ⟨hok, _, _⟩ := copy_in_bounds msg off buff len hmsg
            (accepted_le len off hno hacc)
          obtain ⟨m, rest, hsplit, hm⟩ := strchr_first _ hnl
          have hlen : m.length ≤ 32 := by
            obtain ⟨hl, h0⟩ := hok
            rw [hsplit] at hl h0
            simp only [List.length_append, List.length_cons] at hl
            by_contra hgt
            have h33 : m.length = 33 := by omega
            have := getD_at m 10 rest
            rw [h33, h0] at this
            exact absurd this (by decide)
          have hloop : loop_ops (copy_from_user msg off buff len).2 (off + len) 0
              = message_ops 0 (m.take (off + len)) := by
            rw [hsplit]
            exact loop_ops_take rest (off + len) m [] (fun b hb => (hm b hb).1)
          rw [hloop] at h2
          obtain ⟨hev, hcount⟩ := message_ops_events (m.take (off + len)) 0
          refine ⟨Ev.lcd_clear :: p, h1, ?_, ?_⟩
          · have hc : (p ++ q).countP isPrintChar = (m.take (off + len)).length := by
              rw [h2, List.countP_cons, hcount]
              simp [isPrintChar]
            have hle : p.countP isPrintChar ≤ (p ++ q).countP isPrintChar := by
              rw [List.countP_append]; omega
            have ht : (m.take (off + len)).length ≤ m.length := by
              rw [List.length_take]; omega
            rw [List.countP_cons]
            simp only [isPrintChar]
            simp only [Bool.false_eq_true, if_false, Nat.add_zero]
            omega
          · intro e he
            rcases List.mem_cons.mp he with h | h
            · exact Or.inl h
            · have hin : e ∈ Ev.lcd_set_cursor 0 :: message_ops 0 (m.take (off + len)) := by
                rw [← h2]; exact List.mem_append_left _ h
              rcases List.mem_cons.mp hin with h | h
              · exact Or.inr (Or.inl h)
              · rcases hev e h with h | ⟨b, hb, hbe⟩
                · exact Or.inr (Or.inr (Or.inl h))
                · exact Or.inr (Or.inr (Or.inr ⟨b, hbe, hm b (List.mem_of_mem_take hb)⟩))

/-! ## The claims -/

/-- C1: for every position `pos` with `0 ≤ pos ≤ 31`, `lcd_set_cursor` passes to
`lcd_write_4bit_command` the command byte `0x80 | pos` when `pos ≤ 15` and
`0x80 | (pos - 16 + 0x40)` when `16 ≤ pos`, and its outcome is the outcome of that
call; the byte is below 256, so the conversion to `u8` changes nothing. -/
theorem lcd_set_cursor_emits_ddram_address (fuel : Nat) (client : i2c_client) (w : World)
    (pos : Int) (h0 : 0 ≤ pos) (h31 : pos ≤ 31) :
    lcd_set_cursor fuel client w pos
        = lcd_write_4bit_command fuel client (w.log (Ev.lcd_set_cursor pos))
            (if pos ≤ 15 then 0x80 ||| pos.toNat else 0x80 ||| (pos.toNat - 16 + 0x40))
      ∧ (if pos ≤ 15 then 0x80 ||| pos.toNat else 0x80 ||| (pos.toNat - 16 + 0x40)) < 256 := by
  exact lcd_set_cursor_command fuel client w pos h0 h31

/-- Witness of C1 at position 16: the command byte is `0xC0`. -/
theorem lcd_set_cursor_emits_ddram_address_witness :
    (0 : Int) ≤ 16 ∧ (16 : Int) ≤ 31
    ∧ lcd_set_cursor 1 ready_client World.init 16
        = lcd_write_4bit_command 1 ready_client (World.init.log (Ev.lcd_set_cursor 16)) 0xC0 :=
  ⟨by decide, by decide,
    (lcd_set_cursor_emits_ddram_address 1 ready_client World.init 16 (by decide) (by decide)).1⟩

/-- C2: for `pos < 0` or `pos > 31`, `lcd_set_cursor` returns `-EINVAL` and makes no
bus transfer; for `0 ≤ pos ≤ 31` the range check does not return: the outcome is
that of `lcd_write_4bit_command` on a byte, so a return value is 0, `-ENODEV` or an
error code that a bus write returned. -/
theorem lcd_set_cursor_range_check (fuel : Nat) (client : i2c_client) (w : World) (pos : Int) :
    ((pos < 0 ∨ pos > 31) →
        lcd_set_cursor fuel client w pos = Res.done (-EINVAL) (w.log (Ev.lcd_set_cursor pos))
        ∧ (w.log (Ev.lcd_set_cursor pos)).writes = w.writes
        ∧ (w.log (Ev.lcd_set_cursor pos)).reads = w.reads
        ∧ busTransfers (w.log (Ev.lcd_set_cursor pos)).trace = busTransfers w.trace)
    ∧ ((0 ≤ pos ∧ pos ≤ 31) →
        (∃ cmd, cmd < 256 ∧ lcd_set_cursor fuel client w pos
            = lcd_write_4bit_command fuel client (w.log (Ev.lcd_set_cursor pos)) cmd)
        ∧ ∀ r w', lcd_set_cursor fuel client w pos = Res.done r w' →
            r = 0 ∨ r = -ENODEV ∨ ∃ k b, r = client.write_result k b) := by
  constructor
  · intro h
    have hr : pos < 0 ∨ pos > LCD_NUMBER_OF_LINES * LCD_NUMBER_OF_SYMBOLS_PER_LINE - 1 := by
      simp only [LCD_NUMBER_OF_LINES, LCD_NUMBER_OF_SYMBOLS_PER_LINE]
      omega
    refine ⟨?_, rfl, rfl, ?_⟩
    · unfold lcd_set_cursor
      simp only [if_pos hr]
    · simp [World.log, busTransfers, isBusTransfer]
  · rintro ⟨h0, h31⟩
    obtain ⟨e, hlt⟩ := lcd_set_cursor_command fuel client w pos h0 h31
    refine ⟨⟨_, hlt, e⟩, ?_⟩
    intro r w' h
    rw [e] at h
    exact loop_returns client _ fuel 1 _ r w' h

/-- Witness of C2: position 32 is rejected, position 31 is passed on as `0xDF`. -/
theorem lcd_set_cursor_range_check_witness :
    lcd_set_cursor 1 ready_client World.init 32
        = Res.done (-EINVAL) (World.init.log (Ev.lcd_set_cursor 32))
    ∧ ∃ cmd, cmd < 256 ∧ lcd_set_cursor 1 ready_client World.init 31
        = lcd_write_4bit_command 1 ready_client (World.init.log (Ev.lcd_set_cursor 31)) cmd :=
  ⟨((lcd_set_cursor_range_check 1 ready_client World.init 32).1 (Or.inr (by decide))).1,
   ((lcd_set_cursor_range_check 1 ready_client World.init 31).2 ⟨by decide, by decide⟩).1⟩

/-- C3: for `len + off` that does not wrap, `device_write` returns `-EMSGSIZE`,
leaving the world untouched (no bus traffic), when `off + len > 33`, and never
returns `-EMSGSIZE` when `off + len ≤ 33`.  In particular 34 bytes at offset 0 are
rejected; 33 bytes at offset 0, all readable, are not: on a good bus the call
returns 33 for every fuel from some bound on, and on any bus a call that returns
gives 33 or, a flush step having failed, `-EFAULT`. -/
theorem device_write_capacity (fuel : Nat) (client : i2c_client) (buff : List Byte)
    (len off : Nat) (msg : List Byte) (w : World) (h : len + off < 2 ^ 64) :
    (off + len > 33 →
        device_write fuel (opened client) buff len off msg w
          = Res.done ⟨-EMSGSIZE, off, msg⟩ w)
    ∧ (off + len ≤ 33 → ∀ r w',
        device_write fuel (opened client) buff len off msg w = Res.done r w' →
          r.ret ≠ -EMSGSIZE)
    ∧ device_write fuel (opened client) buff 34 0 msg w = Res.done ⟨-EMSGSIZE, 0, msg⟩ w
    ∧ (33 ≤ buff.length → NeverFails client → EventuallyReady client →
        ∃ F, ∀ fuel', F ≤ fuel' → ∃ r w',
          device_write fuel' (opened client) buff 33 0 msg w = Res.done r w' ∧ r.ret = 33)
    ∧ (33 ≤ buff.length → ∀ r w',
        device_write fuel (opened client) buff 33 0 msg w = Res.done r w' →
          r.ret = 33 ∨ r.ret = -EFAULT) := by
  refine ⟨?_, ?_, ?_, ?_, ?_⟩
  · intro hgt
    rw [device_write_opened, if_pos ((capacity_check len off h).mpr hgt)]
  · intro hle r w' hd
    have hacc : ¬ (len + off) % 2 ^ 64 > WRITE_BUF_LENGTH - 1 := by
      rw [capacity_check len off h]; omega
    by_cases hcp : (copy_from_user msg off buff len).1 ≠ 0
    · rw [device_write_opened, if_neg hacc, if_pos hcp] at hd
      simp only [Res.done.injEq] at hd
      rw [← hd.1]
      simp only [EFAULT, EMSGSIZE]
      decide
    · have hcp0 : (copy_from_user msg off buff len).1 = 0 := not_not.mp hcp
      by_cases hnl : strchr (copy_from_user msg off buff len).2 10 = none
      · rw [device_write_opened, if_neg hacc, if_neg hcp, if_pos hnl] at hd
        simp only [Res.done.injEq] at hd
        rw [← hd.1]
        simp only [EMSGSIZE]
        omega
      · obtain ⟨p, q, _, _, h3⟩ := flush_ops fuel client buff len off msg w hacc hcp0 hnl
        rcases h3 r w' hd with hr | ⟨hr, _⟩
        · rw [hr]
          simp only [EFAULT, EMSGSIZE]
          decide
        · rw [hr]
          simp only [EMSGSIZE]
          omega
  · rw [device_write_opened, if_pos (by simp only [WRITE_BUF_LENGTH]; decide)]
  · intro hb hN hE
    have hacc : ¬ (33 + 0) % 2 ^ 64 > WRITE_BUF_LENGTH - 1 := by
      simp only [WRITE_BUF_LENGTH]; decide
    have hcp := (copy_ok msg 0 buff 33 hb).1
    by_cases hnl : strchr (copy_from_user msg 0 buff 33).2 10 = none
    · refine ⟨0, fun fuel' _ => ⟨⟨33, 0 + 33, (copy_from_user msg 0 buff 33).2⟩, w, ?_, rfl⟩⟩
      rw [device_write_opened, if_neg hacc, if_neg (by rw [hcp]; simp), if_pos hnl]
      rfl
    · obtain ⟨F, w', hF⟩ := flush_terminates client hN hE buff 33 0 msg w hacc hcp hnl
      exact ⟨F, fun fuel' hf =>
        ⟨⟨33, 0, List.replicate WRITE_BUF_LENGTH 0⟩, w', hF fuel' hf, rfl⟩⟩
  · intro hb r w' hd
    have hacc : ¬ (33 + 0) % 2 ^ 64 > WRITE_BUF_LENGTH - 1 := by
      simp only [WRITE_BUF_LENGTH]; decide
    have hcp := (copy_ok msg 0 buff 33 hb).1
    by_cases hnl : strchr (copy_from_user msg 0 buff 33).2 10 = none
    · rw [device_write_opened, if_neg hacc, if_neg (by rw [hcp]; simp), if_pos hnl] at hd
      simp only [Res.done.injEq] at hd
      rw [← hd.1]
      exact Or.inl rfl
    · obtain ⟨p, q, _, _, h3⟩ := flush_ops fuel client buff 33 0 msg w hacc hcp hnl
      rcases h3 r w' hd with hr | ⟨hr, _⟩
      · rw [hr]; exact Or.inr rfl
      · rw [hr]; exact Or.inl rfl

/-- Witness of C3: 34 bytes at offset 0 into the empty buffer are rejected. -/
theorem device_write_capacity_witness :
    34 + 0 < 2 ^ 64 ∧ 0 + 34 > 33
    ∧ device_write 1 (opened ready_client) (List.replicate 34 65) 34 0 empty_msg World.init
        = Res.done ⟨-EMSGSIZE, 0, empty_msg⟩ World.init :=
  ⟨by decide, by decide,
    (device_write_capacity 1 ready_client (List.replicate 34 65) 34 0 empty_msg World.init
      (by decide)).1 (by decide)⟩

/-- C4: a message `m` of at most 16 bytes, none of them newline or NUL, followed by
a newline, written in one call at offset 0 into the empty buffer on a bus that
never fails with a controller that eventually reports not busy: for every fuel
from some bound on the call returns `m.length + 1`, and the display operations it
performed are exactly `lcd_clear`, `lcd_set_cursor 0` and `lcd_print_char` on each
byte of `m` in order, so no second `lcd_set_cursor`. -/
theorem device_write_one_line_message (client : i2c_client) (w : World) (m : List Byte)
    (hN : NeverFails client) (hE : EventuallyReady client)
    (hlen : m.length ≤ 16) (hm : ∀ b ∈ m, b ≠ 10 ∧ b ≠ 0) :
    ∃ F w', (∀ fuel, F ≤ fuel →
        device_write fuel (opened client) (m ++ [10]) (m.length + 1) 0 empty_msg w
          = Res.done ⟨((m.length + 1 : Nat) : Int), 0, empty_msg⟩ w')
      ∧ displayOps w'.trace = displayOps w.trace ++ Ev.lcd_clear :: Ev.lcd_set_cursor 0
          :: m.map (fun b => Ev.lcd_print_char b.val) := by
  obtain ⟨F, w', h1, h2⟩ := message_flush client hN hE w m (by omega) hm
  refine ⟨F, w', h1, ?_⟩
  rw [h2, message_ops_before m 0 (by omega)]

/-- Witness of C4: `"HELLO\n"` gives `lcd_clear`, `lcd_set_cursor 0` and five
`lcd_print_char` calls. -/
theorem device_write_one_line_message_witness :
    NeverFails ready_client ∧ EventuallyReady ready_client
    ∧ ∃ F w', (∀ fuel, F ≤ fuel →
        device_write fuel (opened ready_client) ([72, 69, 76, 76, 79] ++ [10]) 6 0
          empty_msg World.init = Res.done ⟨6, 0, empty_msg⟩ w')
      ∧ displayOps w'.trace = [Ev.lcd_clear, Ev.lcd_set_cursor 0, Ev.lcd_print_char 72,
          Ev.lcd_print_char 69, Ev.lcd_print_char 76, Ev.lcd_print_char 76,
          Ev.lcd_print_char 79] :=
  ⟨ready_client_never_fails, ready_client_eventually_ready,
    device_write_one_line_message ready_client World.init [72, 69, 76, 76, 79]
      ready_client_never_fails ready_client_eventually_ready (by decide) (by simp)⟩

/-- C5: a message `m` of 17 to 32 bytes, none of them newline or NUL, followed by a
newline, written in one call at offset 0 into the empty buffer.  The expected
display operations are `lcd_clear`, `lcd_set_cursor 0`, `lcd_print_char` on bytes
0..15, `lcd_set_cursor 16`, `lcd_print_char` on the remaining bytes.  On a bus
that never fails, whatever the fuel, the operations performed are an initial part
of these and a call that returns has returned `m.length + 1` after all of them;
when the controller eventually reports not busy the call does return so, for
every fuel from some bound on.  `lcd_set_cursor 16` sends the command `0xC0`. -/
theorem device_write_two_line_message (client : i2c_client) (w : World) (m : List Byte)
    (hN : NeverFails client) (h17 : 17 ≤ m.length) (h32 : m.length ≤ 32)
    (hm : ∀ b ∈ m, b ≠ 10 ∧ b ≠ 0) :
    (∀ fuel, ∃ p q : List Ev,
        displayOps (device_write fuel (opened client) (m ++ [10]) (m.length + 1) 0
            empty_msg w).world.trace = displayOps w.trace ++ p
        ∧ p ++ q = Ev.lcd_clear :: Ev.lcd_set_cursor 0
            :: ((m.take 16).map (fun b => Ev.lcd_print_char b.val)
              ++ Ev.lcd_set_cursor 16 :: (m.drop 16).map (fun b => Ev.lcd_print_char b.val))
        ∧ ∀ r w', device_write fuel (opened client) (m ++ [10]) (m.length + 1) 0
              empty_msg w = Res.done r w' →
            r = ⟨((m.length + 1 : Nat) : Int), 0, empty_msg⟩ ∧ q = [])
    ∧ (EventuallyReady client → ∃ F w', (∀ fuel, F ≤ fuel →
          device_write fuel (opened client) (m ++ [10]) (m.length + 1) 0 empty_msg w
            = Res.done ⟨((m.length + 1 : Nat) : Int), 0, empty_msg⟩ w')
        ∧ displayOps w'.trace = displayOps w.trace ++ Ev.lcd_clear :: Ev.lcd_set_cursor 0
            :: ((m.take 16).map (fun b => Ev.lcd_print_char b.val)
              ++ Ev.lcd_set_cursor 16 :: (m.drop 16).map (fun b => Ev.lcd_print_char b.val)))
    ∧ (∀ fuel w0, lcd_set_cursor fuel client w0 16
          = lcd_write_4bit_command fuel client (w0.log (Ev.lcd_set_cursor 16)) 0xC0) := by
  refine ⟨?_, ?_, ?_⟩
  · intro fuel
    obtain ⟨p, q, h1, h2, h3⟩ := message_ops_any fuel client w m h32 hm
    rw [message_ops_two_lines m h17] at h2
    refine ⟨p, q, h1, h2, ?_⟩
    intro r w' hd
    obtain ⟨hcp, hmsg⟩ := copy_message m h32
    have hnl : strchr (copy_from_user empty_msg 0 (m ++ [10]) (m.length + 1)).2 10 ≠ none := by
      rw [hmsg, List.nil_append, strchr_message _ _ hm]; simp
    have hr := flush_ret_good client hN fuel (m ++ [10]) (m.length + 1) 0 empty_msg w
      (message_accepted _ h32) hcp hnl r w' hd
    rcases h3 r w' hd with hbad | ⟨hgood, hq⟩
    · rw [hr] at hbad
      simp only [EFAULT] at hbad
      omega
    · exact ⟨hgood, hq⟩
  · intro hE
    obtain ⟨F, w', h1, h2⟩ := message_flush client hN hE w m h32 hm
    refine ⟨F, w', h1, ?_⟩
    rw [h2, message_ops_two_lines m h17]
  · intro fuel w0
    exact (lcd_set_cursor_command fuel client w0 16 (by decide) (by decide)).1

/-- Witness of C5: twenty bytes `"ABCDEFGHIJKLMNOPQRST"` and a newline. -/
theorem device_write_two_line_message_witness :
    NeverFails ready_client ∧ EventuallyReady ready_client
    ∧ ∃ F w', (∀ fuel, F ≤ fuel →
        device_write fuel (opened ready_client)
          ([65, 66, 67, 68, 69, 70, 71, 72, 73, 74, 75, 76, 77, 78, 79, 80, 81, 82, 83, 84]
            ++ [10]) 21 0 empty_msg World.init = Res.done ⟨21, 0, empty_msg⟩ w')
      ∧ displayOps w'.trace = [Ev.lcd_clear, Ev.lcd_set_cursor 0,
          Ev.lcd_print_char 65, Ev.lcd_print_char 66, Ev.lcd_print_char 67,
          Ev.lcd_print_char 68, Ev.lcd_print_char 69, Ev.lcd_print_char 70,
          Ev.lcd_print_char 71, Ev.lcd_print_char 72, Ev.lcd_print_char 73,
          Ev.lcd_print_char 74, Ev.lcd_print_char 75, Ev.lcd_print_char 76,
          Ev.lcd_print_char 77, Ev.lcd_print_char 78, Ev.lcd_print_char 79,
          Ev.lcd_print_char 80, Ev.lcd_set_cursor 16, Ev.lcd_print_char 81,
          Ev.lcd_print_char 82, Ev.lcd_print_char 83, Ev.lcd_print_char 84] :=
  ⟨ready_client_never_fails, ready_client_eventually_ready,
    (device_write_two_line_message ready_client World.init
      [65, 66, 67, 68, 69, 70, 71, 72, 73, 74, 75, 76, 77, 78, 79, 80, 81, 82, 83, 84]
      ready_client_never_fails (by decide) (by decide) (by simp)).2.1
      ready_client_eventually_ready⟩

/-- C6: a sequence of `device_write` calls starting from the empty buffer at offset
0, each at the offset the previous call left, whose bytes contain no newline and
number at most 33 in total: every call returns its length, the world is left as it
was (no flush, no bus transfer), the offset ends at the total length and the
buffer holds the appended bytes one after the other. -/
theorem device_write_append_without_newline (fuel : Nat) (client : i2c_client) (w : World)
    (chunks : List (List Byte)) (hlen : chunks.flatten.length ≤ 33)
    (hnl : ∀ b ∈ chunks.flatten, b ≠ 10) :
    write_all fuel (opened client) chunks 0 empty_msg w
      = Res.done (chunks.map (fun c => (c.length : Int)), chunks.flatten.length,
          chunks.flatten ++ List.replicate (34 - chunks.flatten.length) 0) w := by
  have h := write_all_append fuel client w chunks [] (by simpa using hlen) (by simp) hnl
  simpa [empty_msg, WRITE_BUF_LENGTH] using h

/-- Witness of C6: `"AB"`, then `"C"`, then nothing, then `"DE"`. -/
theorem device_write_append_without_newline_witness :
    write_all 0 (opened ready_client) [[65, 66], [67], [], [68, 69]] 0 empty_msg World.init
      = Res.done ([2, 1, 0, 2], 5, [65, 66, 67, 68, 69] ++ List.replicate 29 0) World.init :=
  device_write_append_without_newline 0 ready_client World.init [[65, 66], [67], [], [68, 69]]
    (by decide) (by simp)

/-- C7: when `device_write` returns from a flush (it logged a display operation)
with a non-negative value, hence with every display operation succeeded, the
returned offset is 0, the buffer is all zero and the value is `len`; a following
message of at most 32 bytes without newline or NUL, followed by a newline, then
displays `lcd_clear`, `lcd_set_cursor 0` and its own bytes only. -/
theorem device_write_flush_resets_buffer (fuel : Nat) (client : i2c_client)
    (buff : List Byte) (len off : Nat) (msg : List Byte) (w : World)
    (r : WriteRet) (w' : World)
    (hd : device_write fuel (opened client) buff len off msg w = Res.done r w')
    (hflush : displayOps w'.trace ≠ displayOps w.trace) (hok : 0 ≤ r.ret) :
    r.off = 0 ∧ r.msg = empty_msg ∧ r.ret = len
    ∧ ∀ m : List Byte, m.length ≤ 32 → (∀ b ∈ m, b ≠ 10 ∧ b ≠ 0) →
        NeverFails client → EventuallyReady client →
        ∃ F w'', (∀ fuel', F ≤ fuel' →
            device_write fuel' (opened client) (m ++ [10]) (m.length + 1) r.off r.msg w'
              = Res.done ⟨((m.length + 1 : Nat) : Int), 0, empty_msg⟩ w'')
          ∧ displayOps w''.trace = displayOps w'.trace
              ++ Ev.lcd_clear :: Ev.lcd_set_cursor 0 :: message_ops 0 m := by
  have hr : r = ⟨(len : Int), 0, List.replicate WRITE_BUF_LENGTH 0⟩ := by
    by_cases hacc : (len + off) % 2 ^ 64 > WRITE_BUF_LENGTH - 1
    · rw [device_write_opened, if_pos hacc] at hd
      simp only [Res.done.injEq] at hd
      exact absurd (by rw [hd.2]) hflush
    · by_cases hcp : (copy_from_user msg off buff len).1 ≠ 0
      · rw [device_write_opened, if_neg hacc, if_pos hcp] at hd
        simp only [Res.done.injEq] at hd
        exact absurd (by rw [hd.2]) hflush
      · by_cases hnl : strchr (copy_from_user msg off buff len).2 10 = none
        · rw [device_write_opened, if_neg hacc, if_neg hcp, if_pos hnl] at hd
          simp only [Res.done.injEq] at hd
          exact absurd (by rw [hd.2]) hflush
        · obtain ⟨p, q, _, _, h3⟩ := flush_ops fuel client buff len off msg w hacc
            (not_not.mp hcp) hnl
          rcases h3 r w' hd with hbad | ⟨hgood, _⟩
          · rw [hbad] at hok
            simp only [EFAULT] at hok
            omega
          · exact hgood
  subst hr
  refine ⟨rfl, rfl, rfl, ?_⟩
  intro m hlen hm hN hE
  exact message_flush client hN hE w' m hlen hm

/-- Witness of C7: `"A\n"` is flushed, then `"B\n"` displays `B` alone. -/
theorem device_write_flush_resets_buffer_witness :
    device_write 1 (opened ready_client) [65, 10] 2 0 empty_msg World.init
      = Res.done ⟨2, 0, empty_msg⟩
          (device_write 1 (opened ready_client) [65, 10] 2 0 empty_msg World.init).world
    ∧ ∃ F w'', (∀ fuel', F ≤ fuel' →
          device_write fuel' (opened ready_client) ([66] ++ [10]) 2 0 empty_msg
            (device_write 1 (opened ready_client) [65, 10] 2 0 empty_msg World.init).world
            = Res.done ⟨2, 0, empty_msg⟩ w'')
        ∧ displayOps w''.trace
            = [Ev.lcd_clear, Ev.lcd_set_cursor 0, Ev.lcd_print_char 65,
               Ev.lcd_clear, Ev.lcd_set_cursor 0, Ev.lcd_print_char 66] :=
  ⟨by decide,
    (device_write_flush_resets_buffer 1 ready_client [65, 10] 2 0 empty_msg World.init
      ⟨2, 0, empty_msg⟩
      (device_write 1 (opened ready_client) [65, 10] 2 0 empty_msg World.init).world
      (by decide) (by decide) (by decide)).2.2.2 [66] (by decide) (by simp)
      ready_client_never_fails ready_client_eventually_ready⟩

/-- C8, the claim as stated fails: an append of 33 bytes at offset 1 is rejected
with `-EMSGSIZE`, and the buffer still starts with `A` and the offset is still 1. -/
theorem device_write_rejection_does_not_reset :
    device_write 1 (opened ready_client) (List.replicate 33 66) 33 1
        (65 :: List.replicate 33 0) World.init
      = Res.done ⟨-EMSGSIZE, 1, 65 :: List.replicate 33 0⟩ World.init
    ∧ (65 :: List.replicate 33 0 : List Byte) ≠ empty_msg
    ∧ (1 : Nat) ≠ 0 := by
  decide

/-- C8 as amended: whenever `device_write` returns `-EMSGSIZE`, the buffer, the
offset and the world are exactly as before the call. -/
theorem device_write_rejection_keeps_buffer (fuel : Nat) (client : i2c_client)
    (buff : List Byte) (len off : Nat) (msg : List Byte) (w : World)
    (r : WriteRet) (w' : World)
    (hd : device_write fuel (opened client) buff len off msg w = Res.done r w')
    (hret : r.ret = -EMSGSIZE) :
    r.msg = msg ∧ r.off = off ∧ w' = w := by
  by_cases hacc : (len + off) % 2 ^ 64 > WRITE_BUF_LENGTH - 1
  · rw [device_write_opened, if_pos hacc] at hd
    simp only [Res.done.injEq] at hd
    obtain ⟨h1, h2⟩ := hd
    subst h1
    exact ⟨rfl, rfl, h2.symm⟩
  · exfalso
    by_cases hcp : (copy_from_user msg off buff len).1 ≠ 0
    · rw [device_write_opened, if_neg hacc, if_pos hcp] at hd
      simp only [Res.done.injEq] at hd
      rw [← hd.1] at hret
      simp only [EFAULT, EMSGSIZE] at hret
      omega
    · by_cases hnl : strchr (copy_from_user msg off buff len).2 10 = none
      · rw [device_write_opened, if_neg hacc, if_neg hcp, if_pos hnl] at hd
        simp only [Res.done.injEq] at hd
        rw [← hd.1] at hret
        simp only [EMSGSIZE] at hret
        omega
      · obtain ⟨p, q, _, _, h3⟩ := flush_ops fuel client buff len off msg w hacc
          (not_not.mp hcp) hnl
        rcases h3 r w' hd with hr | ⟨hr, _⟩
        · rw [hr] at hret
          simp only [EFAULT, EMSGSIZE] at hret
          omega
        · rw [hr] at hret
          simp only [EMSGSIZE] at hret
          omega

/-- Witness of C8 as amended: the rejected append of 33 bytes at offset 1. -/
theorem device_write_rejection_keeps_buffer_witness :
    device_write 1 (opened ready_client) (List.replicate 33 66) 33 1
        (65 :: List.replicate 33 0) World.init
      = Res.done ⟨-EMSGSIZE, 1, 65 :: List.replicate 33 0⟩ World.init
    ∧ (⟨-EMSGSIZE, 1, 65 :: List.replicate 33 0⟩ : WriteRet).msg = 65 :: List.replicate 33 0
    ∧ (⟨-EMSGSIZE, 1, 65 :: List.replicate 33 0⟩ : WriteRet).off = 1
    ∧ World.init = World.init :=
  ⟨by decide,
    device_write_rejection_keeps_buffer 1 ready_client (List.replicate 33 66) 33 1
      (65 :: List.replicate 33 0) World.init ⟨-EMSGSIZE, 1, 65 :: List.replicate 33 0⟩
      World.init (by decide) rfl⟩

/-- C9, the claim as stated fails both ways.  `"\0\n"` written at offset 0 into the
empty buffer puts a newline below the new offset 2, and the call returns 2 with
the world untouched: no flush.  `"X"` written at offset 0 over the buffer `"AB\n"`
leaves no newline below the new offset 1, and the call flushes: it clears the
display, homes the cursor and prints `X`. -/
theorem flush_trigger_counterexample :
    ((10 : Byte) ∈ (copy_from_user empty_msg 0 [0, 10] 2).2.take (0 + 2)
      ∧ device_write 1 (opened ready_client) [0, 10] 2 0 empty_msg World.init
          = Res.done ⟨2, 2, 0 :: 10 :: List.replicate 32 0⟩ World.init)
    ∧ ((10 : Byte) ∉ (copy_from_user (65 :: 66 :: 10 :: List.replicate 31 0) 0 [88] 1).2.take
          (0 + 1)
      ∧ displayOps (device_write 1 (opened ready_client) [88] 1 0
          (65 :: 66 :: 10 :: List.replicate 31 0) World.init).world.trace
          = [Ev.lcd_clear, Ev.lcd_set_cursor 0, Ev.lcd_print_char 88]) := by
  decide

/-- C9 as amended: for an append accepted by the capacity check whose copy
succeeds, `device_write` flushes exactly when the buffer after the copy holds a
newline before its first NUL byte, wherever the new offset lies.  Then the first
display operation is `lcd_clear` and the next one, if any, is `lcd_set_cursor 0`;
on a good bus the call returns `len` after `lcd_clear`, `lcd_set_cursor 0` and the
loop's operations.  Otherwise the call returns `len` and the world is untouched. -/
theorem device_write_flush_trigger (fuel : Nat) (client : i2c_client) (buff : List Byte)
    (len off : Nat) (msg : List Byte) (w : World)
    (hacc : off + len ≤ 33) (hcp : len ≤ buff.length) :
    ((∃ m rest, (copy_from_user msg off buff len).2 = m ++ 10 :: rest ∧ ∀ b ∈ m, b ≠ 0) →
        (∃ p, displayOps (device_write fuel (opened client) buff len off msg w).world.trace
              = displayOps w.trace ++ Ev.lcd_clear :: p
            ∧ (p = [] ∨ ∃ p', p = Ev.lcd_set_cursor 0 :: p'))
        ∧ (NeverFails client → EventuallyReady client →
            ∃ F w', (∀ fuel', F ≤ fuel' →
                device_write fuel' (opened client) buff len off msg w
                  = Res.done ⟨len, 0, empty_msg⟩ w')
              ∧ displayOps w'.trace = displayOps w.trace ++ Ev.lcd_clear
                  :: Ev.lcd_set_cursor 0
                  :: loop_ops (copy_from_user msg off buff len).2 (off + len) 0))
    ∧ ((¬ ∃ m rest, (copy_from_user msg off buff len).2 = m ++ 10 :: rest ∧ ∀ b ∈ m, b ≠ 0) →
        device_write fuel (opened client) buff len off msg w
          = Res.done ⟨len, off + len, (copy_from_user msg off buff len).2⟩ w) := by
  have hacc1 : ¬ (len + off) % 2 ^ 64 > WRITE_BUF_LENGTH - 1 := by
    rw [capacity_check len off (by omega)]
    omega
  have hcp0 := (copy_ok msg off buff len hcp).1
  constructor
  · intro hfound
    have hnl := (strchr_found_iff _).mpr hfound
    constructor
    · obtain ⟨p, q, h1, h2, _⟩ := flush_ops fuel client buff len off msg w hacc1 hcp0 hnl
      refine ⟨p, h1, ?_⟩
      cases p with
      | nil => exact Or.inl rfl
      | cons e p' =>
        simp only [List.cons_append, List.cons.injEq] at h2
        exact Or.inr ⟨p', by rw [h2.1]⟩
    · intro hN hE
      exact flush_good client hN hE buff len off msg w hacc1 hcp0 hnl
  · intro hnot
    have hnl : strchr (copy_from_user msg off buff len).2 10 = none := by
      by_contra h
      exact hnot ((strchr_found_iff _).mp h)
    rw [device_write_opened, if_neg hacc1, if_neg (by rw [hcp0]; simp), if_pos hnl]

/-- Witness of C9 as amended: `"A\n"` at offset 0 into the empty buffer flushes. -/
theorem device_write_flush_trigger_witness :
    0 + 2 ≤ 33 ∧ 2 ≤ ([65, 10] : List Byte).length
    ∧ ∃ p, displayOps (device_write 1 (opened ready_client) [65, 10] 2 0 empty_msg
            World.init).world.trace = displayOps World.init.trace ++ Ev.lcd_clear :: p
        ∧ (p = [] ∨ ∃ p', p = Ev.lcd_set_cursor 0 :: p') :=
  ⟨by decide, by decide,
    ((device_write_flush_trigger 1 ready_client [65, 10] 2 0 empty_msg World.init
      (by decide) (by decide)).1 ⟨[65], List.replicate 32 0, by decide, by simp⟩).1⟩

/-- C10, the code at a failing input: the first write succeeds and the first read
fails with -5; `get_busy_flag` returns 0, the flag left at its entry value 1. -/
theorem get_busy_flag_failed_read_returns_zero :
    get_busy_flag ⟨fun _ _ => 0, fun _ => -5⟩ World.init 1
      = (0, 1, ⟨[Ev.get_busy_flag, Ev.i2c_smbus_write_byte 0xFE, Ev.i2c_smbus_read_byte], 1, 1⟩) := by
  decide

/-- C11: `lcd_init` runs `lcd_write_half_of_4bit_command(0x20)`,
`lcd_write_4bit_command(0x28)`, `lcd_write_4bit_command(0x0F)`, `lcd_clear` and
`lcd_set_cursor(0)` in this order.  The first step to return a non-zero value
ends it: `lcd_init` returns that value in the world that step left, so none of
the later steps runs.  On a bus that never fails with a controller that
eventually reports not busy, `lcd_init` returns 0 for every fuel from some bound
on, and the operation calls it logged are exactly these five, `lcd_clear` sending
the command `0x01` and `lcd_set_cursor(0)` the command `0x80`. -/
theorem lcd_init_sequence (fuel : Nat) (client : i2c_client) (w : World) :
    ((lcd_write_half_of_4bit_command client (w.log Ev.lcd_init) 0x20).1 ≠ 0 →
        lcd_init fuel client w
          = Res.done (lcd_write_half_of_4bit_command client (w.log Ev.lcd_init) 0x20).1
              (lcd_write_half_of_4bit_command client (w.log Ev.lcd_init) 0x20).2)
    ∧ (∀ e w1, (lcd_write_half_of_4bit_command client (w.log Ev.lcd_init) 0x20).1 = 0 →
        lcd_write_4bit_command fuel client
          (lcd_write_half_of_4bit_command client (w.log Ev.lcd_init) 0x20).2 0x28
            = Res.done e w1 →
        e ≠ 0 → lcd_init fuel client w = Res.done e w1)
    ∧ (∀ w1 e w2, (lcd_write_half_of_4bit_command client (w.log Ev.lcd_init) 0x20).1 = 0 →
        lcd_write_4bit_command fuel client
          (lcd_write_half_of_4bit_command client (w.log Ev.lcd_init) 0x20).2 0x28
            = Res.done 0 w1 →
        lcd_write_4bit_command fuel client w1 0x0F = Res.done e w2 →
        e ≠ 0 → lcd_init fuel client w = Res.done e w2)
    ∧ (∀ w1 w2 e w3, (lcd_write_half_of_4bit_command client (w.log Ev.lcd_init) 0x20).1 = 0 →
        lcd_write_4bit_command fuel client
          (lcd_write_half_of_4bit_command client (w.log Ev.lcd_init) 0x20).2 0x28
            = Res.done 0 w1 →
        lcd_write_4bit_command fuel client w1 0x0F = Res.done 0 w2 →
        lcd_clear fuel client w2 = Res.done e w3 →
        e ≠ 0 → lcd_init fuel client w = Res.done e w3)
    ∧ (∀ w1 w2 w3 e w4, (lcd_write_half_of_4bit_command client (w.log Ev.lcd_init) 0x20).1 = 0 →
        lcd_write_4bit_command fuel client
          (lcd_write_half_of_4bit_command client (w.log Ev.lcd_init) 0x20).2 0x28
            = Res.done 0 w1 →
        lcd_write_4bit_command fuel client w1 0x0F = Res.done 0 w2 →
        lcd_clear fuel client w2 = Res.done 0 w3 →
        lcd_set_cursor fuel client w3 0 = Res.done e w4 →
        lcd_init fuel client w = Res.done e w4)
    ∧ (NeverFails client → EventuallyReady client →
        ∃ F w', (∀ fuel', F ≤ fuel' → lcd_init fuel' client w = Res.done 0 w')
          ∧ operations w'.trace = operations w.trace
              ++ [Ev.lcd_write_half_of_4bit_command 0x20, Ev.lcd_write_4bit_command 0x28,
                  Ev.lcd_write_4bit_command 0x0F, Ev.lcd_clear, Ev.lcd_write_4bit_command 0x01,
                  Ev.lcd_set_cursor 0, Ev.lcd_write_4bit_command 0x80]) := by
  refine ⟨?_, ?_, ?_, ?_, ?_, ?_⟩
  · intro h
    rw [lcd_init_eq, if_pos h]
  · intro e w1 h0 h1 he
    rw [lcd_init_eq, if_neg (by rw [h0]; simp), h1]
    simp only [he, ne_eq, not_false_eq_true, if_true]
  · intro w1 e w2 h0 h1 h2 he
    rw [lcd_init_eq, if_neg (by rw [h0]; simp), h1]
    simp only [ne_eq, not_true_eq_false, if_false]
    rw [h2]
    simp only [he, ne_eq, not_false_eq_true, if_true]
  · intro w1 w2 e w3 h0 h1 h2 h3 he
    rw [lcd_init_eq, if_neg (by rw [h0]; simp), h1]
    simp only [ne_eq, not_true_eq_false, if_false]
    rw [h2]
    simp only [ne_eq, not_true_eq_false, if_false]
    rw [h3]
    simp only [he, ne_eq, not_false_eq_true, if_true]
  · intro w1 w2 w3 e w4 h0 h1 h2 h3 h4
    rw [lcd_init_eq, if_neg (by rw [h0]; simp), h1]
    simp only [ne_eq, not_true_eq_false, if_false]
    rw [h2]
    simp only [ne_eq, not_true_eq_false, if_false]
    rw [h3]
    simp only [ne_eq, not_true_eq_false, if_false]
    rw [h4]
    by_cases he : e = 0
    · simp [he]
    · simp [he]
  · intro hN hE
    have h0 := half_ok client hN (w.log Ev.lcd_init) 0x20
    obtain ⟨F1, w1, hw1⟩ := command_terminates client hN hE
      (lcd_write_half_of_4bit_command client (w.log Ev.lcd_init) 0x20).2 0x28
    obtain ⟨F2, w2, hw2⟩ := command_terminates client hN hE w1 0x0F
    obtain ⟨F3, w3, hw3⟩ := clear_terminates client hN hE w2
    obtain ⟨F4, w4, hw4⟩ := set_cursor_terminates client hN hE w3 0 (le_refl _) (by norm_num)
    refine ⟨max (max F1 F2) (max F3 F4), w4, ?_, ?_⟩
    · intro fuel' hf
      have f1 : F1 ≤ fuel' := le_trans (le_trans (le_max_left _ _) (le_max_left _ _)) hf
      have f2 : F2 ≤ fuel' := le_trans (le_trans (le_max_right _ _) (le_max_left _ _)) hf
      have f3 : F3 ≤ fuel' := le_trans (le_trans (le_max_left _ _) (le_max_right _ _)) hf
      have f4 : F4 ≤ fuel' := le_trans (le_trans (le_max_right _ _) (le_max_right _ _)) hf
      rw [lcd_init_eq, if_neg (by rw [h0]; simp), hw1 fuel' f1]
      simp only [ne_eq, not_true_eq_false, if_false]
      rw [hw2 fuel' f2]
      simp only [ne_eq, not_true_eq_false, if_false]
      rw [hw3 fuel' f3]
      simp only [ne_eq, not_true_eq_false, if_false]
      rw [hw4 fuel' f4]
      simp only [ne_eq, not_true_eq_false, if_false]
    · have o0 := operations_half client (w.log Ev.lcd_init) 0x20
      rw [operations_log_other w Ev.lcd_init rfl] at o0
      have o1 := operations_command F1 client
        (lcd_write_half_of_4bit_command client (w.log Ev.lcd_init) 0x20).2 0x28
      rw [hw1 F1 (le_refl _)] at o1
      have o2 := operations_command F2 client w1 0x0F
      rw [hw2 F2 (le_refl _)] at o2
      have o3 := operations_clear F3 client w2
      rw [hw3 F3 (le_refl _)] at o3
      have o4 := operations_set_cursor_home F4 client w3
      rw [hw4 F4 (le_refl _)] at o4
      simp only [Res.world] at o1 o2 o3 o4
      rw [o4, o3, o2, o1, o0]
      simp

/-- Witness of C11: on the ready bus `lcd_init` returns 0 and logs the five steps. -/
theorem lcd_init_sequence_witness :
    NeverFails ready_client ∧ EventuallyReady ready_client
    ∧ ∃ F w', (∀ fuel', F ≤ fuel' → lcd_init fuel' ready_client World.init = Res.done 0 w')
        ∧ operations w'.trace = operations World.init.trace
            ++ [Ev.lcd_write_half_of_4bit_command 0x20, Ev.lcd_write_4bit_command 0x28,
                Ev.lcd_write_4bit_command 0x0F, Ev.lcd_clear, Ev.lcd_write_4bit_command 0x01,
                Ev.lcd_set_cursor 0, Ev.lcd_write_4bit_command 0x80] :=
  ⟨ready_client_never_fails, ready_client_eventually_ready,
    (lcd_init_sequence 0 ready_client World.init).2.2.2.2.2
      ready_client_never_fails ready_client_eventually_ready⟩

/-- C12, the claim as stated fails: the first write of the poll fails with -5 and
`lcd_write_4bit_command` returns `-ENODEV`, which is not -5. -/
theorem poll_failure_not_verbatim :
    lcd_write_4bit_command 1 ⟨fun _ _ => -5, fun _ => 0⟩ World.init 0x01
      = Res.done (-ENODEV)
          ⟨[Ev.lcd_write_4bit_command 0x01, Ev.get_busy_flag, Ev.i2c_smbus_write_byte 0xFE],
            1, 0⟩
    ∧ -ENODEV ≠ (-5 : Int) := by
  decide

/-- C12 as amended: a bus write that fails with `e` inside a poll makes
`get_busy_flag` return `e`, and `lcd_write_4bit_command`, from whatever iteration
of its loop, return `-ENODEV` instead; so do `lcd_clear` and `lcd_set_cursor` when
the failing write is in their first poll.  Once a poll has found the controller
not busy, the first of the four nibble writes to fail with `e` makes the function
return `e` itself, nothing being written after it. -/
theorem command_error_codes (client : i2c_client) (cmd : Nat) (w : World) (e : Int)
    (he : e ≠ 0) :
    (∀ fuel f, f ≠ 0 → client.write_result w.writes 0xFE = e →
        (get_busy_flag client w f).1 = e
        ∧ lcd_write_4bit_command_loop client cmd (fuel + 1) f w
            = Res.done (-ENODEV) (get_busy_flag client w f).2.2)
    ∧ (∀ fuel f, f ≠ 0 → client.write_result w.writes 0xFE = 0 →
        0 ≤ client.read_result w.reads → client.write_result (w.writes + 1) 0xFA = e →
        (get_busy_flag client w f).1 = e
        ∧ lcd_write_4bit_command_loop client cmd (fuel + 1) f w
            = Res.done (-ENODEV) (get_busy_flag client w f).2.2)
    ∧ (∀ fuel f, f ≠ 0 → client.write_result w.writes 0xFE = 0 →
        0 ≤ client.read_result w.reads → client.write_result (w.writes + 1) 0xFA = 0 →
        client.write_result (w.writes + 2) 0xFE = e →
        (get_busy_flag client w f).1 = e
        ∧ lcd_write_4bit_command_loop client cmd (fuel + 1) f w
            = Res.done (-ENODEV) (get_busy_flag client w f).2.2)
    ∧ (∀ fuel, client.write_result w.writes 0xFE = e →
        (∃ w', lcd_write_4bit_command (fuel + 1) client w cmd = Res.done (-ENODEV) w')
        ∧ (∃ w', lcd_clear (fuel + 1) client w = Res.done (-ENODEV) w')
        ∧ ∀ pos : Int, 0 ≤ pos → pos ≤ 31 →
            ∃ w', lcd_set_cursor (fuel + 1) client w pos = Res.done (-ENODEV) w')
    ∧ (∀ fuel pre b post,
        [(cmd &&& 0xF0) ||| 0xC ||| 0x0, ((cmd &&& 0xF0) ||| 0xC ||| 0x0) ^^^ 0x4,
          ((cmd &&& 0x0F) <<< 4) ||| 0xC ||| 0x0,
          (((cmd &&& 0x0F) <<< 4) ||| 0xC ||| 0x0) ^^^ 0x4] = pre ++ b :: post →
        (∀ j, j < pre.length → client.write_result (w.writes + j) (pre.getD j 0) = 0) →
        client.write_result (w.writes + pre.length) b = e →
        lcd_write_4bit_command_loop client cmd fuel 0 w
          = Res.done e ⟨w.trace ++ (pre ++ [b]).map Ev.i2c_smbus_write_byte,
              w.writes + pre.length + 1, w.reads⟩) := by
  refine ⟨?_, ?_, ?_, ?_, ?_⟩
  · intro fuel f hf h1
    have hg := (poll_write_fails client w f e he).1 h1
    exact ⟨hg, loop_poll_fails client cmd fuel f w hf (by rw [hg]; exact he)⟩
  · intro fuel f hf h1 hr h2
    have hg := (poll_write_fails client w f e he).2.1 h1 hr h2
    exact ⟨hg, loop_poll_fails client cmd fuel f w hf (by rw [hg]; exact he)⟩
  · intro fuel f hf h1 hr h2 h3
    have hg := (poll_write_fails client w f e he).2.2 h1 hr h2 h3
    exact ⟨hg, loop_poll_fails client cmd fuel f w hf (by rw [hg]; exact he)⟩
  · intro fuel h1
    have key : ∀ (c : Nat) (w0 : World), w0.writes = w.writes →
        ∃ w', lcd_write_4bit_command (fuel + 1) client w0 c = Res.done (-ENODEV) w' := by
      intro c w0 hw0
      have h1' : client.write_result (w0.log (Ev.lcd_write_4bit_command c)).writes 0xFE = e := by
        simp only [World.log, hw0]; exact h1
      have hg := (poll_write_fails client (w0.log (Ev.lcd_write_4bit_command c)) 1 e he).1 h1'
      exact ⟨_, loop_poll_fails client c fuel 1 _ one_ne_zero (by rw [hg]; exact he)⟩
    refine ⟨key cmd w rfl, key 0x01 (w.log Ev.lcd_clear) rfl, ?_⟩
    intro pos h0 h31
    rw [(lcd_set_cursor_command (fuel + 1) client w pos h0 h31).1]
    exact key _ (w.log (Ev.lcd_set_cursor pos)) rfl
  · intro fuel pre b post hsplit hpre hb
    rw [loop_ready, send_eq_sequence, hsplit, write_sequence_fail client b post e he pre w hpre hb]

/-- Witness of C12 as amended: the first poll write fails with -5. -/
theorem command_error_codes_witness :
    (-5 : Int) ≠ 0
    ∧ (get_busy_flag ⟨fun _ _ => -5, fun _ => 0⟩ World.init 1).1 = -5
    ∧ lcd_write_4bit_command_loop ⟨fun _ _ => -5, fun _ => 0⟩ 0x01 (0 + 1) 1 World.init
        = Res.done (-ENODEV) (get_busy_flag ⟨fun _ _ => -5, fun _ => 0⟩ World.init 1).2.2 :=
  ⟨by decide,
    (command_error_codes ⟨fun _ _ => -5, fun _ => 0⟩ 0x01 World.init (-5) (by decide)).1
      0 1 one_ne_zero rfl⟩

/-- C13: on a bus that never fails, with `H` and `L` the bytes the first and the
second read return, `get_busy_flag` returns 0 and the flag it stores is non-zero
exactly when bit 7 of `((H << 4) | L) % 256` is set. -/
theorem busy_flag_is_bit_seven (client : i2c_client) (w : World) (f : Int) (H L : Nat)
    (hN : NeverFails client) (hH : H < 256) (hL : L < 256)
    (h1 : client.read_result w.reads = H) (h2 : client.read_result (w.reads + 1) = L) :
    (get_busy_flag client w f).1 = 0
    ∧ ((get_busy_flag client w f).2.1 ≠ 0 ↔ (((H <<< 4) ||| L) % 256).testBit 7 = true) := by
  rw [get_busy_flag_exact client hN]
  refine ⟨rfl, ?_⟩
  have e1 : u8 (H : Int) = H := by
    simp only [u8]
    omega
  have e2 : u8 (L : Int) = L := by
    simp only [u8]
    omega
  simp only [polled_flag, h1, h2, e1, e2]
  exact flag_bit _

/-- Witness of C13: both reads return 0 and the flag stored is 0. -/
theorem busy_flag_is_bit_seven_witness :
    NeverFails ready_client
    ∧ ((get_busy_flag ready_client World.init 1).1 = 0
      ∧ ((get_busy_flag ready_client World.init 1).2.1 ≠ 0
          ↔ (((0 <<< 4) ||| 0) % 256).testBit 7 = true)) :=
  ⟨ready_client_never_fails,
    busy_flag_is_bit_seven ready_client World.init 1 0 0 ready_client_never_fails
      (by decide) (by decide) rfl rfl⟩

/-- C14, the code at failing inputs.  With `H = 0x80` (bit 7 set) and `L = 0` the
flag stored is 0; with `H = 0x08` (bit 7 clear) and `L = 0` it is `0x80`; with
`H = 0` and `L = 0x80` it is `0x80`: the flag follows bit 3 of `H` and bit 7 of
`L`, not bit 7 of `H`. -/
theorem busy_flag_ignores_high_bit :
    (get_busy_flag ⟨fun _ _ => 0, fun k => if k = 0 then 0x80 else 0⟩ World.init 1).2.1 = 0
    ∧ Nat.testBit 0x80 7 = true
    ∧ (get_busy_flag ⟨fun _ _ => 0, fun k => if k = 0 then 0x08 else 0⟩ World.init 0).2.1 = 0x80
    ∧ Nat.testBit 0x08 7 = false
    ∧ (get_busy_flag ⟨fun _ _ => 0, fun k => if k = 0 then 0 else 0x80⟩ World.init 0).2.1
        = 0x80 := by
  decide

/-- C15: for every byte `b`, on a bus that never fails and with the controller not
busy at the poll, `lcd_write_4bit_command(b)` returns 0 and logs, after its poll,
exactly four writes: the high nibble pulsed, then the low nibble pulsed.  The top
four bits of the first and of the third byte written rebuild `b`, and bit 0
(register-select) is clear in all four. -/
theorem command_nibble_split (client : i2c_client) (w : World) (b : Nat)
    (hN : NeverFails client) (hb : b < 256) (hclear : polled_flag client w.reads = 0) :
    (∀ fuel, 0 < fuel →
        lcd_write_4bit_command fuel client w b
          = Res.done (0 : Int) ⟨w.trace ++ Ev.lcd_write_4bit_command b :: (poll_events
              ++ [Ev.i2c_smbus_write_byte ((b &&& 0xF0) ||| 0x0C),
                  Ev.i2c_smbus_write_byte ((b &&& 0xF0) ||| 0x08),
                  Ev.i2c_smbus_write_byte (((b &&& 0x0F) <<< 4) ||| 0x0C),
                  Ev.i2c_smbus_write_byte (((b &&& 0x0F) <<< 4) ||| 0x08)]),
              w.writes + 7, w.reads + 2⟩)
    ∧ ((((b &&& 0xF0) ||| 0x0C) >>> 4) <<< 4) ||| ((((b &&& 0x0F) <<< 4) ||| 0x0C) >>> 4) = b
    ∧ ((b &&& 0xF0) ||| 0x0C).testBit 0 = false
    ∧ ((b &&& 0xF0) ||| 0x08).testBit 0 = false
    ∧ (((b &&& 0x0F) <<< 4) ||| 0x0C).testBit 0 = false
    ∧ (((b &&& 0x0F) <<< 4) ||| 0x08).testBit 0 = false := by
  refine ⟨?_, nibbles_rebuild b hb, ?_, ?_, ?_, ?_⟩
  · intro fuel hfuel
    obtain ⟨e1, e2, e3, e4⟩ := command_bytes b hb
    have h := loop_exact_run client hN b 0 1 (w.log (Ev.lcd_write_4bit_command b))
      one_ne_zero (fun j hj => absurd hj (Nat.not_lt_zero j)) (by simpa [World.log] using hclear)
      fuel hfuel
    unfold lcd_write_4bit_command
    rw [h]
    simp only [command_pulses, pulse, World.log, busy_polls, List.nil_append,
      List.append_assoc, List.singleton_append, List.cons_append, Nat.mul_zero, Nat.add_zero]
    rw [e2, e4, e1, e3]
  · simp [Nat.testBit_or, Nat.testBit_and, literal_bits]
  · simp +decide [Nat.testBit_or, Nat.testBit_and, literal_bits]
  · simp [Nat.testBit_or, Nat.testBit_and, Nat.testBit_shiftLeft, literal_bits]
  · simp +decide [Nat.testBit_or, Nat.testBit_and, Nat.testBit_shiftLeft, literal_bits]

/-- Witness of C15: the command `0x28` on the ready bus. -/
theorem command_nibble_split_witness :
    NeverFails ready_client ∧ 0x28 < 256 ∧ polled_flag ready_client World.init.reads = 0
    ∧ lcd_write_4bit_command 1 ready_client World.init 0x28
        = Res.done (0 : Int) ⟨[Ev.lcd_write_4bit_command 0x28, Ev.get_busy_flag,
            Ev.i2c_smbus_write_byte 0xFE, Ev.i2c_smbus_read_byte,
            Ev.i2c_smbus_write_byte 0xFA, Ev.i2c_smbus_write_byte 0xFE,
            Ev.i2c_smbus_read_byte,
            Ev.i2c_smbus_write_byte 0x2C, Ev.i2c_smbus_write_byte 0x28,
            Ev.i2c_smbus_write_byte 0x8C, Ev.i2c_smbus_write_byte 0x88], 7, 2⟩ :=
  ⟨ready_client_never_fails, by decide, by decide,
    (command_nibble_split ready_client World.init 0x28 ready_client_never_fails (by decide)
      (by decide)).1 1 (by decide)⟩

/-- C16: on a bus that never fails every nibble goes out as one pulse, two
consecutive writes `base` and `base XOR 0x04`: the half command logs one pulse, the
data path two, the command path two after its poll.  In each `base` the enable
bit (bit 2) is set; in `base XOR 0x04` it is clear and every other bit is as in
`base`. -/
theorem nibble_enable_pulse (client : i2c_client) (w : World) (b : Nat)
    (hN : NeverFails client) :
    lcd_write_half_of_4bit_command client w b
        = (0, ⟨w.trace ++ [Ev.lcd_write_half_of_4bit_command b,
              Ev.i2c_smbus_write_byte ((b &&& 0xF0) ||| 0xC ||| 0x0),
              Ev.i2c_smbus_write_byte (((b &&& 0xF0) ||| 0xC ||| 0x0) ^^^ 0x4)],
            w.writes + 2, w.reads⟩)
    ∧ lcd_write_4bit_data client w b
        = (0, ⟨w.trace ++ [Ev.lcd_write_4bit_data b,
              Ev.i2c_smbus_write_byte ((b &&& 0xF0) ||| 0xC ||| 0x1),
              Ev.i2c_smbus_write_byte (((b &&& 0xF0) ||| 0xC ||| 0x1) ^^^ 0x4),
              Ev.i2c_smbus_write_byte (((b &&& 0x0F) <<< 4) ||| 0xC ||| 0x1),
              Ev.i2c_smbus_write_byte ((((b &&& 0x0F) <<< 4) ||| 0xC ||| 0x1) ^^^ 0x4)],
            w.writes + 4, w.reads⟩)
    ∧ (polled_flag client w.reads = 0 → ∀ fuel, 0 < fuel →
        lcd_write_4bit_command fuel client w b
          = Res.done (0 : Int) ⟨w.trace ++ Ev.lcd_write_4bit_command b :: (poll_events
              ++ [Ev.i2c_smbus_write_byte ((b &&& 0xF0) ||| 0xC ||| 0x0),
                  Ev.i2c_smbus_write_byte (((b &&& 0xF0) ||| 0xC ||| 0x0) ^^^ 0x4),
                  Ev.i2c_smbus_write_byte (((b &&& 0x0F) <<< 4) ||| 0xC ||| 0x0),
                  Ev.i2c_smbus_write_byte ((((b &&& 0x0F) <<< 4) ||| 0xC ||| 0x0) ^^^ 0x4)]),
              w.writes + 7, w.reads + 2⟩)
    ∧ (∀ base ∈ [(b &&& 0xF0) ||| 0xC ||| 0x0, ((b &&& 0x0F) <<< 4) ||| 0xC ||| 0x0,
          (b &&& 0xF0) ||| 0xC ||| 0x1, ((b &&& 0x0F) <<< 4) ||| 0xC ||| 0x1],
        base.testBit 2 = true ∧ (base ^^^ 0x4).testBit 2 = false
        ∧ ∀ i, i ≠ 2 → (base ^^^ 0x4).testBit i = base.testBit i) := by
  refine ⟨?_, ?_, ?_, ?_⟩
  · rw [half_exact client hN]
    rfl
  · rw [data_exact client hN]
    rfl
  · intro hclear fuel hfuel
    have h := loop_exact_run client hN b 0 1 (w.log (Ev.lcd_write_4bit_command b))
      one_ne_zero (fun j hj => absurd hj (Nat.not_lt_zero j)) (by simpa [World.log] using hclear)
      fuel hfuel
    unfold lcd_write_4bit_command
    rw [h]
    simp only [command_pulses, pulse, World.log, busy_polls, List.nil_append,
      List.append_assoc, List.singleton_append, List.cons_append, Nat.mul_zero, Nat.add_zero]
  · obtain ⟨c1, c2, c3, c4⟩ := command_base_bits b
    have key : ∀ base : Nat, base.testBit 2 = true →
        base.testBit 2 = true ∧ (base ^^^ 0x4).testBit 2 = false
        ∧ ∀ i, i ≠ 2 → (base ^^^ 0x4).testBit i = base.testBit i := by
      intro base hbase
      refine ⟨hbase, ?_, ?_⟩
      · rw [xor_enable, if_pos rfl, hbase]; rfl
      · intro i hi
        rw [xor_enable, if_neg hi]
    intro base hmem
    simp only [List.mem_cons, List.mem_singleton, List.not_mem_nil, or_false] at hmem
    rcases hmem with h | h | h | h <;> rw [h]
    · exact key _ c1
    · exact key _ c2
    · exact key _ c3
    · exact key _ c4

/-- Witness of C16: the half command `0x20` on the ready bus writes `0x2C`, `0x28`. -/
theorem nibble_enable_pulse_witness :
    NeverFails ready_client
    ∧ lcd_write_half_of_4bit_command ready_client World.init 0x20
        = (0, ⟨[Ev.lcd_write_half_of_4bit_command 0x20, Ev.i2c_smbus_write_byte 0x2C,
              Ev.i2c_smbus_write_byte 0x28], 2, 0⟩) :=
  ⟨ready_client_never_fails,
    (nibble_enable_pulse ready_client World.init 0x20 ready_client_never_fails).1⟩

/-- C17: for every byte `b`, on a bus that never fails `lcd_print_char(b)` returns 0
having logged its entry and that of `lcd_write_4bit_data` and then exactly the
four writes `(b & 0xF0) | 0x0D`, `(b & 0xF0) | 0x09`, `((b & 0x0F) << 4) | 0x0D`,
`((b & 0x0F) << 4) | 0x09`: no read, no poll, and bit 0 (register-select) set in
every byte.  On any bus, when the writes before one of these succeed and that one
fails with `e`, it returns `e` and nothing is written after the failed byte. -/
theorem print_char_writes (client : i2c_client) (w : World) (b : Nat) (hb : b < 256) :
    (NeverFails client →
        lcd_print_char client w b
          = (0, ⟨w.trace ++ [Ev.lcd_print_char b, Ev.lcd_write_4bit_data b,
                Ev.i2c_smbus_write_byte ((b &&& 0xF0) ||| 0x0D),
                Ev.i2c_smbus_write_byte ((b &&& 0xF0) ||| 0x09),
                Ev.i2c_smbus_write_byte (((b &&& 0x0F) <<< 4) ||| 0x0D),
                Ev.i2c_smbus_write_byte (((b &&& 0x0F) <<< 4) ||| 0x09)],
              w.writes + 4, w.reads⟩))
    ∧ (((b &&& 0xF0) ||| 0x0D).testBit 0 = true ∧ ((b &&& 0xF0) ||| 0x09).testBit 0 = true
        ∧ (((b &&& 0x0F) <<< 4) ||| 0x0D).testBit 0 = true
        ∧ (((b &&& 0x0F) <<< 4) ||| 0x09).testBit 0 = true)
    ∧ (∀ (e : Int) (pre : List Nat) (x : Nat) (post : List Nat), e ≠ 0 →
        [(b &&& 0xF0) ||| 0x0D, (b &&& 0xF0) ||| 0x09,
          ((b &&& 0x0F) <<< 4) ||| 0x0D, ((b &&& 0x0F) <<< 4) ||| 0x09] = pre ++ x :: post →
        (∀ j, j < pre.length → client.write_result (w.writes + j) (pre.getD j 0) = 0) →
        client.write_result (w.writes + pre.length) x = e →
        lcd_print_char client w b
          = (e, ⟨w.trace ++ Ev.lcd_print_char b :: Ev.lcd_write_4bit_data b
                :: (pre ++ [x]).map Ev.i2c_smbus_write_byte,
              w.writes + pre.length + 1, w.reads⟩)) := by
  obtain ⟨e1, e2, e3, e4⟩ := data_bytes b hb
  refine ⟨?_, ⟨?_, ?_, ?_, ?_⟩, ?_⟩
  · intro hN
    unfold lcd_print_char
    rw [data_exact client hN]
    simp only [data_pulses, pulse, World.log, List.append_assoc,
      List.singleton_append, List.cons_append, List.nil_append]
    rw [e2, e4, e1, e3]
  · simp +decide [Nat.testBit_or]
  · simp +decide [Nat.testBit_or]
  · simp +decide [Nat.testBit_or]
  · simp +decide [Nat.testBit_or]
  · intro e pre x post he hsplit hpre hx
    unfold lcd_print_char
    rw [data_eq_sequence, e2, e4, e1, e3, hsplit]
    rw [write_sequence_fail client x post e he pre _ (by simpa [World.log] using hpre)
      (by simpa [World.log] using hx)]
    simp only [World.log, List.append_assoc, List.singleton_append, List.cons_append,
      List.nil_append]

/-- Witness of C17: `H` on the ready bus, and `H` on a bus whose second write fails
with -5. -/
theorem print_char_writes_witness :
    72 < 256 ∧ NeverFails ready_client
    ∧ lcd_print_char ready_client World.init 72
        = (0, ⟨[Ev.lcd_print_char 72, Ev.lcd_write_4bit_data 72,
              Ev.i2c_smbus_write_byte 0x4D, Ev.i2c_smbus_write_byte 0x49,
              Ev.i2c_smbus_write_byte 0x8D, Ev.i2c_smbus_write_byte 0x89], 4, 0⟩)
    ∧ lcd_print_char ⟨fun k _ => if k = 1 then -5 else 0, fun _ => 0⟩ World.init 72
        = (-5, ⟨[Ev.lcd_print_char 72, Ev.lcd_write_4bit_data 72,
              Ev.i2c_smbus_write_byte 0x4D, Ev.i2c_smbus_write_byte 0x49], 2, 0⟩) :=
  ⟨by decide, ready_client_never_fails,
    (print_char_writes ready_client World.init 72 (by decide)).1 ready_client_never_fails,
    (print_char_writes ⟨fun k _ => if k = 1 then -5 else 0, fun _ => 0⟩ World.init 72
      (by decide)).2.2 (-5) [0x4D] 0x49 [0x8D, 0x89] (by decide) (by decide) (by decide)
      (by decide)⟩

/-- C19: on a bus that never fails, with the controller busy at the first `k` polls
of a call of `lcd_write_4bit_command` and not busy at the next one, the call
returns 0 for every fuel above `k`, and what it logged is its entry, `k` times a
poll followed by `msleep(10)`, one more poll, and only then the four nibble
writes: `k + 1` calls of `get_busy_flag`, `k` sleeps, and before the last poll ends
no write other than the poll's `0xFE` and `0xFA`.  With fuel up to `k` the call is
still polling and has written no nibble.  With the controller busy at every poll
the call polls and sleeps at every fuel and never writes a nibble. -/
theorem command_waits_for_busy_flag (client : i2c_client) (cmd : Nat) (w : World)
    (hN : NeverFails client) :
    (∀ k, (∀ j, j < k → polled_flag client (w.reads + 2 * j) ≠ 0) →
        polled_flag client (w.reads + 2 * k) = 0 →
        (∀ fuel, k < fuel →
          lcd_write_4bit_command fuel client w cmd
            = Res.done (0 : Int) ⟨w.trace ++ Ev.lcd_write_4bit_command cmd
                :: (busy_polls k ++ (poll_events ++ command_pulses cmd)),
                w.writes + 3 * k + 7, w.reads + 2 * k + 2⟩)
        ∧ (∀ fuel, fuel ≤ k →
          lcd_write_4bit_command fuel client w cmd
            = Res.running ⟨w.trace ++ Ev.lcd_write_4bit_command cmd :: busy_polls fuel,
                w.writes + 3 * fuel, w.reads + 2 * fuel⟩)
        ∧ (Ev.lcd_write_4bit_command cmd
            :: (busy_polls k ++ (poll_events ++ command_pulses cmd))).count Ev.get_busy_flag
              = k + 1
        ∧ (Ev.lcd_write_4bit_command cmd
            :: (busy_polls k ++ (poll_events ++ command_pulses cmd))).count (Ev.msleep 10) = k
        ∧ (∀ b, Ev.i2c_smbus_write_byte b
              ∈ Ev.lcd_write_4bit_command cmd :: (busy_polls k ++ poll_events) →
            b = 0xFE ∨ b = 0xFA))
    ∧ ((∀ j, polled_flag client (w.reads + 2 * j) ≠ 0) → ∀ fuel,
        lcd_write_4bit_command fuel client w cmd
          = Res.running ⟨w.trace ++ Ev.lcd_write_4bit_command cmd :: busy_polls fuel,
              w.writes + 3 * fuel, w.reads + 2 * fuel⟩)
    ∧ (∀ k b, Ev.i2c_smbus_write_byte b ∈ busy_polls k → b = 0xFE ∨ b = 0xFA) := by
  have hbusy : ∀ fuel, (∀ j, j < fuel → polled_flag client (w.reads + 2 * j) ≠ 0) →
      lcd_write_4bit_command fuel client w cmd
        = Res.running ⟨w.trace ++ Ev.lcd_write_4bit_command cmd :: busy_polls fuel,
            w.writes + 3 * fuel, w.reads + 2 * fuel⟩ := by
    intro fuel hj
    unfold lcd_write_4bit_command
    rw [loop_exact_busy client hN cmd fuel 1 (w.log (Ev.lcd_write_4bit_command cmd))
      one_ne_zero (by simpa [World.log] using hj)]
    simp only [World.log, List.append_assoc, List.singleton_append]
  refine ⟨?_, ?_, ?_⟩
  · intro k hb hc
    obtain ⟨c1, c2, c3⟩ := count_busy_polls k
    refine ⟨?_, ?_, ?_, ?_, ?_⟩
    · intro fuel hfuel
      unfold lcd_write_4bit_command
      rw [loop_exact_run client hN cmd k 1 (w.log (Ev.lcd_write_4bit_command cmd))
        one_ne_zero (by simpa [World.log] using hb) (by simpa [World.log] using hc) fuel hfuel]
      simp only [World.log, List.append_assoc, List.singleton_append]
    · intro fuel hfuel
      exact hbusy fuel (fun j hj => hb j (by omega))
    · rw [List.count_cons, List.count_append, List.count_append, c1]
      simp [poll_events, command_pulses, pulse]
    · rw [List.count_cons, List.count_append, List.count_append, c2]
      simp [poll_events, command_pulses, pulse]
    · intro b hmem
      rcases List.mem_cons.mp hmem with h | h
      · exact absurd h (by simp)
      · rcases List.mem_append.mp h with h1 | h1
        · exact c3 b h1
        · simp [poll_events] at h1
          rcases h1 with h2 | h2 | h2
          · exact Or.inl h2
          · exact Or.inr h2
          · exact Or.inl h2
  · intro hall fuel
    exact hbusy fuel (fun j _ => hall j)
  · intro k b
    exact (count_busy_polls k).2.2 b

/-- Witness of C19: the controller is busy at two polls, then not busy; the command
`0x01` is sent after three polls and two sleeps. -/
theorem command_waits_for_busy_flag_witness :
    NeverFails busy_twice_client
    ∧ (∀ j, j < 2 → polled_flag busy_twice_client (World.init.reads + 2 * j) ≠ 0)
    ∧ polled_flag busy_twice_client (World.init.reads + 2 * 2) = 0
    ∧ ∀ fuel, 2 < fuel →
        lcd_write_4bit_command fuel busy_twice_client World.init 0x01
          = Res.done (0 : Int) ⟨World.init.trace ++ Ev.lcd_write_4bit_command 0x01
              :: (busy_polls 2 ++ (poll_events ++ command_pulses 0x01)),
              World.init.writes + 3 * 2 + 7, World.init.reads + 2 * 2 + 2⟩ :=
  ⟨busy_twice_never_fails, by decide, by decide,
    ((command_waits_for_busy_flag busy_twice_client 0x01 World.init busy_twice_never_fails).1 2
      (by decide) (by decide)).1⟩

/-- C18: whatever the bus does and whatever the input, every byte written to the
expander during `lcd_init`, `lcd_clear`, `lcd_set_cursor`, `lcd_print_char`,
`get_busy_flag` (the poll bytes `0xFE` and `0xFA`), `lcd_write_4bit_command` and
`device_write` has the backlight bit (bit 3) set; and every byte written by the
nibble writes of the command path, by the data path and by the half-command path
has the read/write bit (bit 1) clear. -/
theorem backlight_always_on (fuel : Nat) (client : i2c_client) (w : World) :
    Appends Backlit w (lcd_init fuel client w).world
    ∧ Appends Backlit w (lcd_clear fuel client w).world
    ∧ (∀ pos, Appends Backlit w (lcd_set_cursor fuel client w pos).world)
    ∧ (∀ symbol, Appends Backlit w (lcd_print_char client w symbol).2)
    ∧ (∀ f, Appends Backlit w (get_busy_flag client w f).2.2)
    ∧ (∀ cmd, Appends Backlit w (lcd_write_4bit_command fuel client w cmd).world)
    ∧ (∀ cmd, Appends Backlit w (lcd_write_half_of_4bit_command client w cmd).2)
    ∧ (∀ filp buff len off msg,
        Appends Backlit w (device_write fuel filp buff len off msg w).world)
    ∧ (Nat.testBit 0xFE 3 = true ∧ Nat.testBit 0xFA 3 = true)
    ∧ (∀ cmd, Appends WriteMode w (lcd_write_4bit_command_send client w cmd).2)
    ∧ (∀ cmd, Appends WriteMode w (lcd_write_4bit_data client w cmd).2)
    ∧ (∀ cmd, Appends WriteMode w (lcd_write_half_of_4bit_command client w cmd).2) := by
  refine ⟨backlit_init fuel client w, backlit_clear fuel client w,
    backlit_set_cursor fuel client w, backlit_print_char client w, ?_,
    backlit_command fuel client w, backlit_half client w,
    fun filp buff len off msg => backlit_device_write fuel filp buff len off msg w,
    ⟨by decide, by decide⟩, ?_, ?_, ?_⟩
  · intro f
    exact appends_get_busy_flag client w f lowLevel_backlit.1
  · intro cmd
    exact appends_send client w cmd (writeMode_command_pulses cmd)
  · intro cmd
    exact appends_trans (appends_log w _ (fun b hb => absurd hb (by simp)))
      (appends_data client w cmd (writeMode_data_pulses cmd))
  · intro cmd
    exact appends_trans (appends_log w _ (fun b hb => absurd hb (by simp)))
      (appends_half client w cmd (writeMode_command_pulses cmd))

/-- C20: every buffer state reached from the all-zero buffer by calls of
`device_write`, with any file, offset, length, user bytes and bus, `len + off`
not wrapping, has 34 bytes with `msg[33] = 0`, so the newline search ends inside
the array.  A further call from such a state: when the capacity check accepts it,
`off + len ≤ 33` and the copy changes nothing below `off` or from `off + len` on,
and the search on the copied buffer ends inside the array; the display operations
of the call are at most 32 calls of `lcd_print_char`, each on a byte that is
neither newline nor NUL, `lcd_clear`, and `lcd_set_cursor` with 0 or 16 only; a
returned call never gives `-EINVAL` and leaves a buffer with `msg[33] = 0`.
`lcd_set_cursor` passes 0 and 16 through its range check. -/
theorem buffer_invariant (msg : List Byte) (h : Reachable msg) :
    (msg.length = 34 ∧ msg.getD 33 0 = 0)
    ∧ (∀ junk, strchr (msg ++ junk) 10 = strchr msg 10)
    ∧ (∀ (fuel : Nat) (filp : file) (buff : List Byte) (len off : Nat) (w : World),
        len + off < 2 ^ 64 →
        (¬ (len + off) % 2 ^ 64 > WRITE_BUF_LENGTH - 1 →
            off + len ≤ 33
            ∧ (copy_from_user msg off buff len).2.take off = msg.take off
            ∧ (copy_from_user msg off buff len).2.drop (off + len) = msg.drop (off + len)
            ∧ (copy_from_user msg off buff len).2.length = 34
            ∧ (copy_from_user msg off buff len).2.getD 33 0 = 0
            ∧ ∀ junk, strchr ((copy_from_user msg off buff len).2 ++ junk) 10
                = strchr (copy_from_user msg off buff len).2 10)
        ∧ (∃ p, displayOps (device_write fuel filp buff len off msg w).world.trace
              = displayOps w.trace ++ p
            ∧ p.countP isPrintChar ≤ 32
            ∧ ∀ e ∈ p, e = Ev.lcd_clear ∨ e = Ev.lcd_set_cursor 0 ∨ e = Ev.lcd_set_cursor 16
                ∨ ∃ b : Byte, e = Ev.lcd_print_char b.val ∧ b ≠ 10 ∧ b ≠ 0)
        ∧ (∀ r w', device_write fuel filp buff len off msg w = Res.done r w' →
            r.ret ≠ -EINVAL ∧ r.msg.length = 34 ∧ r.msg.getD 33 0 = 0))
    ∧ (∀ (fuel : Nat) (client : i2c_client) (w : World),
        lcd_set_cursor fuel client w 0
            = lcd_write_4bit_command fuel client (w.log (Ev.lcd_set_cursor 0)) 0x80
        ∧ lcd_set_cursor fuel client w 16
            = lcd_write_4bit_command fuel client (w.log (Ev.lcd_set_cursor 16)) 0xC0) := by
  have hok := reachable_ok msg h
  refine ⟨hok, strchr_stops msg (bufferOK_has_nul msg hok), ?_, ?_⟩
  · intro fuel filp buff len off w hno
    refine ⟨?_, call_ops fuel filp buff len off msg w hok hno, ?_⟩
    · intro hacc
      have hle := accepted_le len off hno hacc
      obtain ⟨hcp, ht, hd⟩ := copy_in_bounds msg off buff len hok hle
      exact ⟨hle, ht, hd, hcp.1, hcp.2, strchr_stops _ (bufferOK_has_nul _ hcp)⟩
    · intro r w' hd
      have hb := device_write_keeps_buffer fuel filp buff len off msg w r w' hok hno hd
      refine ⟨?_, hb.1, hb.2⟩
      rcases (device_write_result fuel filp buff len off msg w r w' hd).2 with h1 | h1 | h1 | h1
        <;> rw [h1] <;> simp only [ENODEV, EMSGSIZE, EFAULT, EINVAL] <;> omega
  · intro fuel client w
    exact ⟨(lcd_set_cursor_command fuel client w 0 (by decide) (by decide)).1,
      (lcd_set_cursor_command fuel client w 16 (by decide) (by decide)).1⟩

/-- Witness of C20: the buffer after `"A"` has been written at offset 5. -/
theorem buffer_invariant_witness :
    Reachable (List.replicate 5 0 ++ 65 :: List.replicate 28 0)
    ∧ (List.replicate 5 0 ++ 65 :: List.replicate 28 0 : List Byte).length = 34
    ∧ (List.replicate 5 0 ++ 65 :: List.replicate 28 0 : List Byte).getD 33 0 = 0 :=
  ⟨Reachable.returned empty_msg 0 (opened ready_client) [65] 1 5 World.init
      ⟨1, 6, List.replicate 5 0 ++ 65 :: List.replicate 28 0⟩ World.init
      Reachable.init (by decide) (by decide),
    (buffer_invariant (List.replicate 5 0 ++ 65 :: List.replicate 28 0)
      (Reachable.returned empty_msg 0 (opened ready_client) [65] 1 5 World.init
        ⟨1, 6, List.replicate 5 0 ++ 65 :: List.replicate 28 0⟩ World.init
        Reachable.init (by decide) (by decide))).1⟩
end LcdDriver
